import Mathlib

/-!
# codify: the lexer of `src/lexer.c`

A shallow embedding of the scanner of `src/lexer.c` (keyword hash table, scan
cursor, growable token list, dispatch loop and sub-scanners) and theorems
about it.

Conventions of the embedding.

* A `char*` argument is the list of bytes found at the pointer; the text of
  the C string is the part before the first NUL (`cstr`), its length is
  `strlen`.  Reading `source[i]` at `i = length` gives the terminating NUL.
* `char` is Lean's `Char`, the byte with that code; `isdigit`, `isalpha`,
  `isalnum` are those of the "C" locale (ASCII only).  Where a `char` enters
  arithmetic (in `hash`) it is the signed 8-bit value (`charValue`).
* `long`, `int` cursors are natural numbers (they only count up from 0 and are
  bounded by the text length plus one); `unsigned int` arithmetic in `hash`
  is taken modulo `2 ^ 32`.
* `malloc`/`realloc` are taken to succeed; `exit(1)` is the outcome `abort`.
* The file-scope variables `source`, `source_len`, `current`, `start`,
  `hashtab` form the record `Lexer` and are passed explicitly.
* C loops are run with a fuel argument; running out of fuel is the separate
  outcome `outOfFuel`, never confused with a result or an abort.
* `HASH_SIZE` and `LIST_SIZE` come from the header `headers/lexer.h`, which is
  not part of the sources at hand: they are parameters.
-/

namespace Codify

/-! ## Data model -/

/-- Modelled from the spec: the enumeration `enum TokenType` of
`headers/lexer.h` (the header is absent); the constructors are exactly the
enumerators that `lexer.c` uses, taken to be pairwise distinct. -/
inductive TokenType where
  | LEFT_PAREN | RIGHT_PAREN | LEFT_BRACE | RIGHT_BRACE | LEFT_BRACKET | RIGHT_BRACKET
  | DECR | MINUS_EQUAL | MINUS | INCR | PLUS_EQUAL | PLUS
  | STAR_EQUAL | STAR | MODULO_EQUAL | MODULO | SLASH_EQUAL | SLASH
  | LEFT_SHIFT | LESS_EQUAL | LESS | RIGHT_SHIFT | GREATER_EQUAL | GREATER
  | EQUAL_EQUAL | EQUAL | BANG_EQUAL | BANG
  | SEMICOLON | DOT | COMMA | AND | BIT_AND | OR | BIT_OR | XOR | BIT_NOT
  | WHITE_SPACE | CARR_SPACE | TAB_SPACE | NEW_LINE | ENDFILE
  | STRING | PREPROC | NUMBER | IDENTIFIER
  | CONST | INT | DOUBLE | FLOAT | CHAR | UNSIGNED | LONG | ENUM | STRUCT | UNION
  | TYPEDEF | RETURN | DO | WHILE | FOR | IF | ELSE | TRUE | FALSE | NIL
  deriving DecidableEq

/-- Modelled from the spec: `Token` of `headers/lexer.h` (absent), with the two
fields `type` and `lexeme` that `addToken` writes. -/
structure Token where
  type : TokenType
  lexeme : List Char
  deriving DecidableEq

/-- Modelled from the spec: `TokenList` of `headers/lexer.h` (absent), with the
fields `tokens`, `index`, `max` used by `initTokenList` and `addToken`.
`tokens` lists the cells written so far, in order (cell `i` is `tokens[i]`);
the unwritten rest of the allocated block is not represented. -/
structure TokenList where
  tokens : List Token
  index : Nat
  max : Nat
  deriving DecidableEq

/-- Modelled from the spec: a chain node `Hashlist` of `headers/lexer.h`
(absent) with the fields `key` and `val` used by `lookup` and `put`; the
`next` pointer is the tail of the list that holds the node. -/
structure Hashlist where
  key : List Char
  val : TokenType
  deriving DecidableEq

/-- The file-scope variables of `lexer.c`. -/
structure Lexer where
  source : List Char
  source_len : Nat
  current : Nat
  start : Nat
  hashtab : Nat → List Hashlist

/-- The two `exit(1)` paths of the scanner. -/
inductive Err where
  | UnterminatedString
  | UnexpectedChar (c : Char)
  deriving DecidableEq

/-- Result of running a piece of the scanner. -/
inductive Outcome (α : Type) where
  | ok (a : α)
  | abort (e : Err)
  | outOfFuel
  deriving DecidableEq

/-- Sequencing of outcomes. -/
def Outcome.bind {α β : Type} (x : Outcome α) (f : α → Outcome β) : Outcome β :=
  match x with
  | .ok a => f a
  | .abort e => .abort e
  | .outOfFuel => .outOfFuel

/-! ## C strings and `ctype.h` -/

/-- The character `'\0'`. -/
def NUL : Char := Char.ofNat 0

/-- The double quote character. -/
def DQUOTE : Char := Char.ofNat 34

/-- The text of the C string stored at a pointer: the bytes before the first NUL. -/
def cstr : List Char → List Char
  | [] => []
  | c :: s => if c = NUL then [] else c :: cstr s

/-- The libc `strlen`. -/
def strlen : List Char → Nat
  | [] => 0
  | c :: s => if c = NUL then 0 else strlen s + 1

/-- The libc `isdigit` in the "C" locale. -/
def isdigit (c : Char) : Bool := decide ('0' ≤ c ∧ c ≤ '9')

/-- The libc `isalpha` in the "C" locale. -/
def isalpha (c : Char) : Bool := decide (('a' ≤ c ∧ c ≤ 'z') ∨ ('A' ≤ c ∧ c ≤ 'Z'))

/-- The libc `isalnum` in the "C" locale. -/
def isalnum (c : Char) : Bool := isalpha c || isdigit c

/-! ## Keyword table: `hash`, `lookup`, `put` -/

/-- The operand `*s` of `hash` after its conversion to `unsigned int`. Plain `char` is
signed (8 bits, as on x86-64): a byte below 0x80 has its own value, a byte `b` from 0x80
to 0xFF has the value `b - 256`, which the conversion turns into `2 ^ 32 - 256 + b`. -/
def charValue (c : Char) : Nat :=
  if c.toNat < 128 then c.toNat else 2 ^ 32 - 256 + c.toNat

/-- The loop of `hash`: `for (...; *s != 0; s++) hashval = *s + 31 * hashval;`
on an `unsigned int` (32 bits). -/
def hashLoop : List Char → Nat → Nat
  | [], hashval => hashval
  | c :: s, hashval =>
    if c = NUL then hashval else hashLoop s ((charValue c + 31 * hashval) % 2 ^ 32)

/-- The function `hash`. -/
def hash (HASH_SIZE : Nat) (s : List Char) : Nat :=
  hashLoop s 0 % HASH_SIZE

/-- The chain walk of `lookup`: the first node `h` with `strcmp(s, h->key) == 0`. -/
def lookupChain (s : List Char) : List Hashlist → Option Hashlist
  | [] => none
  | h :: next => if cstr s = cstr h.key then some h else lookupChain s next

/-- The function `lookup`. -/
def lookup (HASH_SIZE : Nat) (hashtab : Nat → List Hashlist) (s : List Char) :
    Option Hashlist :=
  lookupChain s (hashtab (hash HASH_SIZE s))

/-- The assignment `h->val = val` on the node that `lookup` returned, seen on its chain. -/
def setVal (key : List Char) (val : TokenType) : List Hashlist → List Hashlist
  | [] => []
  | h :: next =>
    if cstr key = cstr h.key then { h with val := val } :: next
    else h :: setVal key val next

/-- The function `put`: the node returned and the table afterwards. -/
def put (HASH_SIZE : Nat) (hashtab : Nat → List Hashlist) (key : List Char)
    (val : TokenType) : Hashlist × (Nat → List Hashlist) :=
  match lookup HASH_SIZE hashtab key with
  | none =>
    let h : Hashlist := { key := cstr key, val := val }
    let hashval := hash HASH_SIZE key
    (h, Function.update hashtab hashval (h :: hashtab hashval))
  | some h =>
    let hashval := hash HASH_SIZE key
    ({ h with val := val }, Function.update hashtab hashval (setVal key val (hashtab hashval)))

/-! ## Cursor helpers -/

/-- The read `source[i]`. -/
def Lexer.charAt (g : Lexer) (i : Nat) : Char := g.source.getD i NUL

/-- The function `advance`: `return source[current++];`. -/
def advance (g : Lexer) : Char × Lexer :=
  (g.charAt g.current, { g with current := g.current + 1 })

/-- The function `match`. -/
def match_ (g : Lexer) (expected : Char) : Bool × Lexer :=
  if g.current ≥ g.source_len then (false, g)
  else if g.charAt g.current ≠ expected then (false, g)
  else (true, { g with current := g.current + 1 })

/-- The function `peek`. -/
def peek (g : Lexer) : Char :=
  if g.current ≥ g.source_len then NUL else g.charAt g.current

/-- The function `peekNext`. -/
def peekNext (g : Lexer) : Char :=
  if g.current + 1 ≥ g.source_len then NUL else g.charAt (g.current + 1)

/-! ## Token list -/

/-- The function `initTokenList`. -/
def initTokenList (LIST_SIZE : Nat) : TokenList :=
  { tokens := [], index := 0, max := LIST_SIZE }

/-- The copy loop of `addToken`: the bytes `source[start], ..., source[current - 1]`. -/
def Lexer.lexeme (g : Lexer) : List Char :=
  (List.range' g.start (g.current - g.start)).map g.charAt

/-- The function `addToken`. -/
def addToken (g : Lexer) (list : TokenList) (type : TokenType) : TokenList :=
  { tokens := list.tokens ++ [{ type := type, lexeme := g.lexeme }]
    index := list.index + 1
    max := if list.index = list.max then list.max * 2 else list.max }

/-! ## Sub-scanners -/

/-- A loop of the shape `while (cond) advance();`. -/
def advanceWhile (cond : Lexer → Bool) : Nat → Lexer → Outcome Lexer
  | 0, _ => .outOfFuel
  | fuel + 1, g => if cond g then advanceWhile cond fuel (advance g).2 else .ok g

/-- Fuel that suffices for every loop of a scan of `g.source`. -/
def Lexer.fuel (g : Lexer) : Nat := g.source_len + 2

/-- The `while` loop of `addString`. -/
def addStringLoop : Nat → Lexer → Outcome Lexer
  | 0, _ => .outOfFuel
  | fuel + 1, g =>
    if peek g ≠ DQUOTE ∧ g.current ≤ g.source_len then
      if peek g = '\n' then .abort .UnterminatedString
      else addStringLoop fuel (advance g).2
    else .ok g

/-- The function `addString`. -/
def addString (g : Lexer) (list : TokenList) : Outcome (Lexer × TokenList) :=
  (addStringLoop g.fuel g).bind fun g1 =>
    if g1.current ≥ g1.source_len then .abort .UnterminatedString
    else
      let g2 := (advance g1).2
      .ok (g2, addToken g2 list .STRING)

/-- The function `addPreprocessor`. -/
def addPreprocessor (g : Lexer) (list : TokenList) : Outcome (Lexer × TokenList) :=
  (advanceWhile (fun g => peek g ≠ ' ' ∧ g.current < g.source_len) g.fuel g).bind fun g1 =>
    .ok (g1, addToken g1 list .PREPROC)

/-- The function `addNumber`. -/
def addNumber (g : Lexer) (list : TokenList) : Outcome (Lexer × TokenList) :=
  (advanceWhile (fun g => isdigit (peek g)) g.fuel g).bind fun g1 =>
    if peek g1 = '.' ∧ isdigit (peekNext g1) then
      let g2 := (advance g1).2
      (advanceWhile (fun g => isdigit (peek g)) g.fuel g2).bind fun g3 =>
        .ok (g3, addToken g3 list .NUMBER)
    else .ok (g1, addToken g1 list .NUMBER)

/-- The function `addIdentifier`; `text` is the copy `source[start .. current)`. -/
def addIdentifier (HASH_SIZE : Nat) (g : Lexer) (list : TokenList) :
    Outcome (Lexer × TokenList) :=
  (advanceWhile (fun g => isalnum (peek g) || peek g = '_') g.fuel g).bind fun g1 =>
    let text := g1.lexeme
    match lookup HASH_SIZE g1.hashtab text with
    | none => .ok (g1, addToken g1 list .IDENTIFIER)
    | some h => .ok (g1, addToken g1 list h.val)

/-! ## The dispatch loop of `tokenize` -/

/-- How one pass through the `switch` of `tokenize` ends: `break` into the next
loop iteration, or `return list`. -/
inductive Flow where
  | brk (g : Lexer) (list : TokenList)
  | ret (g : Lexer) (list : TokenList)

/-- A case `addToken(list, match(c1) ? t1 : t); break;`. -/
def addOp1 (g : Lexer) (list : TokenList) (c1 : Char) (t1 t : TokenType) : Flow :=
  let m1 := match_ g c1
  if m1.1 then .brk m1.2 (addToken m1.2 list t1) else .brk m1.2 (addToken m1.2 list t)

/-- A case `addToken(list, match(c1) ? t1 : match(c2) ? t2 : t); break;`. -/
def addOp2 (g : Lexer) (list : TokenList) (c1 : Char) (t1 : TokenType) (c2 : Char)
    (t2 t : TokenType) : Flow :=
  let m1 := match_ g c1
  if m1.1 then .brk m1.2 (addToken m1.2 list t1) else addOp1 m1.2 list c2 t2 t

/-- A sub-scanner call followed by `break`. -/
def thenBreak (r : Outcome (Lexer × TokenList)) : Outcome Flow :=
  r.bind fun p => .ok (.brk p.1 p.2)

/-- The `switch (c)` of `tokenize`, entered after `char c = advance();`. -/
def switchOn (HASH_SIZE : Nat) (c : Char) (g : Lexer) (list : TokenList) : Outcome Flow :=
  if c = '(' then .ok (.brk g (addToken g list .LEFT_PAREN))
  else if c = ')' then .ok (.brk g (addToken g list .RIGHT_PAREN))
  else if c = '{' then .ok (.brk g (addToken g list .LEFT_BRACE))
  else if c = '}' then .ok (.brk g (addToken g list .RIGHT_BRACE))
  else if c = '[' then .ok (.brk g (addToken g list .LEFT_BRACKET))
  else if c = ']' then .ok (.brk g (addToken g list .RIGHT_BRACKET))
  else if c = '-' then .ok (addOp2 g list '-' .DECR '=' .MINUS_EQUAL .MINUS)
  else if c = '+' then .ok (addOp2 g list '+' .INCR '=' .PLUS_EQUAL .PLUS)
  else if c = '*' then .ok (addOp1 g list '=' .STAR_EQUAL .STAR)
  else if c = '%' then .ok (addOp1 g list '=' .MODULO_EQUAL .MODULO)
  else if c = '/' then .ok (addOp1 g list '=' .SLASH_EQUAL .SLASH)
  else if c = '<' then .ok (addOp2 g list '<' .LEFT_SHIFT '=' .LESS_EQUAL .LESS)
  else if c = '>' then .ok (addOp2 g list '>' .RIGHT_SHIFT '=' .GREATER_EQUAL .GREATER)
  else if c = '=' then .ok (addOp1 g list '=' .EQUAL_EQUAL .EQUAL)
  else if c = '!' then .ok (addOp1 g list '=' .BANG_EQUAL .BANG)
  else if c = ';' then .ok (.brk g (addToken g list .SEMICOLON))
  else if c = '.' then .ok (.brk g (addToken g list .DOT))
  else if c = ',' then .ok (.brk g (addToken g list .COMMA))
  else if c = '&' then .ok (addOp1 g list '&' .AND .BIT_AND)
  else if c = '|' then .ok (addOp1 g list '|' .OR .BIT_OR)
  else if c = '^' then .ok (.brk g (addToken g list .XOR))
  else if c = '~' then .ok (.brk g (addToken g list .BIT_NOT))
  else if c = ' ' then
    (advanceWhile (fun g => peek g = ' ' ∧ g.current < g.source_len) g.fuel g).bind fun g1 =>
      .ok (.brk g1 (addToken g1 list .WHITE_SPACE))
  else if c = '\r' then .ok (.brk g (addToken g list .CARR_SPACE))
  else if c = '\t' then .ok (.brk g (addToken g list .TAB_SPACE))
  else if c = '\n' then .ok (.brk g (addToken g list .NEW_LINE))
  else if c = NUL then .ok (.ret g (addToken g list .ENDFILE))
  else if c = DQUOTE then thenBreak (addString g list)
  else if c = '#' then thenBreak (addPreprocessor g list)
  else if isdigit c then thenBreak (addNumber g list)
  else if isalpha c then thenBreak (addIdentifier HASH_SIZE g list)
  else .abort (.UnexpectedChar c)

/-- The `while (current < source_len)` loop of `tokenize` with the final `return list`. -/
def tokenizeLoop (HASH_SIZE : Nat) : Nat → Lexer → TokenList → Outcome (TokenList × Lexer)
  | 0, _, _ => .outOfFuel
  | fuel + 1, g, list =>
    if g.current < g.source_len then
      let g1 := { g with start := g.current }
      let a := advance g1
      (switchOn HASH_SIZE a.1 a.2 list).bind fun f =>
        match f with
        | .brk g2 list2 => tokenizeLoop HASH_SIZE fuel g2 list2
        | .ret g2 list2 => .ok (list2, g2)
    else .ok (list, g)

/-- The twenty `put` calls at the start of `tokenize`. -/
def putKeywords (HASH_SIZE : Nat) (hashtab : Nat → List Hashlist) : Nat → List Hashlist :=
  let t := (put HASH_SIZE hashtab "const".toList .CONST).2
  let t := (put HASH_SIZE t "int".toList .INT).2
  let t := (put HASH_SIZE t "double".toList .DOUBLE).2
  let t := (put HASH_SIZE t "float".toList .FLOAT).2
  let t := (put HASH_SIZE t "char".toList .CHAR).2
  let t := (put HASH_SIZE t "unsigned".toList .UNSIGNED).2
  let t := (put HASH_SIZE t "long".toList .LONG).2
  let t := (put HASH_SIZE t "enum".toList .ENUM).2
  let t := (put HASH_SIZE t "struct".toList .STRUCT).2
  let t := (put HASH_SIZE t "union".toList .UNION).2
  let t := (put HASH_SIZE t "typedef".toList .TYPEDEF).2
  let t := (put HASH_SIZE t "return".toList .RETURN).2
  let t := (put HASH_SIZE t "do".toList .DO).2
  let t := (put HASH_SIZE t "while".toList .WHILE).2
  let t := (put HASH_SIZE t "for".toList .FOR).2
  let t := (put HASH_SIZE t "if".toList .IF).2
  let t := (put HASH_SIZE t "else".toList .ELSE).2
  let t := (put HASH_SIZE t "true".toList .TRUE).2
  let t := (put HASH_SIZE t "false".toList .FALSE).2
  (put HASH_SIZE t "NULL".toList .NIL).2

/-- The function `tokenize`, run in the state `g` of the file-scope variables:
the token list returned and the state left behind. -/
def tokenize (HASH_SIZE LIST_SIZE : Nat) (g : Lexer) (input : List Char) :
    Outcome (TokenList × Lexer) :=
  let g1 := { g with source := input, source_len := strlen input }
  let list := initTokenList LIST_SIZE
  let g2 := { g1 with hashtab := putKeywords HASH_SIZE g1.hashtab }
  tokenizeLoop HASH_SIZE (g2.fuel) g2 list

/-- The table before any `put`: every bucket is the null pointer. -/
def emptyTable : Nat → List Hashlist := fun _ => []

/-- The file-scope variables at program start: `current = 0`, `start = 0`
(their initialisers), `source` and `hashtab` zero-initialised. -/
def Lexer.init : Lexer :=
  { source := [], source_len := 0, current := 0, start := 0, hashtab := emptyTable }

/-- The token sequence returned by `tokenize`, when it returns. -/
def tokensOf (r : Outcome (TokenList × Lexer)) : Option (List Token) :=
  match r with
  | .ok p => some p.1.tokens
  | _ => none

/-! ## Vocabulary of the statements -/

/-- The loop condition `cond` holds exactly when the cursor is inside the text and the
character under it satisfies `p`. -/
def CondOn (cond : Lexer → Bool) (p : Char → Bool) : Prop :=
  ∀ g, cond g = (decide (g.current < g.source_len) && p (g.charAt g.current))

/-- Position `n` holds the closing quote of a string literal scanned from the cursor:
it is inside the text, holds a double quote, and no double quote or newline comes
before it. -/
def ClosingQuote (g : Lexer) (n : Nat) : Prop :=
  g.current ≤ n ∧ n < g.source_len ∧ g.charAt n = DQUOTE ∧
    ∀ i, g.current ≤ i → i < n → g.charAt i ≠ DQUOTE ∧ g.charAt i ≠ '\n'

/-- The kind of the one-character tokens that `tokenize` emits without looking ahead:
the punctuation `( ) { } [ ] ; . , ^ ~` and carriage return, tab, newline. -/
def singleKind (c : Char) : Option TokenType :=
  if c = '(' then some .LEFT_PAREN
  else if c = ')' then some .RIGHT_PAREN
  else if c = '{' then some .LEFT_BRACE
  else if c = '}' then some .RIGHT_BRACE
  else if c = '[' then some .LEFT_BRACKET
  else if c = ']' then some .RIGHT_BRACKET
  else if c = ';' then some .SEMICOLON
  else if c = '.' then some .DOT
  else if c = ',' then some .COMMA
  else if c = '^' then some .XOR
  else if c = '~' then some .BIT_NOT
  else if c = '\r' then some .CARR_SPACE
  else if c = '\t' then some .TAB_SPACE
  else if c = '\n' then some .NEW_LINE
  else none

/-- The single-character operator kind of each of the characters
`- + * % / < > = ! & |`. -/
def opKind (c : Char) : Option TokenType :=
  if c = '-' then some .MINUS
  else if c = '+' then some .PLUS
  else if c = '*' then some .STAR
  else if c = '%' then some .MODULO
  else if c = '/' then some .SLASH
  else if c = '<' then some .LESS
  else if c = '>' then some .GREATER
  else if c = '=' then some .EQUAL
  else if c = '!' then some .BANG
  else if c = '&' then some .BIT_AND
  else if c = '|' then some .BIT_OR
  else none

/-- The character of a single-character operator kind. -/
def opChar (t : TokenType) : Option Char :=
  match t with
  | .MINUS => some '-'
  | .PLUS => some '+'
  | .STAR => some '*'
  | .MODULO => some '%'
  | .SLASH => some '/'
  | .LESS => some '<'
  | .GREATER => some '>'
  | .EQUAL => some '='
  | .BANG => some '!'
  | .BIT_AND => some '&'
  | .BIT_OR => some '|'
  | _ => none

/-- The fifteen two-character operator spellings
`-- -= ++ += *= %= /= << <= >> >= == != && ||` and their kinds. -/
def compoundKind (c d : Char) : Option TokenType :=
  if c = '-' ∧ d = '-' then some .DECR
  else if c = '-' ∧ d = '=' then some .MINUS_EQUAL
  else if c = '+' ∧ d = '+' then some .INCR
  else if c = '+' ∧ d = '=' then some .PLUS_EQUAL
  else if c = '*' ∧ d = '=' then some .STAR_EQUAL
  else if c = '%' ∧ d = '=' then some .MODULO_EQUAL
  else if c = '/' ∧ d = '=' then some .SLASH_EQUAL
  else if c = '<' ∧ d = '<' then some .LEFT_SHIFT
  else if c = '<' ∧ d = '=' then some .LESS_EQUAL
  else if c = '>' ∧ d = '>' then some .RIGHT_SHIFT
  else if c = '>' ∧ d = '=' then some .GREATER_EQUAL
  else if c = '=' ∧ d = '=' then some .EQUAL_EQUAL
  else if c = '!' ∧ d = '=' then some .BANG_EQUAL
  else if c = '&' ∧ d = '&' then some .AND
  else if c = '|' ∧ d = '|' then some .OR
  else none

/-- The characters of the one-character tokens of `singleKind`. -/
def singleChars : List Char :=
  ['(', ')', '{', '}', '[', ']', ';', '.', ',', '^', '~', '\r', '\t', '\n']

/-- The characters that start an operator. -/
def opChars : List Char := ['-', '+', '*', '%', '/', '<', '>', '=', '!', '&', '|']

/-- The fifteen two-character operator spellings, as pairs of characters. -/
def compoundSpellings : List (Char × Char) :=
  [('-', '-'), ('-', '='), ('+', '+'), ('+', '='), ('*', '='), ('%', '='), ('/', '='),
   ('<', '<'), ('<', '='), ('>', '>'), ('>', '='), ('=', '='), ('!', '='), ('&', '&'),
   ('|', '|')]

/-- The keyword kinds: the codes that `tokenize` registers with `put`. -/
def TokenType.isKeyword (t : TokenType) : Bool :=
  match t with
  | .CONST | .INT | .DOUBLE | .FLOAT | .CHAR | .UNSIGNED | .LONG | .ENUM | .STRUCT
  | .UNION | .TYPEDEF | .RETURN | .DO | .WHILE | .FOR | .IF | .ELSE | .TRUE | .FALSE
  | .NIL => true
  | _ => false

/-- The reserved spellings of the specification and their kinds. -/
def keywordKind (w : List Char) : Option TokenType :=
  if w = "const".toList then some .CONST
  else if w = "int".toList then some .INT
  else if w = "double".toList then some .DOUBLE
  else if w = "float".toList then some .FLOAT
  else if w = "char".toList then some .CHAR
  else if w = "unsigned".toList then some .UNSIGNED
  else if w = "long".toList then some .LONG
  else if w = "enum".toList then some .ENUM
  else if w = "struct".toList then some .STRUCT
  else if w = "union".toList then some .UNION
  else if w = "typedef".toList then some .TYPEDEF
  else if w = "return".toList then some .RETURN
  else if w = "do".toList then some .DO
  else if w = "while".toList then some .WHILE
  else if w = "for".toList then some .FOR
  else if w = "if".toList then some .IF
  else if w = "else".toList then some .ELSE
  else if w = "true".toList then some .TRUE
  else if w = "false".toList then some .FALSE
  else if w = "NULL".toList then some .NIL
  else none

/-- The reserved spellings, in the order of the specification. -/
def reservedWords : List (List Char) :=
  ["const".toList, "int".toList, "double".toList, "float".toList, "char".toList, "unsigned".toList, "long".toList,
   "enum".toList, "struct".toList, "union".toList, "typedef".toList, "return".toList, "do".toList, "while".toList,
   "for".toList, "if".toList, "else".toList, "true".toList, "false".toList, "NULL".toList]

/-- A word: an ASCII letter followed by letters, digits and underscores. -/
def isWord : List Char → Bool
  | [] => false
  | c :: rest => isalpha c && rest.all (fun d => isalnum d || d = '_')

/-- Token `t1` may stand right before token `t2` without splitting a compound operator:
when `t1` is a single-character operator token, its character followed by the first
character of the lexeme of `t2` is none of the two-character spellings. -/
def NoSplit (t1 t2 : Token) : Prop :=
  ∀ ch, opChar t1.type = some ch →
    ∀ d, t2.lexeme.head? = some d → compoundKind ch d = none

/-- Tokens `t1` and `t2` are not both of kind WHITE_SPACE. -/
def NotBothSpace (t1 t2 : Token) : Prop :=
  ¬ (t1.type = .WHITE_SPACE ∧ t2.type = .WHITE_SPACE)

/-- The token that `tokenize` emits for a one-character token `c` (ENDFILE stands in for
the characters that are not such a token). -/
def singleToken (c : Char) : Token :=
  { type := (singleKind c).getD .ENDFILE, lexeme := [c] }

/-- The single-character punctuation `( ) { } [ ] ; , ^ ~`. -/
def punctuation : List Char := ['(', ')', '{', '}', '[', ']', ';', ',', '^', '~']

/-- Tab, carriage return and newline. -/
def lineSpace : List Char := ['\t', '\r', '\n']

/-- A sequence of `put` calls, in order, on a table. -/
def putAll (HASH_SIZE : Nat) (hashtab : Nat → List Hashlist)
    (ps : List (List Char × TokenType)) : Nat → List Hashlist :=
  ps.foldl (fun t p => (put HASH_SIZE t p.1 p.2).2) hashtab

/-- Every code stored in the keyword table is a keyword kind. -/
def KeywordVals (hashtab : Nat → List Hashlist) : Prop :=
  ∀ i, ∀ h ∈ hashtab i, h.val.isKeyword = true

/-- The lexemes of a token sequence, in order. -/
def lexemes (toks : List Token) : List (List Char) := toks.map (fun t => t.lexeme)

/-- The state with the cursor moved to position `n`. -/
def Lexer.moveTo (g : Lexer) (n : Nat) : Lexer := { g with current := n }

/-- The state in which the `switch` of `tokenize` is entered from the loop state `g`:
after `start = current;` and `advance()`. -/
def Lexer.enter (g : Lexer) : Lexer := { g with start := g.current, current := g.current + 1 }

/-- The state in which the loop of `tokenize` is entered: `source` and `source_len` set
from `input`, the keywords put into the table, `current` and `start` as they were. -/
def Lexer.load (HASH_SIZE : Nat) (g : Lexer) (input : List Char) : Lexer :=
  { source := input, source_len := strlen input, current := g.current, start := g.start,
    hashtab := putKeywords HASH_SIZE g.hashtab }

/-- The characters that have a `case` label of their own in the `switch` of `tokenize`. -/
def caseLabels : List Char :=
  ['(', ')', '{', '}', '[', ']', '-', '+', '*', '%', '/', '<', '>', '=', '!', ';', '.', ',',
   '&', '|', '^', '~', ' ', '\r', '\t', '\n', NUL, DQUOTE, '#']

/-- Position `n` ends the maximal run of characters satisfying `p` that starts at
position `i` of the text. -/
def RunEnd (g : Lexer) (p : Char → Bool) (i n : Nat) : Prop :=
  i ≤ n ∧ n ≤ g.source_len ∧ (∀ j, i ≤ j → j < n → p (g.charAt j) = true) ∧
    (n < g.source_len → p (g.charAt n) = false)

/-- The text has a fractional part at position `m`: a dot followed by a digit. -/
def FractionAt (g : Lexer) (m : Nat) : Prop :=
  m + 1 < g.source_len ∧ g.charAt m = '.' ∧ isdigit (g.charAt (m + 1)) = true

/-- Position `n` ends the numeric literal scanned from the cursor: a maximal run of
digits, then, when a dot and a digit follow, the dot and a second maximal run. -/
def NumberEnd (g : Lexer) (n : Nat) : Prop :=
  ∃ m, RunEnd g isdigit g.current m ∧
    ((FractionAt g m ∧ RunEnd g isdigit (m + 1) n) ∨ (¬ FractionAt g m ∧ n = m))

/-- The kind `addIdentifier` gives to the text `source[start .. n)`. -/
def identKind (HASH_SIZE : Nat) (g : Lexer) (n : Nat) : TokenType :=
  match lookup HASH_SIZE g.hashtab (g.moveTo n).lexeme with
  | none => .IDENTIFIER
  | some h => h.val

/-- `Scanned HASH_SIZE g c n ty`: entered with first character `c` in state `g`, the
`switch` of `tokenize` moves the cursor to `n` and emits a token of kind `ty`. One
constructor for each group of `case` labels. -/
inductive Scanned (HASH_SIZE : Nat) (g : Lexer) (c : Char) : Nat → TokenType → Prop where
  | single {ty : TokenType} : singleKind c = some ty → Scanned HASH_SIZE g c g.current ty
  | op {ty : TokenType} : opKind c = some ty →
      (g.current < g.source_len → compoundKind c (g.charAt g.current) = none) →
      Scanned HASH_SIZE g c g.current ty
  | compound {ty : TokenType} : g.current < g.source_len →
      compoundKind c (g.charAt g.current) = some ty → Scanned HASH_SIZE g c (g.current + 1) ty
  | space {n : Nat} : c = ' ' → RunEnd g (fun d => d = ' ') g.current n →
      Scanned HASH_SIZE g c n .WHITE_SPACE
  | string {n : Nat} : c = DQUOTE → ClosingQuote g n → Scanned HASH_SIZE g c (n + 1) .STRING
  | preproc {n : Nat} : c = '#' → RunEnd g (fun d => d ≠ ' ') g.current n →
      Scanned HASH_SIZE g c n .PREPROC
  | number {n : Nat} : isdigit c = true → NumberEnd g n → Scanned HASH_SIZE g c n .NUMBER
  | ident {n : Nat} : isalpha c = true →
      RunEnd g (fun d => isalnum d || d = '_') g.current n →
      Scanned HASH_SIZE g c n (identKind HASH_SIZE g n)

/-- The registrations `put(spelling, code)` at the start of `tokenize`, in order. -/
def keywordPairs : List (List Char × TokenType) :=
  [("const".toList, .CONST),
   ("int".toList, .INT),
   ("double".toList, .DOUBLE),
   ("float".toList, .FLOAT),
   ("char".toList, .CHAR),
   ("unsigned".toList, .UNSIGNED),
   ("long".toList, .LONG),
   ("enum".toList, .ENUM),
   ("struct".toList, .STRUCT),
   ("union".toList, .UNION),
   ("typedef".toList, .TYPEDEF),
   ("return".toList, .RETURN),
   ("do".toList, .DO),
   ("while".toList, .WHILE),
   ("for".toList, .FOR),
   ("if".toList, .IF),
   ("else".toList, .ELSE),
   ("true".toList, .TRUE),
   ("false".toList, .FALSE),
   ("NULL".toList, .NIL)]

/-- The nodes of the table, bucket by bucket: the chains of `hashtab[0]`, ...,
`hashtab[HASH_SIZE - 1]`. -/
def entries (HASH_SIZE : Nat) (hashtab : Nat → List Hashlist) : List Hashlist :=
  ((List.range HASH_SIZE).map hashtab).flatten

/-- The node that `put` makes for a registration of a new key. -/
def nodeOf (p : List Char × TokenType) : Hashlist := { key := cstr p.1, val := p.2 }

/-- The cursor triple `(start, current, source_len)` of the state a sub-scanner loop
leaves. -/
def cursorOf (r : Outcome Lexer) : Option (Nat × Nat × Nat) :=
  match r with
  | .ok g => some (g.start, g.current, g.source_len)
  | _ => none

/-- A sequence of `addToken` calls, each made in its own cursor state. -/
def addAll (list : TokenList) (calls : List (Lexer × TokenType)) : TokenList :=
  calls.foldl (fun l c => addToken c.1 l c.2) list

/-- The invariant of the token list: the cells written are those below `index`, and
`index` has not passed the capacity, which is positive. -/
def TokenList.WellFormed (l : TokenList) : Prop :=
  l.tokens.length = l.index ∧ 0 < l.max ∧ l.index ≤ l.max

/-- The one spelling of each fixed-spelling kind: punctuation, operators, keywords,
tab, carriage return and newline. The kinds WHITE_SPACE, STRING, PREPROC, NUMBER,
IDENTIFIER and ENDFILE have none. -/
def spelling (t : TokenType) : Option (List Char) :=
  match t with
  | .LEFT_PAREN => some ['('] | .RIGHT_PAREN => some [')']
  | .LEFT_BRACE => some ['{'] | .RIGHT_BRACE => some ['}']
  | .LEFT_BRACKET => some ['['] | .RIGHT_BRACKET => some [']']
  | .SEMICOLON => some [';'] | .DOT => some ['.'] | .COMMA => some [',']
  | .XOR => some ['^'] | .BIT_NOT => some ['~']
  | .CARR_SPACE => some ['\r'] | .TAB_SPACE => some ['\t'] | .NEW_LINE => some ['\n']
  | .MINUS => some ['-'] | .DECR => some ['-', '-'] | .MINUS_EQUAL => some ['-', '=']
  | .PLUS => some ['+'] | .INCR => some ['+', '+'] | .PLUS_EQUAL => some ['+', '=']
  | .STAR => some ['*'] | .STAR_EQUAL => some ['*', '=']
  | .MODULO => some ['%'] | .MODULO_EQUAL => some ['%', '=']
  | .SLASH => some ['/'] | .SLASH_EQUAL => some ['/', '=']
  | .LESS => some ['<'] | .LEFT_SHIFT => some ['<', '<'] | .LESS_EQUAL => some ['<', '=']
  | .GREATER => some ['>'] | .RIGHT_SHIFT => some ['>', '>']
  | .GREATER_EQUAL => some ['>', '=']
  | .EQUAL => some ['='] | .EQUAL_EQUAL => some ['=', '=']
  | .BANG => some ['!'] | .BANG_EQUAL => some ['!', '=']
  | .BIT_AND => some ['&'] | .AND => some ['&', '&']
  | .BIT_OR => some ['|'] | .OR => some ['|', '|']
  | .CONST => some "const".toList | .INT => some "int".toList
  | .DOUBLE => some "double".toList | .FLOAT => some "float".toList
  | .CHAR => some "char".toList | .UNSIGNED => some "unsigned".toList
  | .LONG => some "long".toList | .ENUM => some "enum".toList
  | .STRUCT => some "struct".toList | .UNION => some "union".toList
  | .TYPEDEF => some "typedef".toList | .RETURN => some "return".toList
  | .DO => some "do".toList | .WHILE => some "while".toList | .FOR => some "for".toList
  | .IF => some "if".toList | .ELSE => some "else".toList | .TRUE => some "true".toList
  | .FALSE => some "false".toList | .NIL => some "NULL".toList
  | .WHITE_SPACE | .STRING | .PREPROC | .NUMBER | .IDENTIFIER | .ENDFILE => none

/-- Token `t` carries the spelling of its kind: when the kind has a fixed spelling the
lexeme is that spelling, and an IDENTIFIER is not spelled as a reserved word. -/
def SpelledByKind (t : Token) : Prop :=
  (∀ w, spelling t.type = some w → t.lexeme = w) ∧
    (t.type = .IDENTIFIER → t.lexeme ∉ reservedWords)

/-- The punctuation, operator and blank characters of a plain text:
`( ) { } [ ] ; , . ^ ~ - + * % / < > = ! & |`, space, tab, carriage return, newline. -/
def plainMarks : List Char :=
  ['(', ')', '{', '}', '[', ']', ';', ',', '.', '^', '~', '-', '+', '*', '%', '/', '<', '>',
   '=', '!', '&', '|', ' ', '\t', '\r', '\n']

/-- A character of a plain text: an ASCII letter, a decimal digit or one of
`plainMarks`. -/
def isPlain (c : Char) : Bool := isalpha c || isdigit c || decide (c ∈ plainMarks)

/-- The rolling hash in the words of the specification: the running value starts at 0,
each byte in order replaces it by 31 times itself plus the byte (its value from 0 to
255), in an `unsigned int` (32 bits), and the final value is reduced modulo the bucket
count. -/
def hashSpec (HASH_SIZE : Nat) (s : List Char) : Nat :=
  (s.foldl (fun running c => (31 * running + c.toNat) % 2 ^ 32) 0) % HASH_SIZE

/-- The value of the polynomial with the bytes of `s` as coefficients at 31, without
wrap-around. -/
def polyValue (s : List Char) : Nat :=
  s.foldl (fun running c => 31 * running + c.toNat) 0

/-! ## Basic facts: C strings, cursor, lexemes -/

@[simp] theorem bind_ok {α β : Type} (a : α) (f : α → Outcome β) :
    (Outcome.ok a).bind f = f a := rfl

@[simp] theorem bind_abort {α β : Type} (e : Err) (f : α → Outcome β) :
    (Outcome.abort e : Outcome α).bind f = .abort e := rfl

@[simp] theorem bind_outOfFuel {α β : Type} (f : α → Outcome β) :
    (Outcome.outOfFuel : Outcome α).bind f = .outOfFuel := rfl

theorem bind_eq_ok {α β : Type} {x : Outcome α} {f : α → Outcome β} {b : β}
    (h : x.bind f = .ok b) : ∃ a, x = .ok a ∧ f a = .ok b := by
  cases x with
  | ok a => exact ⟨a, rfl, h⟩
  | abort e => simp at h
  | outOfFuel => simp at h

theorem strlen_le_length (s : List Char) : strlen s ≤ s.length := by
  induction s with
  | nil => simp [strlen]
  | cons c s ih =>
    simp only [strlen, List.length_cons]
    split <;> omega

theorem strlen_eq_length {s : List Char} (h : ∀ c ∈ s, c ≠ NUL) : strlen s = s.length := by
  induction s with
  | nil => simp [strlen]
  | cons c s ih =>
    have hc : c ≠ NUL := h c (by simp)
    have hs : ∀ d ∈ s, d ≠ NUL := fun d hd => h d (by simp [hd])
    simp [strlen, hc, ih hs]

theorem cstr_eq_self {s : List Char} (h : ∀ c ∈ s, c ≠ NUL) : cstr s = s := by
  induction s with
  | nil => simp [cstr]
  | cons c s ih =>
    have hc : c ≠ NUL := h c (by simp)
    have hs : ∀ d ∈ s, d ≠ NUL := fun d hd => h d (by simp [hd])
    simp [cstr, hc, ih hs]

theorem cstr_eq_take (s : List Char) : cstr s = s.take (strlen s) := by
  induction s with
  | nil => simp [cstr]
  | cons c s ih =>
    by_cases hc : c = NUL
    · simp [cstr, strlen, hc]
    · simp [cstr, strlen, hc, ih]

theorem getD_ne_NUL {s : List Char} {i : Nat} (h : i < strlen s) : s.getD i NUL ≠ NUL := by
  induction s generalizing i with
  | nil => simp [strlen] at h
  | cons c s ih =>
    by_cases hc : c = NUL
    · simp [strlen, hc] at h
    · cases i with
      | zero => simpa using hc
      | succ j =>
        have hj : j < strlen s := by
          simp [strlen, hc] at h
          exact h
        simpa using ih hj

theorem getD_append_right_len (pre rest : List Char) (k : Nat) :
    (pre ++ rest).getD (pre.length + k) NUL = rest.getD k NUL := by
  induction pre with
  | nil => simp
  | cons c pre ih =>
    have : (c :: pre).length + k = (pre.length + k) + 1 := by simp; omega
    rw [List.cons_append, this, List.getD_cons_succ, ih]

theorem getD_append_left_lt (pre rest : List Char) {k : Nat} (h : k < pre.length) :
    (pre ++ rest).getD k NUL = pre.getD k NUL := by
  simp [List.getD_eq_getElem?_getD, List.getElem?_append_left h]

theorem lexeme_eq (g : Lexer) (h1 : g.start ≤ g.current) (h2 : g.current ≤ g.source.length) :
    g.lexeme = (g.source.drop g.start).take (g.current - g.start) := by
  apply List.ext_getElem
  · simp [Lexer.lexeme]
    omega
  · intro i hi1 hi2
    simp [Lexer.lexeme] at hi1
    have hlt : g.start + i < g.source.length := by omega
    simp [Lexer.lexeme, Lexer.charAt, List.getD_eq_getElem?_getD, List.getElem?_eq_getElem hlt]

theorem peek_of_lt {g : Lexer} (h : g.current < g.source_len) : peek g = g.charAt g.current := by
  simp [peek, Nat.not_le.mpr h]

theorem peek_of_ge {g : Lexer} (h : g.source_len ≤ g.current) : peek g = NUL := by
  simp [peek, h]

/-! ## The inner loops -/

theorem condOn_digit : CondOn (fun g => isdigit (peek g)) isdigit := by
  intro g
  by_cases h : g.current < g.source_len
  · simp [peek_of_lt h, h]
  · have h2 : peek g = NUL := peek_of_ge (Nat.not_lt.mp h)
    have h3 : isdigit NUL = false := by decide
    simp [h, h2, h3]

theorem condOn_ident :
    CondOn (fun g => isalnum (peek g) || peek g = '_') (fun c => isalnum c || c = '_') := by
  intro g
  by_cases h : g.current < g.source_len
  · simp [peek_of_lt h, h]
  · have h2 : peek g = NUL := peek_of_ge (Nat.not_lt.mp h)
    have h3 : isalnum NUL = false := by decide
    have h4 : NUL ≠ '_' := by decide
    simp [h, h2, h3, h4]

theorem condOn_space :
    CondOn (fun g => peek g = ' ' ∧ g.current < g.source_len) (fun c => c = ' ') := by
  intro g
  by_cases h : g.current < g.source_len
  · simp [peek_of_lt h, h]
  · simp [h]

theorem condOn_preproc :
    CondOn (fun g => peek g ≠ ' ' ∧ g.current < g.source_len) (fun c => c ≠ ' ') := by
  intro g
  by_cases h : g.current < g.source_len
  · simp [peek_of_lt h, h]
  · simp [h]

/-- Maximal munch: with enough fuel a loop `while (cond) advance();` stops at the first
position `n` at or after the cursor that is the end of the text or whose character
fails `p`; only the cursor changes. -/
theorem advanceWhile_spec {cond : Lexer → Bool} {p : Char → Bool} (hc : CondOn cond p) :
    ∀ (fuel : Nat) (g : Lexer), g.current ≤ g.source_len → g.source_len - g.current < fuel →
      ∃ n, advanceWhile cond fuel g = .ok { g with current := n } ∧
        g.current ≤ n ∧ n ≤ g.source_len ∧
        (∀ i, g.current ≤ i → i < n → p (g.charAt i) = true) ∧
        (n < g.source_len → p (g.charAt n) = false) := by
  intro fuel
  induction fuel with
  | zero => intro g _ h; omega
  | succ fuel ih =>
    intro g hle hf
    by_cases hcg : cond g = true
    · have hcg2 := hcg
      rw [hc g] at hcg2
      simp only [Bool.and_eq_true, decide_eq_true_eq] at hcg2
      obtain ⟨hlt, hp⟩ := hcg2
      obtain ⟨n, h1, h2, h3, h4, h5⟩ :=
        ih { g with current := g.current + 1 } (by simpa using hlt) (by simp; omega)
      refine ⟨n, ?_, ?_, h3, ?_, h5⟩
      · simp only [advanceWhile, hcg, if_true, advance]
        exact h1
      · simp at h2; omega
      · intro i hi1 hi2
        by_cases hi : i = g.current
        · subst hi; exact hp
        · exact h4 i (by simp; omega) hi2
    · refine ⟨g.current, ?_, le_refl _, hle, ?_, ?_⟩
      · simp [advanceWhile, hcg]
      · intro i hi1 hi2; omega
      · intro hlt
        have := hc g
        simp only [hlt, decide_True, Bool.true_and] at this
        rw [← this]
        simpa using hcg

theorem addStringLoop_spec :
    ∀ (fuel : Nat) (g : Lexer), g.source_len + 1 - g.current < fuel →
      (∃ n, ClosingQuote g n ∧ addStringLoop fuel g = .ok { g with current := n }) ∨
      ((¬ ∃ n, ClosingQuote g n) ∧
        (addStringLoop fuel g = .abort .UnterminatedString ∨
          ∃ m, g.source_len ≤ m ∧ addStringLoop fuel g = .ok { g with current := m })) := by
  intro fuel
  induction fuel with
  | zero => intro g h; omega
  | succ fuel ih =>
    intro g hf
    have hND : NUL ≠ DQUOTE := by decide
    have hNN : NUL ≠ '\n' := by decide
    by_cases hgt : g.source_len < g.current
    · right
      refine ⟨?_, Or.inr ⟨g.current, Nat.le_of_lt hgt, ?_⟩⟩
      · rintro ⟨n, h1, h2, _⟩; omega
      · simp [addStringLoop, Nat.not_le.mpr hgt]
    · have hle : g.current ≤ g.source_len := Nat.not_lt.mp hgt
      by_cases heq : g.current = g.source_len
      · have hpk : peek g = NUL := peek_of_ge (by omega)
        right
        have hno : ¬ ∃ n, ClosingQuote g n := by
          rintro ⟨n, h1, h2, _⟩; omega
        refine ⟨hno, ?_⟩
        rcases ih { g with current := g.current + 1 } (by simp; omega) with ⟨n, hn, _⟩ | ⟨_, h⟩
        · exfalso
          obtain ⟨h1, h2, _⟩ := hn
          simp at h1 h2; omega
        · simp only [addStringLoop, hpk, hle, advance, ne_eq, hND, not_false_eq_true, and_self,
            if_true, hNN, if_false]
          rcases h with h | ⟨m, hm, h⟩
          · exact Or.inl h
          · exact Or.inr ⟨m, hm, h⟩
      · have hlt : g.current < g.source_len := by omega
        have hpk : peek g = g.charAt g.current := peek_of_lt hlt
        by_cases hq : g.charAt g.current = DQUOTE
        · left
          refine ⟨g.current, ⟨le_refl _, hlt, hq, ?_⟩, ?_⟩
          · intro i h1 h2; omega
          · simp [addStringLoop, hpk, hq]
        · by_cases hn : g.charAt g.current = '\n'
          · right
            refine ⟨?_, Or.inl ?_⟩
            · rintro ⟨n, h1, h2, h3, h4⟩
              by_cases hnc : n = g.current
              · subst hnc; exact hq h3
              · exact (h4 g.current (le_refl _) (by omega)).2 hn
            · have hnq : ('\n' : Char) ≠ DQUOTE := by decide
              simp [addStringLoop, hpk, hn, hle, hnq]
          · have hstep : addStringLoop (fuel + 1) g =
                addStringLoop fuel { g with current := g.current + 1 } := by
              simp [addStringLoop, hpk, hq, hn, hle, advance]
            rw [hstep]
            rcases ih { g with current := g.current + 1 } (by simp; omega) with
              ⟨n, hcq, h⟩ | ⟨hno, h⟩
            · left
              obtain ⟨h1, h2, h3, h4⟩ := hcq
              refine ⟨n, ⟨?_, h2, h3, ?_⟩, h⟩
              · simp at h1; omega
              · intro i hi1 hi2
                by_cases hi : i = g.current
                · subst hi; exact ⟨hq, hn⟩
                · exact h4 i (by simp; omega) hi2
            · right
              refine ⟨?_, h⟩
              rintro ⟨n, h1, h2, h3, h4⟩
              apply hno
              refine ⟨n, ?_, h2, h3, ?_⟩
              · by_cases hnc : n = g.current
                · subst hnc; exact absurd h3 hq
                · simp; omega
              · intro i hi1 hi2
                exact h4 i (by simp at hi1; omega) hi2

/-! ## The `switch` of `tokenize`, case by case -/

theorem singleKind_mem {c : Char} {ty : TokenType} (h : singleKind c = some ty) :
    c ∈ singleChars := by
  by_contra hm
  simp only [singleChars, List.mem_cons, List.mem_singleton, List.not_mem_nil, or_false,
    not_or] at hm
  simp [singleKind, hm] at h

theorem opKind_mem {c : Char} {ty : TokenType} (h : opKind c = some ty) : c ∈ opChars := by
  by_contra hm
  simp only [opChars, List.mem_cons, List.mem_singleton, List.not_mem_nil, or_false,
    not_or] at hm
  simp [opKind, hm] at h

theorem compoundKind_mem {c d : Char} {ty : TokenType} (h : compoundKind c d = some ty) :
    (c, d) ∈ compoundSpellings := by
  by_contra hm
  simp only [compoundSpellings, List.mem_cons, List.mem_singleton, List.not_mem_nil,
    or_false, not_or, Prod.mk.injEq] at hm
  simp [compoundKind, hm] at h

theorem switchOn_single_all (HASH_SIZE : Nat) :
    ∀ c ∈ singleChars, ∀ (ty : TokenType) (g : Lexer) (list : TokenList),
      singleKind c = some ty →
      switchOn HASH_SIZE c g list = .ok (.brk g (addToken g list ty)) := by
  simp only [singleChars, List.forall_mem_cons, List.not_mem_nil, false_imp_iff,
    implies_true, and_true]
  repeat' apply And.intro
  all_goals
    intro ty g list h
    cases h
    rfl

theorem switchOn_single (HASH_SIZE : Nat) {c : Char} {ty : TokenType}
    (h : singleKind c = some ty) (g : Lexer) (list : TokenList) :
    switchOn HASH_SIZE c g list = .ok (.brk g (addToken g list ty)) :=
  switchOn_single_all HASH_SIZE c (singleKind_mem h) ty g list h

theorem addOp1_eq (g : Lexer) (list : TokenList) (c1 : Char) (t1 t : TokenType) :
    addOp1 g list c1 t1 t =
      if g.current < g.source_len ∧ g.charAt g.current = c1 then
        .brk (g.moveTo (g.current + 1)) (addToken (g.moveTo (g.current + 1)) list t1)
      else .brk g (addToken g list t) := by
  unfold addOp1 match_ Lexer.moveTo
  by_cases h1 : g.current < g.source_len
  · by_cases h2 : g.charAt g.current = c1
    · simp [h1, h2, Nat.not_le.mpr h1]
    · simp [h1, h2, Nat.not_le.mpr h1]
  · simp [h1, Nat.not_lt.mp h1]

theorem addOp2_eq (g : Lexer) (list : TokenList) (c1 c2 : Char) (t1 t2 t : TokenType) :
    addOp2 g list c1 t1 c2 t2 t =
      if g.current < g.source_len ∧ g.charAt g.current = c1 then
        .brk (g.moveTo (g.current + 1)) (addToken (g.moveTo (g.current + 1)) list t1)
      else if g.current < g.source_len ∧ g.charAt g.current = c2 then
        .brk (g.moveTo (g.current + 1)) (addToken (g.moveTo (g.current + 1)) list t2)
      else .brk g (addToken g list t) := by
  unfold addOp2
  by_cases h1 : g.current < g.source_len
  · by_cases h2 : g.charAt g.current = c1
    · simp [match_, h1, h2, Nat.not_le.mpr h1, Lexer.moveTo]
    · have hm : match_ g c1 = (false, g) := by simp [match_, h2, Nat.not_le.mpr h1]
      simp [hm, addOp1_eq, h1, h2]
  · have hm : match_ g c1 = (false, g) := by simp [match_, Nat.not_lt.mp h1]
    simp [hm, addOp1_eq, h1]

theorem switchOn_compound_all (HASH_SIZE : Nat) :
    ∀ p ∈ compoundSpellings, ∀ (ty : TokenType) (g : Lexer) (list : TokenList),
      compoundKind p.1 p.2 = some ty → g.current < g.source_len →
      g.charAt g.current = p.2 →
      switchOn HASH_SIZE p.1 g list =
        .ok (.brk (g.moveTo (g.current + 1))
          (addToken (g.moveTo (g.current + 1)) list ty)) := by
  simp only [compoundSpellings, List.forall_mem_cons, List.not_mem_nil, false_imp_iff,
    implies_true, and_true]
  repeat' apply And.intro
  all_goals
    intro ty g list h hlt hd
    cases h
    simp [switchOn, addOp1_eq, addOp2_eq, hlt, hd]

theorem switchOn_compound (HASH_SIZE : Nat) {c : Char} {ty : TokenType} (g : Lexer)
    (list : TokenList) (hlt : g.current < g.source_len)
    (h : compoundKind c (g.charAt g.current) = some ty) :
    switchOn HASH_SIZE c g list =
      .ok (.brk (g.moveTo (g.current + 1)) (addToken (g.moveTo (g.current + 1)) list ty)) :=
  switchOn_compound_all HASH_SIZE (c, g.charAt g.current) (compoundKind_mem h) ty g list h hlt
    rfl

theorem switchOn_op_all (HASH_SIZE : Nat) :
    ∀ c ∈ opChars, ∀ (ty : TokenType) (g : Lexer) (list : TokenList),
      opKind c = some ty →
      (g.current < g.source_len → compoundKind c (g.charAt g.current) = none) →
      switchOn HASH_SIZE c g list = .ok (.brk g (addToken g list ty)) := by
  simp only [opChars, List.forall_mem_cons, List.not_mem_nil, false_imp_iff,
    implies_true, and_true]
  repeat' apply And.intro
  all_goals
    intro ty g list h hnone
    cases h
    by_cases hlt : g.current < g.source_len
    · have hn := hnone hlt
      simp [compoundKind] at hn
      simp [switchOn, addOp1_eq, addOp2_eq, hn]
      first
        | done
        | (split_ifs at hn ⊢ <;> simp_all)
    · simp [switchOn, addOp1_eq, addOp2_eq, hlt]

theorem switchOn_op (HASH_SIZE : Nat) {c : Char} {ty : TokenType} (g : Lexer)
    (list : TokenList) (h : opKind c = some ty)
    (hnone : g.current < g.source_len → compoundKind c (g.charAt g.current) = none) :
    switchOn HASH_SIZE c g list = .ok (.brk g (addToken g list ty)) :=
  switchOn_op_all HASH_SIZE c (opKind_mem h) ty g list h hnone

theorem switchOn_default (HASH_SIZE : Nat) {c : Char} (hc : c ∉ caseLabels) (g : Lexer)
    (list : TokenList) :
    switchOn HASH_SIZE c g list =
      if isdigit c then thenBreak (addNumber g list)
      else if isalpha c then thenBreak (addIdentifier HASH_SIZE g list)
      else .abort (.UnexpectedChar c) := by
  simp only [caseLabels, List.mem_cons, List.mem_singleton, List.not_mem_nil, or_false,
    not_or] at hc
  simp only [switchOn, hc, if_false]

theorem caseLabels_not_digit : ∀ x ∈ caseLabels, isdigit x = false := by decide

theorem caseLabels_not_alpha : ∀ x ∈ caseLabels, isalpha x = false := by decide

theorem not_mem_caseLabels_of_digit {c : Char} (h : isdigit c = true) : c ∉ caseLabels :=
  fun hm => by simp [caseLabels_not_digit c hm] at h

theorem not_mem_caseLabels_of_alpha {c : Char} (h : isalpha c = true) : c ∉ caseLabels :=
  fun hm => by simp [caseLabels_not_alpha c hm] at h

theorem char_le_iff (a b : Char) : a ≤ b ↔ a.toNat ≤ b.toNat := Iff.rfl

theorem not_digit_of_alpha {c : Char} (h : isalpha c = true) : isdigit c = false := by
  simp only [isalpha, isdigit, decide_eq_true_eq, decide_eq_false_iff_not, char_le_iff] at *
  have e0 : ('0' : Char).toNat = 48 := rfl
  have e9 : ('9' : Char).toNat = 57 := rfl
  have ea : ('a' : Char).toNat = 97 := rfl
  have ez : ('z' : Char).toNat = 122 := rfl
  have eA : ('A' : Char).toNat = 65 := rfl
  have eZ : ('Z' : Char).toNat = 90 := rfl
  omega

theorem switchOn_digit (HASH_SIZE : Nat) {c : Char} (h : isdigit c = true) (g : Lexer)
    (list : TokenList) : switchOn HASH_SIZE c g list = thenBreak (addNumber g list) := by
  rw [switchOn_default HASH_SIZE (not_mem_caseLabels_of_digit h), if_pos h]

theorem switchOn_alpha (HASH_SIZE : Nat) {c : Char} (h : isalpha c = true) (g : Lexer)
    (list : TokenList) :
    switchOn HASH_SIZE c g list = thenBreak (addIdentifier HASH_SIZE g list) := by
  rw [switchOn_default HASH_SIZE (not_mem_caseLabels_of_alpha h), not_digit_of_alpha h,
    if_pos h]
  simp

theorem switchOn_other (HASH_SIZE : Nat) {c : Char} (hc : c ∉ caseLabels)
    (hd : isdigit c = false) (ha : isalpha c = false) (g : Lexer) (list : TokenList) :
    switchOn HASH_SIZE c g list = .abort (.UnexpectedChar c) := by
  rw [switchOn_default HASH_SIZE hc, hd, ha]
  simp

theorem switchOn_space (HASH_SIZE : Nat) (g : Lexer) (list : TokenList) :
    switchOn HASH_SIZE ' ' g list =
      (advanceWhile (fun g => peek g = ' ' ∧ g.current < g.source_len) g.fuel g).bind
        fun g1 => .ok (.brk g1 (addToken g1 list .WHITE_SPACE)) := rfl

theorem switchOn_quote (HASH_SIZE : Nat) (g : Lexer) (list : TokenList) :
    switchOn HASH_SIZE DQUOTE g list = thenBreak (addString g list) := rfl

theorem switchOn_hash (HASH_SIZE : Nat) (g : Lexer) (list : TokenList) :
    switchOn HASH_SIZE '#' g list = thenBreak (addPreprocessor g list) := rfl

theorem switchOn_nul (HASH_SIZE : Nat) (g : Lexer) (list : TokenList) :
    switchOn HASH_SIZE NUL g list = .ok (.ret g (addToken g list .ENDFILE)) := rfl

/-! ## The sub-scanners -/

theorem runEnd_unique {g : Lexer} {p : Char → Bool} {i n m : Nat}
    (h1 : RunEnd g p i n) (h2 : RunEnd g p i m) : n = m := by
  obtain ⟨a1, a2, a3, a4⟩ := h1
  obtain ⟨b1, b2, b3, b4⟩ := h2
  rcases Nat.lt_trichotomy n m with h | h | h
  · have := a4 (by omega)
    rw [b3 n a1 h] at this
    exact absurd this (by simp)
  · exact h
  · have := b4 (by omega)
    rw [a3 m b1 h] at this
    exact absurd this (by simp)

theorem runEnd_exists {cond : Lexer → Bool} {p : Char → Bool} (hc : CondOn cond p)
    (g : Lexer) (fuel : Nat) (hle : g.current ≤ g.source_len)
    (hf : g.source_len - g.current < fuel) :
    ∃ n, advanceWhile cond fuel g = .ok (g.moveTo n) ∧ RunEnd g p g.current n := by
  obtain ⟨n, h1, h2, h3, h4, h5⟩ := advanceWhile_spec hc fuel g hle hf
  exact ⟨n, h1, h2, h3, h4, h5⟩

theorem advanceWhile_eq {cond : Lexer → Bool} {p : Char → Bool} (hc : CondOn cond p)
    {g : Lexer} {n : Nat} (fuel : Nat) (hf : g.source_len - g.current < fuel)
    (h : RunEnd g p g.current n) : advanceWhile cond fuel g = .ok (g.moveTo n) := by
  obtain ⟨m, h1, h2⟩ := runEnd_exists hc g fuel (Nat.le_trans h.1 h.2.1) hf
  rw [h1, runEnd_unique h h2]

theorem closingQuote_unique {g : Lexer} {n m : Nat}
    (h1 : ClosingQuote g n) (h2 : ClosingQuote g m) : n = m := by
  obtain ⟨a1, a2, a3, a4⟩ := h1
  obtain ⟨b1, b2, b3, b4⟩ := h2
  rcases Nat.lt_trichotomy n m with h | h | h
  · exact absurd a3 (b4 n a1 h).1
  · exact h
  · exact absurd b3 (a4 m b1 h).1

theorem addString_ok {g : Lexer} {n : Nat} (list : TokenList) (h : ClosingQuote g n) :
    addString g list =
      .ok (g.moveTo (n + 1), addToken (g.moveTo (n + 1)) list .STRING) := by
  rcases addStringLoop_spec g.fuel g (by simp [Lexer.fuel]; omega) with ⟨m, hm, hl⟩ | ⟨hno, _⟩
  · have e : m = n := closingQuote_unique hm h
    subst e
    have hlt : ¬ g.source_len ≤ m := Nat.not_le.mpr hm.2.1
    simp [addString, hl, hlt, advance, Lexer.moveTo]
  · exact absurd ⟨n, h⟩ hno

theorem addString_abort {g : Lexer} (list : TokenList) (h : ¬ ∃ n, ClosingQuote g n) :
    addString g list = .abort .UnterminatedString := by
  rcases addStringLoop_spec g.fuel g (by simp [Lexer.fuel]; omega) with ⟨m, hm, _⟩ | ⟨_, hl⟩
  · exact absurd ⟨m, hm⟩ h
  · rcases hl with hl | ⟨m, hm, hl⟩
    · simp [addString, hl]
    · simp [addString, hl, hm]

theorem addPreprocessor_eq {g : Lexer} {n : Nat} (list : TokenList)
    (h : RunEnd g (fun d => d ≠ ' ') g.current n) :
    addPreprocessor g list = .ok (g.moveTo n, addToken (g.moveTo n) list .PREPROC) := by
  have e := advanceWhile_eq condOn_preproc g.fuel (by simp [Lexer.fuel]; omega) h
  simp only [addPreprocessor, e, bind_ok]

theorem addIdentifier_eq (HASH_SIZE : Nat) {g : Lexer} {n : Nat} (list : TokenList)
    (h : RunEnd g (fun d => isalnum d || d = '_') g.current n) :
    addIdentifier HASH_SIZE g list =
      .ok (g.moveTo n, addToken (g.moveTo n) list (identKind HASH_SIZE g n)) := by
  have e := advanceWhile_eq condOn_ident g.fuel (by simp [Lexer.fuel]; omega) h
  simp only [addIdentifier, e, bind_ok, identKind]
  have : (g.moveTo n).hashtab = g.hashtab := rfl
  rw [this]
  cases lookup HASH_SIZE g.hashtab (g.moveTo n).lexeme <;> rfl

theorem fraction_cond (g : Lexer) (m : Nat) :
    (peek (g.moveTo m) = '.' ∧ isdigit (peekNext (g.moveTo m)) = true) ↔ FractionAt g m := by
  have hN : NUL ≠ '.' := by decide
  have hD : isdigit NUL = false := by decide
  simp only [peek, peekNext, FractionAt, Lexer.moveTo, Lexer.charAt]
  by_cases h1 : m + 1 < g.source_len
  · have h2 : ¬ g.source_len ≤ m + 1 := by omega
    have h3 : ¬ g.source_len ≤ m := by omega
    simp [h1, h2, h3]
  · have h2 : g.source_len ≤ m + 1 := by omega
    simp [h1, h2, hD]

theorem addNumber_eq {g : Lexer} {n : Nat} (list : TokenList) (h : NumberEnd g n) :
    addNumber g list = .ok (g.moveTo n, addToken (g.moveTo n) list .NUMBER) := by
  obtain ⟨m, hm, h2⟩ := h
  have e := advanceWhile_eq condOn_digit g.fuel (by simp [Lexer.fuel]; omega) hm
  simp only [addNumber, e, bind_ok]
  rcases h2 with ⟨hf, hr⟩ | ⟨hf, rfl⟩
  · have hc : peek (g.moveTo m) = '.' ∧ isdigit (peekNext (g.moveTo m)) = true :=
      (fraction_cond g m).mpr hf
    rw [if_pos hc]
    have hr2 : RunEnd (g.moveTo (m + 1)) isdigit (g.moveTo (m + 1)).current n := hr
    have e2 := advanceWhile_eq condOn_digit (g := g.moveTo (m + 1)) g.fuel
      (by simp [Lexer.fuel, Lexer.moveTo]; omega) hr2
    have e3 : (advance (g.moveTo m)).2 = g.moveTo (m + 1) := rfl
    rw [e3, e2]
    rfl
  · have hc : ¬ (peek (g.moveTo n) = '.' ∧ isdigit (peekNext (g.moveTo n)) = true) :=
      fun hc => hf ((fraction_cond g n).mp hc)
    rw [if_neg hc]

theorem numberEnd_exists (g : Lexer) (hle : g.current ≤ g.source_len) :
    ∃ n, NumberEnd g n := by
  obtain ⟨m, _, hm⟩ := runEnd_exists condOn_digit g g.fuel hle (by simp [Lexer.fuel]; omega)
  by_cases hf : FractionAt g m
  · obtain ⟨n, _, hn⟩ := runEnd_exists condOn_digit (g.moveTo (m + 1)) g.fuel
      (by have := hf.1; simp [Lexer.moveTo]; omega) (by simp [Lexer.fuel, Lexer.moveTo]; omega)
    exact ⟨n, m, hm, Or.inl ⟨hf, hn⟩⟩
  · exact ⟨m, m, hm, Or.inr ⟨hf, rfl⟩⟩

/-! ## One pass through the `switch` -/

/-- Soundness of `Scanned`: when it holds, the `switch` breaks with the cursor at `n`
after `addToken` of kind `ty`. -/
theorem switchOn_of_scanned {HASH_SIZE : Nat} {g : Lexer} {c : Char} {n : Nat}
    {ty : TokenType} (h : Scanned HASH_SIZE g c n ty) (list : TokenList) :
    switchOn HASH_SIZE c g list =
      .ok (.brk (g.moveTo n) (addToken (g.moveTo n) list ty)) := by
  cases h with
  | single hs => exact switchOn_single HASH_SIZE hs g list
  | op ho hn => exact switchOn_op HASH_SIZE g list ho hn
  | compound hlt hk => exact switchOn_compound HASH_SIZE g list hlt hk
  | space hc hr =>
    subst hc
    rw [switchOn_space, advanceWhile_eq condOn_space g.fuel (by simp [Lexer.fuel]; omega) hr]
    rfl
  | string hc hq =>
    subst hc
    rw [switchOn_quote, addString_ok list hq]
    rfl
  | preproc hc hr =>
    subst hc
    rw [switchOn_hash, addPreprocessor_eq list hr]
    rfl
  | number hd hn =>
    rw [switchOn_digit HASH_SIZE hd, addNumber_eq list hn]
    rfl
  | ident ha hr =>
    rw [switchOn_alpha HASH_SIZE ha, addIdentifier_eq HASH_SIZE list hr]
    rfl

theorem caseLabels_cases : ∀ x ∈ caseLabels,
    (singleKind x).isSome = true ∨ (opKind x).isSome = true ∨ x = ' ' ∨ x = NUL ∨
      x = DQUOTE ∨ x = '#' := by
  decide

/-- Completeness of `Scanned`: entered inside the text with a character other than NUL,
the `switch` either scans a token, or meets an unterminated string, or meets a
character that no rule accepts. -/
theorem switchOn_cases (HASH_SIZE : Nat) (g : Lexer) (c : Char) (list : TokenList)
    (hc : c ≠ NUL) (hle : g.current ≤ g.source_len) :
    (∃ n ty, Scanned HASH_SIZE g c n ty) ∨
    (c = DQUOTE ∧ (¬ ∃ n, ClosingQuote g n) ∧
      switchOn HASH_SIZE c g list = .abort .UnterminatedString) ∨
    (c ∉ caseLabels ∧ isdigit c = false ∧ isalpha c = false ∧
      switchOn HASH_SIZE c g list = .abort (.UnexpectedChar c)) := by
  have hfuel : g.source_len - g.current < g.fuel := by simp [Lexer.fuel]; omega
  cases hs : singleKind c with
  | some ty => exact Or.inl ⟨_, ty, .single hs⟩
  | none =>
  cases ho : opKind c with
  | some ty =>
    by_cases hlt : g.current < g.source_len
    · cases hk : compoundKind c (g.charAt g.current) with
      | some t2 => exact Or.inl ⟨_, t2, .compound hlt hk⟩
      | none => exact Or.inl ⟨_, ty, .op ho (fun _ => hk)⟩
    · exact Or.inl ⟨_, ty, .op ho (fun h => absurd h hlt)⟩
  | none =>
  by_cases hsp : c = ' '
  · obtain ⟨n, _, hn⟩ := runEnd_exists condOn_space g g.fuel hle hfuel
    exact Or.inl ⟨n, _, .space hsp hn⟩
  by_cases hq : c = DQUOTE
  · by_cases hex : ∃ n, ClosingQuote g n
    · obtain ⟨n, hn⟩ := hex
      exact Or.inl ⟨_, _, .string hq hn⟩
    · refine Or.inr (Or.inl ⟨hq, hex, ?_⟩)
      subst hq
      rw [switchOn_quote, addString_abort list hex]
      rfl
  by_cases hh : c = '#'
  · obtain ⟨n, _, hn⟩ := runEnd_exists condOn_preproc g g.fuel hle hfuel
    exact Or.inl ⟨n, _, .preproc hh hn⟩
  by_cases hd : isdigit c = true
  · obtain ⟨n, hn⟩ := numberEnd_exists g hle
    exact Or.inl ⟨n, _, .number hd hn⟩
  by_cases ha : isalpha c = true
  · obtain ⟨n, _, hn⟩ := runEnd_exists condOn_ident g g.fuel hle hfuel
    exact Or.inl ⟨n, _, .ident ha hn⟩
  have hd2 : isdigit c = false := by simpa using hd
  have ha2 : isalpha c = false := by simpa using ha
  have hmem : c ∉ caseLabels := by
    intro hm
    rcases caseLabels_cases c hm with h | h | h | h | h | h
    · rw [hs] at h; cases h
    · rw [ho] at h; cases h
    · exact hsp h
    · exact hc h
    · exact hq h
    · exact hh h
  exact Or.inr (Or.inr ⟨hmem, hd2, ha2, switchOn_other HASH_SIZE hmem hd2 ha2 g list⟩)

/-- When the `switch` succeeds it has scanned a token. -/
theorem switchOn_ok {HASH_SIZE : Nat} {g : Lexer} {c : Char} {list : TokenList} {f : Flow}
    (hc : c ≠ NUL) (hle : g.current ≤ g.source_len)
    (h : switchOn HASH_SIZE c g list = .ok f) :
    ∃ n ty, Scanned HASH_SIZE g c n ty ∧
      f = .brk (g.moveTo n) (addToken (g.moveTo n) list ty) := by
  rcases switchOn_cases HASH_SIZE g c list hc hle with ⟨n, ty, hs⟩ | ⟨_, _, hab⟩ | ⟨_, _, _, hab⟩
  · refine ⟨n, ty, hs, ?_⟩
    rw [switchOn_of_scanned hs list] at h
    cases h
    rfl
  · rw [hab] at h; cases h
  · rw [hab] at h; cases h

/-- The cursor after a scanned token is inside the text, at or after where the `switch`
was entered. -/
theorem scanned_bounds {HASH_SIZE : Nat} {g : Lexer} {c : Char} {n : Nat} {ty : TokenType}
    (h : Scanned HASH_SIZE g c n ty) (hle : g.current ≤ g.source_len) :
    g.current ≤ n ∧ n ≤ g.source_len := by
  cases h with
  | single hs => exact ⟨le_refl _, hle⟩
  | op ho hn => exact ⟨le_refl _, hle⟩
  | compound hlt hk => exact ⟨by omega, by omega⟩
  | space hc hr => exact ⟨hr.1, hr.2.1⟩
  | string hc hq => exact ⟨by have := hq.1; omega, by have := hq.2.1; omega⟩
  | preproc hc hr => exact ⟨hr.1, hr.2.1⟩
  | number hd hn =>
    obtain ⟨m, hm, h2⟩ := hn
    rcases h2 with ⟨hf, hr⟩ | ⟨_, rfl⟩
    · exact ⟨by have := hm.1; have := hr.1; omega, hr.2.1⟩
    · exact ⟨hm.1, hm.2.1⟩
  | ident ha hr => exact ⟨hr.1, hr.2.1⟩

/-! ## The dispatch loop -/

theorem tokenizeLoop_done (HASH_SIZE fuel : Nat) {g : Lexer} (list : TokenList)
    (h : g.source_len ≤ g.current) :
    tokenizeLoop HASH_SIZE (fuel + 1) g list = .ok (list, g) := by
  simp [tokenizeLoop, Nat.not_lt.mpr h]

theorem tokenizeLoop_step (HASH_SIZE fuel : Nat) {g : Lexer} (list : TokenList)
    (h : g.current < g.source_len) :
    tokenizeLoop HASH_SIZE (fuel + 1) g list =
      (switchOn HASH_SIZE (g.charAt g.current) g.enter list).bind fun f =>
        match f with
        | .brk g2 list2 => tokenizeLoop HASH_SIZE fuel g2 list2
        | .ret g2 list2 => .ok (list2, g2) := by
  simp only [tokenizeLoop, h, if_true]
  rfl

/-- One iteration of the loop, when the `switch` scans a token. -/
theorem tokenizeLoop_scanned (HASH_SIZE fuel : Nat) {g : Lexer} (list : TokenList) {n : Nat}
    {ty : TokenType} (h : g.current < g.source_len)
    (hs : Scanned HASH_SIZE g.enter (g.charAt g.current) n ty) :
    tokenizeLoop HASH_SIZE (fuel + 1) g list =
      tokenizeLoop HASH_SIZE fuel (g.enter.moveTo n) (addToken (g.enter.moveTo n) list ty) := by
  rw [tokenizeLoop_step HASH_SIZE fuel list h, switchOn_of_scanned hs list]
  rfl

theorem charAt_ne_NUL {g : Lexer} (hlen : g.source_len = strlen g.source) {i : Nat}
    (h : i < g.source_len) : g.charAt i ≠ NUL :=
  getD_ne_NUL (hlen ▸ h)

/-- Invariant rule for the loop of `tokenize`: a property of the cursor and the token
list that every scanned token preserves holds when the loop returns; the loop returns
with the cursor at or after the end of the text and leaves `source`, `source_len` and
`hashtab` as they were. -/
theorem tokenizeLoop_invariant (HASH_SIZE : Nat) (I : Lexer → TokenList → Prop)
    (hstep : ∀ g list n ty, I g list → g.source_len = strlen g.source →
      g.current < g.source_len → Scanned HASH_SIZE g.enter (g.charAt g.current) n ty →
      I (g.enter.moveTo n) (addToken (g.enter.moveTo n) list ty)) :
    ∀ (fuel : Nat) (g : Lexer) (list : TokenList) (r : TokenList × Lexer),
      g.source_len = strlen g.source → I g list →
      tokenizeLoop HASH_SIZE fuel g list = .ok r →
      I r.2 r.1 ∧ r.2.source_len ≤ r.2.current ∧ r.2.source = g.source ∧
        r.2.source_len = g.source_len ∧ r.2.hashtab = g.hashtab := by
  intro fuel
  induction fuel with
  | zero => intro g list r _ _ h; simp [tokenizeLoop] at h
  | succ fuel ih =>
    intro g list r hlen hI h
    by_cases hlt : g.current < g.source_len
    · rw [tokenizeLoop_step HASH_SIZE fuel list hlt] at h
      obtain ⟨f, hf, h2⟩ := bind_eq_ok h
      obtain ⟨n, ty, hs, rfl⟩ := switchOn_ok (charAt_ne_NUL hlen hlt)
        (show g.enter.current ≤ g.enter.source_len from hlt) hf
      exact ih (g.enter.moveTo n) _ r hlen (hstep g list n ty hI hlen hlt hs) h2
    · rw [tokenizeLoop_done HASH_SIZE fuel list (Nat.not_lt.mp hlt)] at h
      cases h
      exact ⟨hI, Nat.not_lt.mp hlt, rfl, rfl, rfl⟩

theorem take_drop_split (s : List Char) {a b n : Nat} (h1 : a ≤ b) (h2 : b ≤ n)
    (h3 : b ≤ s.length) :
    (s.take n).drop a = (s.take b).drop a ++ (s.drop b).take (n - b) := by
  have e : n = b + (n - b) := by omega
  conv_lhs => rw [e, List.take_add]
  rw [List.drop_append_of_le_length (by simp; omega)]

theorem addToken_tokens (g : Lexer) (list : TokenList) (ty : TokenType) :
    (addToken g list ty).tokens = list.tokens ++ [{ type := ty, lexeme := g.lexeme }] := rfl

theorem lexeme_enter_moveTo (g : Lexer) {n : Nat} (h1 : g.current ≤ n)
    (h2 : n ≤ g.source.length) :
    (g.enter.moveTo n).lexeme = (g.source.drop g.current).take (n - g.current) :=
  lexeme_eq (g.enter.moveTo n) h1 h2

/-- The lexemes emitted by the loop are the text between the cursor at entry and the end
of the text. -/
theorem tokenizeLoop_lexemes (HASH_SIZE fuel : Nat) (g : Lexer) (list : TokenList)
    (r : TokenList × Lexer) (hlen : g.source_len = strlen g.source)
    (hle : g.current ≤ g.source_len)
    (h : tokenizeLoop HASH_SIZE fuel g list = .ok r) :
    (lexemes r.1.tokens).flatten =
      (lexemes list.tokens).flatten ++ (cstr g.source).drop g.current := by
  have key := tokenizeLoop_invariant HASH_SIZE
    (fun g' list' => g.current ≤ g'.current ∧ g'.current ≤ g'.source_len ∧
      g'.source = g.source ∧ g'.source_len = g.source_len ∧
      (lexemes list'.tokens).flatten =
        (lexemes list.tokens).flatten ++ (g.source.take g'.current).drop g.current)
    (by
      intro g' list' n ty ⟨h1, h2, h3, h4, h5⟩ hl hlt hs
      have hb := scanned_bounds hs (show g'.enter.current ≤ g'.enter.source_len from hlt)
      have hb1 : g'.current + 1 ≤ n := hb.1
      have hb2 : n ≤ g'.source_len := hb.2
      have hsl : g'.source_len ≤ g'.source.length := hl ▸ strlen_le_length _
      refine ⟨?_, hb2, h3, h4, ?_⟩
      · show g.current ≤ n
        omega
      · rw [addToken_tokens, lexemes, List.map_append, List.flatten_append]
        simp only [List.map_cons, List.map_nil, List.flatten_cons, List.flatten_nil,
          List.append_nil]
        rw [lexeme_enter_moveTo g' (by omega) (by omega)]
        have h5' : (List.map (fun t => t.lexeme) list'.tokens).flatten =
            (lexemes list.tokens).flatten ++ (g.source.take g'.current).drop g.current := h5
        rw [h5', h3, List.append_assoc]
        congr 1
        exact (take_drop_split g.source h1 (by omega) (by rw [← h3]; omega)).symm)
    fuel g list r hlen ⟨le_refl _, hle, rfl, rfl, by simp⟩ h
  obtain ⟨⟨_, k2, k3, k4, k5⟩, k6, _⟩ := key
  have e : r.2.current = g.source_len := by omega
  rw [k5, e, cstr_eq_take, hlen]

/-! ## `tokenize` -/

theorem tokenize_eq (HASH_SIZE LIST_SIZE : Nat) (g : Lexer) (input : List Char) :
    tokenize HASH_SIZE LIST_SIZE g input =
      tokenizeLoop HASH_SIZE (strlen input + 2) (g.load HASH_SIZE input)
        (initTokenList LIST_SIZE) := rfl

theorem getD_mem_of_lt {l : List Char} {i : Nat} (h : i < l.length) : l.getD i NUL ∈ l := by
  rw [List.getD_eq_getElem?_getD, List.getElem?_eq_getElem h]
  exact List.getElem_mem h

theorem identKind_eq (HASH_SIZE : Nat) (g : Lexer) (n : Nat) :
    identKind HASH_SIZE g n =
      ((lookup HASH_SIZE g.hashtab (g.moveTo n).lexeme).map (fun h => h.val)).getD
        .IDENTIFIER := by
  unfold identKind
  cases lookup HASH_SIZE g.hashtab (g.moveTo n).lexeme <;> rfl

theorem ne_NUL_of_ident {d : Char} (h : (isalnum d || decide (d = '_')) = true) :
    d ≠ NUL := by
  intro e
  subst e
  revert h
  decide

theorem ne_NUL_of_alpha {d : Char} (h : isalpha d = true) : d ≠ NUL := by
  intro e
  subst e
  revert h
  decide

theorem ne_NUL_of_digit {d : Char} (h : isdigit d = true) : d ≠ NUL := by
  intro e
  subst e
  revert h
  decide

/-- C1. For every source text on which the first `tokenize` of a program run returns,
the lexemes of the returned tokens, concatenated in order, are the source text: the
text of the C string at `input` (`cstr s`), which is `s` itself when `s` holds no NUL.
Each lexeme is `source[start .. current)` at the moment `addToken` is called. -/
theorem tokenize_lexemes_concat (HASH_SIZE LIST_SIZE : Nat) (s : List Char)
    (r : TokenList × Lexer) (h : tokenize HASH_SIZE LIST_SIZE Lexer.init s = .ok r) :
    (lexemes r.1.tokens).flatten = cstr s ∧
    ((∀ c ∈ s, c ≠ NUL) → (lexemes r.1.tokens).flatten = s) ∧
    (∀ (g : Lexer) (list : TokenList) (ty : TokenType), g.start ≤ g.current →
      g.current ≤ g.source.length →
      (addToken g list ty).tokens = list.tokens ++
        [{ type := ty, lexeme := (g.source.drop g.start).take (g.current - g.start) }]) := by
  rw [tokenize_eq] at h
  have key := tokenizeLoop_lexemes HASH_SIZE _ _ _ r rfl (Nat.zero_le _) h
  have e : (lexemes r.1.tokens).flatten = cstr s := by
    simpa [initTokenList, lexemes, Lexer.init, Lexer.load] using key
  refine ⟨e, fun hs => by rw [e, cstr_eq_self hs], ?_⟩
  intro g list ty h1 h2
  rw [addToken_tokens, lexeme_eq g h1 h2]

theorem tokenize_lexemes_concat_witness :
    ∃ r, tokenize 101 8 Lexer.init "x1 = \"a b\" >>= 3.5;\n".toList = .ok r ∧
      (lexemes r.1.tokens).flatten = "x1 = \"a b\" >>= 3.5;\n".toList :=
  have h : tokenize 101 8 Lexer.init "x1 = \"a b\" >>= 3.5;\n".toList = .ok _ := rfl
  ⟨_, h, (tokenize_lexemes_concat 101 8 _ _ h).2.1 (by decide)⟩

/-! ## The keyword table -/

theorem cstr_idem (s : List Char) : cstr (cstr s) = cstr s := by
  induction s with
  | nil => rfl
  | cons c s ih =>
    by_cases hc : c = NUL
    · simp [cstr, hc]
    · simp [cstr, hc, ih]

theorem lookupChain_mem {s : List Char} {l : List Hashlist} {h : Hashlist}
    (hl : lookupChain s l = some h) : h ∈ l ∧ cstr s = cstr h.key := by
  induction l with
  | nil => simp [lookupChain] at hl
  | cons a l ih =>
    by_cases ha : cstr s = cstr a.key
    · simp [lookupChain, ha] at hl
      subst hl
      exact ⟨by simp, ha⟩
    · simp [lookupChain, ha] at hl
      exact ⟨by simp [(ih hl).1], (ih hl).2⟩

theorem lookupChain_setVal_same {k : List Char} {v : TokenType} {l : List Hashlist}
    {h : Hashlist} (hl : lookupChain k l = some h) :
    lookupChain k (setVal k v l) = some { h with val := v } := by
  induction l with
  | nil => simp [lookupChain] at hl
  | cons a l ih =>
    by_cases ha : cstr k = cstr a.key
    · simp [lookupChain, ha] at hl
      subst hl
      simp [setVal, lookupChain, ha]
    · simp [lookupChain, ha] at hl
      simp [setVal, lookupChain, ha, ih hl]

theorem lookupChain_setVal_other {k s : List Char} (v : TokenType) (l : List Hashlist)
    (hne : cstr s ≠ cstr k) : lookupChain s (setVal k v l) = lookupChain s l := by
  induction l with
  | nil => rfl
  | cons a l ih =>
    by_cases ha : cstr k = cstr a.key
    · have hs : cstr s ≠ cstr a.key := fun e => hne (e.trans ha.symm)
      simp [setVal, lookupChain, ha, hs]
    · by_cases hs : cstr s = cstr a.key
      · simp [setVal, lookupChain, ha, hs]
      · simp [setVal, lookupChain, ha, hs, ih]

theorem setVal_keys (k : List Char) (v : TokenType) (l : List Hashlist) :
    (setVal k v l).map (fun h => h.key) = l.map (fun h => h.key) := by
  induction l with
  | nil => rfl
  | cons a l ih =>
    by_cases ha : cstr k = cstr a.key
    · simp [setVal, ha]
    · simp [setVal, ha, ih]

theorem setVal_vals {k : List Char} {v : TokenType} {l : List Hashlist} {h : Hashlist}
    (hm : h ∈ setVal k v l) : h.val = v ∨ h ∈ l := by
  induction l with
  | nil => simp [setVal] at hm
  | cons a l ih =>
    by_cases ha : cstr k = cstr a.key
    · simp [setVal, ha] at hm
      rcases hm with rfl | hm
      · exact Or.inl rfl
      · exact Or.inr (by simp [hm])
    · simp [setVal, ha] at hm
      rcases hm with rfl | hm
      · exact Or.inr (by simp)
      · rcases ih hm with h1 | h1
        · exact Or.inl h1
        · exact Or.inr (by simp [h1])

/-- After `put(k, v)`, `lookup(k)` returns the node that `put` returned; its key is `k`
and its code is `v`. -/
theorem lookup_put_same (HASH_SIZE : Nat) (tab : Nat → List Hashlist) (k : List Char)
    (v : TokenType) :
    lookup HASH_SIZE (put HASH_SIZE tab k v).2 k = some (put HASH_SIZE tab k v).1 ∧
      cstr (put HASH_SIZE tab k v).1.key = cstr k ∧ (put HASH_SIZE tab k v).1.val = v := by
  unfold put
  cases hl : lookup HASH_SIZE tab k with
  | none => simp [lookup, lookupChain, cstr_idem]
  | some h =>
    have hl2 : lookupChain k (tab (hash HASH_SIZE k)) = some h := hl
    simp [lookup, lookupChain_setVal_same hl2, (lookupChain_mem hl2).2]

/-- After `put(k, v)`, `lookup` of any other key returns what it returned before. -/
theorem lookup_put_other (HASH_SIZE : Nat) (tab : Nat → List Hashlist) (k : List Char)
    (v : TokenType) {s : List Char} (hne : cstr s ≠ cstr k) :
    lookup HASH_SIZE (put HASH_SIZE tab k v).2 s = lookup HASH_SIZE tab s := by
  unfold put
  by_cases hh : hash HASH_SIZE s = hash HASH_SIZE k
  · cases hl : lookup HASH_SIZE tab k with
    | none =>
      have hne2 : cstr s ≠ cstr (cstr k) := by rw [cstr_idem]; exact hne
      simp only [lookup]
      rw [hh]
      simp [lookupChain, hne2]
    | some h =>
      simp only [lookup]
      rw [hh]
      simp [lookupChain_setVal_other v _ hne]
  · cases hl : lookup HASH_SIZE tab k with
    | none => simp [lookup, Function.update_noteq hh]
    | some h => simp [lookup, Function.update_noteq hh]

/-- Putting a key that is present changes no chain's length and no key. -/
theorem put_present_keys (HASH_SIZE : Nat) (tab : Nat → List Hashlist) (k : List Char)
    (v : TokenType) {h : Hashlist} (hl : lookup HASH_SIZE tab k = some h) (i : Nat) :
    ((put HASH_SIZE tab k v).2 i).map (fun e => e.key) = (tab i).map (fun e => e.key) := by
  unfold put
  rw [hl]
  by_cases hi : i = hash HASH_SIZE k
  · subst hi
    simp [setVal_keys]
  · simp [Function.update_noteq hi]

theorem hashLoop_cstr (s : List Char) (a : Nat) : hashLoop (cstr s) a = hashLoop s a := by
  induction s generalizing a with
  | nil => rfl
  | cons c s ih =>
    by_cases hc : c = NUL
    · simp [cstr, hashLoop, hc]
    · simp [cstr, hashLoop, hc, ih]

theorem hash_congr (HASH_SIZE : Nat) {s k : List Char} (h : cstr s = cstr k) :
    hash HASH_SIZE s = hash HASH_SIZE k := by
  unfold hash
  rw [← hashLoop_cstr s, ← hashLoop_cstr k, h]

theorem lookupChain_congr {s k : List Char} (h : cstr s = cstr k) (l : List Hashlist) :
    lookupChain s l = lookupChain k l := by
  induction l with
  | nil => rfl
  | cons a l ih => simp [lookupChain, h, ih]

theorem lookup_congr (HASH_SIZE : Nat) (tab : Nat → List Hashlist) {s k : List Char}
    (h : cstr s = cstr k) : lookup HASH_SIZE tab s = lookup HASH_SIZE tab k := by
  unfold lookup
  rw [hash_congr HASH_SIZE h, lookupChain_congr h]

theorem lookup_put_val (HASH_SIZE : Nat) (tab : Nat → List Hashlist) (k : List Char)
    (v : TokenType) (s : List Char) :
    (lookup HASH_SIZE (put HASH_SIZE tab k v).2 s).map (fun h => h.val) =
      if cstr s = cstr k then some v
      else (lookup HASH_SIZE tab s).map (fun h => h.val) := by
  by_cases hs : cstr s = cstr k
  · rw [lookup_congr HASH_SIZE _ hs, (lookup_put_same HASH_SIZE tab k v).1, if_pos hs]
    simp [(lookup_put_same HASH_SIZE tab k v).2.2]
  · simp [hs, lookup_put_other HASH_SIZE tab k v hs]

theorem lookup_emptyTable (HASH_SIZE : Nat) (s : List Char) :
    lookup HASH_SIZE emptyTable s = none := rfl

theorem lookup_putAll_none (HASH_SIZE : Nat) (k : List Char)
    (ps : List (List Char × TokenType)) :
    ∀ tab, lookup HASH_SIZE tab k = none → (∀ p ∈ ps, cstr p.1 ≠ cstr k) →
      lookup HASH_SIZE (putAll HASH_SIZE tab ps) k = none := by
  induction ps with
  | nil => intro tab h _; exact h
  | cons p ps ih =>
    intro tab h hp
    have hne : cstr k ≠ cstr p.1 := fun e => hp p (by simp) e.symm
    have := ih (put HASH_SIZE tab p.1 p.2).2
      (by rw [lookup_put_other HASH_SIZE tab p.1 p.2 hne]; exact h)
      (fun q hq => hp q (by simp [hq]))
    simpa [putAll] using this

theorem put_keywordVals (HASH_SIZE : Nat) {tab : Nat → List Hashlist} (k : List Char)
    {v : TokenType} (ht : KeywordVals tab) (hv : v.isKeyword = true) :
    KeywordVals (put HASH_SIZE tab k v).2 := by
  intro i h hm
  unfold put at hm
  by_cases hi : i = hash HASH_SIZE k
  · subst hi
    cases hl : lookup HASH_SIZE tab k with
    | none =>
      simp [hl] at hm
      rcases hm with rfl | hm
      · exact hv
      · exact ht _ h hm
    | some h0 =>
      simp [hl] at hm
      rcases setVal_vals hm with h1 | h1
      · rw [h1]; exact hv
      · exact ht _ h h1
  · cases hl : lookup HASH_SIZE tab k with
    | none =>
      simp [hl, Function.update_noteq hi] at hm
      exact ht _ h hm
    | some h0 =>
      simp [hl, Function.update_noteq hi] at hm
      exact ht _ h hm

theorem putKeywords_keywordVals (HASH_SIZE : Nat) {tab : Nat → List Hashlist}
    (ht : KeywordVals tab) : KeywordVals (putKeywords HASH_SIZE tab) := by
  unfold putKeywords
  repeat' apply put_keywordVals
  all_goals first | exact ht | rfl

theorem emptyTable_keywordVals : KeywordVals emptyTable := by
  intro i h hm
  simp [emptyTable] at hm

theorem keywordKind_of_not_mem {w : List Char} (h : w ∉ reservedWords) :
    keywordKind w = none := by
  simp only [reservedWords, List.mem_cons, List.mem_singleton, List.not_mem_nil, or_false,
    not_or] at h
  simp only [keywordKind, h, if_false]

/-- After the initialisation of `tokenize` on the empty table, `lookup` finds exactly
the reserved spellings, each with its keyword kind. -/
theorem lookup_putKeywords (HASH_SIZE : Nat) (w : List Char) (hw : cstr w = w) :
    (lookup HASH_SIZE (putKeywords HASH_SIZE emptyTable) w).map (fun h => h.val) =
      keywordKind w := by
  have kw_const : cstr "const".toList = "const".toList := by decide
  have kw_int : cstr "int".toList = "int".toList := by decide
  have kw_double : cstr "double".toList = "double".toList := by decide
  have kw_float : cstr "float".toList = "float".toList := by decide
  have kw_char : cstr "char".toList = "char".toList := by decide
  have kw_unsigned : cstr "unsigned".toList = "unsigned".toList := by decide
  have kw_long : cstr "long".toList = "long".toList := by decide
  have kw_enum : cstr "enum".toList = "enum".toList := by decide
  have kw_struct : cstr "struct".toList = "struct".toList := by decide
  have kw_union : cstr "union".toList = "union".toList := by decide
  have kw_typedef : cstr "typedef".toList = "typedef".toList := by decide
  have kw_return : cstr "return".toList = "return".toList := by decide
  have kw_do : cstr "do".toList = "do".toList := by decide
  have kw_while : cstr "while".toList = "while".toList := by decide
  have kw_for : cstr "for".toList = "for".toList := by decide
  have kw_if : cstr "if".toList = "if".toList := by decide
  have kw_else : cstr "else".toList = "else".toList := by decide
  have kw_true : cstr "true".toList = "true".toList := by decide
  have kw_false : cstr "false".toList = "false".toList := by decide
  have kw_NULL : cstr "NULL".toList = "NULL".toList := by decide
  simp only [putKeywords, lookup_put_val, kw_const, kw_int, kw_double, kw_float, kw_char, kw_unsigned, kw_long, kw_enum, kw_struct, kw_union, kw_typedef, kw_return, kw_do, kw_while, kw_for, kw_if, kw_else, kw_true, kw_false, kw_NULL, hw, lookup_emptyTable, Option.map_none']
  by_cases hm : w ∈ reservedWords
  · clear hw
    revert w
    simp only [reservedWords, List.forall_mem_cons, List.not_mem_nil, false_imp_iff,
      implies_true, and_true]
    repeat' apply And.intro
    all_goals rfl
  · rw [keywordKind_of_not_mem hm]
    simp only [reservedWords, List.mem_cons, List.mem_singleton, List.not_mem_nil, or_false,
      not_or] at hm
    simp only [hm, if_false]

/-! ## Claims about the keyword table -/

/-- C10. Map semantics of the keyword table, for every table state, key `k` and code
`v`: after `put(k, v)`, `lookup(k)` returns an entry whose key is `k` and whose code is
`v`; `lookup` of every other key returns what it returned before; when `k` was
present, `put` leaves every chain with the same keys in the same order (no second
entry is added); and on a table built from the empty one by `put` calls none of which
has key `k`, `lookup(k)` returns nothing. Keys are compared as C strings. -/
theorem put_lookup_map_semantics (HASH_SIZE : Nat) (tab : Nat → List Hashlist)
    (k : List Char) (v : TokenType) :
    (∃ h, lookup HASH_SIZE (put HASH_SIZE tab k v).2 k = some h ∧ cstr h.key = cstr k ∧
      h.val = v) ∧
    (∀ s, cstr s ≠ cstr k →
      lookup HASH_SIZE (put HASH_SIZE tab k v).2 s = lookup HASH_SIZE tab s) ∧
    (∀ h0, lookup HASH_SIZE tab k = some h0 → ∀ i,
      ((put HASH_SIZE tab k v).2 i).map (fun e => e.key) = (tab i).map (fun e => e.key)) ∧
    (∀ ps : List (List Char × TokenType), (∀ p ∈ ps, cstr p.1 ≠ cstr k) →
      lookup HASH_SIZE (putAll HASH_SIZE emptyTable ps) k = none) := by
  refine ⟨⟨_, (lookup_put_same HASH_SIZE tab k v).1, (lookup_put_same HASH_SIZE tab k v).2⟩,
    fun s hs => lookup_put_other HASH_SIZE tab k v hs,
    fun h0 hl i => put_present_keys HASH_SIZE tab k v hl i,
    fun ps hps => lookup_putAll_none HASH_SIZE k ps emptyTable rfl hps⟩

theorem put_lookup_map_semantics_witness :
    lookup 101 (put 101 (putAll 101 emptyTable [("if".toList, .IF), ("do".toList, .DO)])
        "if".toList .ELSE).2 "do".toList =
      lookup 101 (putAll 101 emptyTable [("if".toList, .IF), ("do".toList, .DO)])
        "do".toList ∧
    (∀ i, ((put 101 (putAll 101 emptyTable [("if".toList, .IF), ("do".toList, .DO)])
        "if".toList .ELSE).2 i).map (fun e => e.key) =
      ((putAll 101 emptyTable [("if".toList, .IF), ("do".toList, .DO)]) i).map
        (fun e => e.key)) ∧
    lookup 101 (putAll 101 emptyTable [("if".toList, .IF), ("do".toList, .DO)])
      "for".toList = none :=
  have h := put_lookup_map_semantics 101
    (putAll 101 emptyTable [("if".toList, .IF), ("do".toList, .DO)]) "if".toList .ELSE
  have h2 := put_lookup_map_semantics 101 emptyTable "for".toList .FOR
  ⟨h.2.1 "do".toList (by decide), h.2.2.1 { key := "if".toList, val := .IF } (by decide),
    h2.2.2.2 [("if".toList, .IF), ("do".toList, .DO)] (by decide)⟩

/-! ## Claims about `tokenize` -/

/-- C2, the code at the failing inputs. On the empty text `tokenize` returns the empty
token sequence, and on the text `x;` it returns the two tokens of `x` and `;`: no
ENDFILE token is emitted (the `case` of the NUL character is never reached, because the
loop stops at `current = source_len`). -/
theorem tokenize_returns_no_endfile (HASH_SIZE LIST_SIZE : Nat) :
    tokensOf (tokenize HASH_SIZE LIST_SIZE Lexer.init []) = some [] ∧
    tokensOf (tokenize 101 LIST_SIZE Lexer.init "x;".toList) =
      some [{ type := .IDENTIFIER, lexeme := "x".toList },
        { type := .SEMICOLON, lexeme := ";".toList }] :=
  ⟨rfl, rfl⟩

theorem load_source (HASH_SIZE : Nat) (g : Lexer) (input : List Char) :
    (g.load HASH_SIZE input).source = input := rfl

theorem load_source_len (HASH_SIZE : Nat) (g : Lexer) (input : List Char) :
    (g.load HASH_SIZE input).source_len = strlen input := rfl

theorem load_current (HASH_SIZE : Nat) (g : Lexer) (input : List Char) :
    (g.load HASH_SIZE input).current = g.current := rfl

theorem load_hashtab (HASH_SIZE : Nat) (g : Lexer) (input : List Char) :
    (g.load HASH_SIZE input).hashtab = putKeywords HASH_SIZE g.hashtab := by
  simp only [Lexer.load]

theorem load_init_hashtab (HASH_SIZE : Nat) (input : List Char) :
    (Lexer.init.load HASH_SIZE input).hashtab = putKeywords HASH_SIZE emptyTable := by
  simp only [Lexer.load, Lexer.init]

theorem keywordKind_of_mem : ∀ w ∈ reservedWords,
    ∃ k, keywordKind w = some k ∧ k.isKeyword = true := by
  decide

/-- A word that fills the text from the cursor to its end is scanned as one token. -/
theorem scan_word (HASH_SIZE : Nat) (g : Lexer) (list : TokenList) (fuel : Nat)
    (c : Char) (rest : List Char) (hsrc : g.source = c :: rest)
    (hlen : g.source_len = rest.length + 1) (hcur : g.current = 0)
    (htab : g.hashtab = putKeywords HASH_SIZE emptyTable)
    (hc : isalpha c = true) (hrest : ∀ d ∈ rest, (isalnum d || decide (d = '_')) = true) :
    tokenizeLoop HASH_SIZE (fuel + 1 + 1) g list =
      .ok ({ tokens := list.tokens ++
              [{ type := (keywordKind (c :: rest)).getD .IDENTIFIER, lexeme := c :: rest }]
             index := list.index + 1
             max := if list.index = list.max then list.max * 2 else list.max },
           g.enter.moveTo (rest.length + 1)) := by
  have hnul : ∀ d ∈ c :: rest, d ≠ NUL := by
    intro d hd
    rcases List.mem_cons.mp hd with rfl | hd
    · exact ne_NUL_of_alpha hc
    · exact ne_NUL_of_ident (hrest d hd)
  have hch : g.charAt g.current = c := by
    simp [Lexer.charAt, hsrc, hcur]
  have hs : Scanned HASH_SIZE g.enter (g.charAt g.current) (rest.length + 1)
      (identKind HASH_SIZE g.enter (rest.length + 1)) := by
    refine .ident (hch ▸ hc) ⟨?_, ?_, ?_, ?_⟩
    · show g.current + 1 ≤ rest.length + 1
      omega
    · show rest.length + 1 ≤ g.source_len
      omega
    · intro j hj1 hj2
      have hj1' : g.current + 1 ≤ j := hj1
      obtain ⟨i, rfl⟩ : ∃ i, j = i + 1 := ⟨j - 1, by omega⟩
      show (fun d => isalnum d || decide (d = '_')) (g.source.getD (i + 1) NUL) = true
      rw [hsrc, List.getD_cons_succ]
      exact hrest _ (getD_mem_of_lt (by omega))
    · intro hlt
      have : rest.length + 1 < g.source_len := hlt
      omega
  rw [tokenizeLoop_scanned HASH_SIZE _ _ (by omega) hs,
    tokenizeLoop_done HASH_SIZE _ _ (by show g.source_len ≤ rest.length + 1; omega)]
  have hlex : (g.enter.moveTo (rest.length + 1)).lexeme = c :: rest := by
    rw [lexeme_enter_moveTo _ (by omega) (by rw [hsrc]; simp), hsrc, hcur]
    simp
  have hkind : identKind HASH_SIZE g.enter (rest.length + 1) =
      (keywordKind (c :: rest)).getD .IDENTIFIER := by
    rw [identKind_eq, hlex]
    have e : g.enter.hashtab = putKeywords HASH_SIZE emptyTable := htab
    rw [e, lookup_putKeywords HASH_SIZE _ (cstr_eq_self hnul)]
  rw [hkind]
  simp only [addToken, hlex]

/-- C3. For every word `w` (an ASCII letter followed by letters, digits and
underscores), the first `tokenize` of a run, on the input `w`, returns one token: its
lexeme is `w` and its kind is the keyword kind of `w` when `w` is one of the reserved
spellings (`keywordKind`), and IDENTIFIER for every other `w`. -/
theorem tokenize_word (HASH_SIZE LIST_SIZE : Nat) (w : List Char) (hw : isWord w = true) :
    tokensOf (tokenize HASH_SIZE LIST_SIZE Lexer.init w) =
      some [{ type := (keywordKind w).getD .IDENTIFIER, lexeme := w }] ∧
    (w ∉ reservedWords → (keywordKind w).getD .IDENTIFIER = .IDENTIFIER) ∧
    (w ∈ reservedWords → ∃ k, keywordKind w = some k ∧ k.isKeyword = true) := by
  refine ⟨?_, fun h => by rw [keywordKind_of_not_mem h]; rfl, keywordKind_of_mem w⟩
  cases w with
  | nil => simp [isWord] at hw
  | cons c rest =>
    simp only [isWord, Bool.and_eq_true, List.all_eq_true] at hw
    obtain ⟨hc, hrest⟩ := hw
    have hnul : ∀ d ∈ c :: rest, d ≠ NUL := by
      intro d hd
      rcases List.mem_cons.mp hd with rfl | hd
      · exact ne_NUL_of_alpha hc
      · exact ne_NUL_of_ident (hrest d hd)
    have hlen : strlen (c :: rest) = rest.length + 1 := by
      rw [strlen_eq_length hnul]; rfl
    have hfuel : rest.length + 1 + 2 = (rest.length + 1) + 1 + 1 := rfl
    rw [tokenize_eq, hlen, hfuel,
      scan_word HASH_SIZE (Lexer.init.load HASH_SIZE (c :: rest)) (initTokenList LIST_SIZE)
        (rest.length + 1) c rest (load_source _ _ _) (by rw [load_source_len, hlen])
        (load_current _ _ _) (load_init_hashtab _ _) hc hrest]
    simp only [tokensOf, initTokenList, List.nil_append]

theorem tokenize_word_witness :
    tokensOf (tokenize 101 8 Lexer.init "return".toList) =
      some [{ type := .RETURN, lexeme := "return".toList }] ∧
    tokensOf (tokenize 101 8 Lexer.init "return_".toList) =
      some [{ type := .IDENTIFIER, lexeme := "return_".toList }] ∧
    tokensOf (tokenize 101 8 Lexer.init "If".toList) =
      some [{ type := .IDENTIFIER, lexeme := "If".toList }] ∧
    tokensOf (tokenize 101 8 Lexer.init "int1".toList) =
      some [{ type := .IDENTIFIER, lexeme := "int1".toList }] :=
  ⟨(tokenize_word 101 8 "return".toList (by decide)).1,
   (tokenize_word 101 8 "return_".toList (by decide)).1,
   (tokenize_word 101 8 "If".toList (by decide)).1,
   (tokenize_word 101 8 "int1".toList (by decide)).1⟩

/-! ## Kinds of scanned tokens -/

theorem singleChars_facts : ∀ c ∈ singleChars,
    ∃ ty, singleKind c = some ty ∧ opChar ty = none ∧ ty ≠ .WHITE_SPACE ∧ ty ≠ .ENDFILE := by
  decide

theorem singleKind_facts {c : Char} {ty : TokenType} (h : singleKind c = some ty) :
    opChar ty = none ∧ ty ≠ .WHITE_SPACE ∧ ty ≠ .ENDFILE := by
  obtain ⟨t2, h1, h2⟩ := singleChars_facts c (singleKind_mem h)
  have e : t2 = ty := Option.some.inj (h1.symm.trans h)
  subst e
  exact h2

theorem opChars_facts : ∀ c ∈ opChars,
    ∃ ty, opKind c = some ty ∧ opChar ty = some c ∧ ty ≠ .WHITE_SPACE ∧ ty ≠ .ENDFILE := by
  decide

theorem opKind_facts {c : Char} {ty : TokenType} (h : opKind c = some ty) :
    opChar ty = some c ∧ ty ≠ .WHITE_SPACE ∧ ty ≠ .ENDFILE := by
  obtain ⟨t2, h1, h2⟩ := opChars_facts c (opKind_mem h)
  have e : t2 = ty := Option.some.inj (h1.symm.trans h)
  subst e
  exact h2

theorem compoundSpellings_facts : ∀ p ∈ compoundSpellings,
    ∃ ty, compoundKind p.1 p.2 = some ty ∧ opChar ty = none ∧ ty ≠ .WHITE_SPACE ∧
      ty ≠ .ENDFILE ∧ strlen [p.1, p.2] = 2 := by
  decide

theorem compoundKind_facts {c d : Char} {ty : TokenType} (h : compoundKind c d = some ty) :
    opChar ty = none ∧ ty ≠ .WHITE_SPACE ∧ ty ≠ .ENDFILE := by
  obtain ⟨t2, h1, h2, h3, h4, _⟩ := compoundSpellings_facts (c, d) (compoundKind_mem h)
  have e : t2 = ty := Option.some.inj (h1.symm.trans h)
  subst e
  exact ⟨h2, h3, h4⟩

theorem keyword_facts {ty : TokenType} (h : ty = .IDENTIFIER ∨ ty.isKeyword = true) :
    opChar ty = none ∧ ty ≠ .WHITE_SPACE ∧ ty ≠ .ENDFILE := by
  rcases h with rfl | h
  · decide
  · cases ty <;> first | (exact absurd h (by decide)) | decide

theorem lookup_keywordVals {HASH_SIZE : Nat} {tab : Nat → List Hashlist} {s : List Char}
    {h : Hashlist} (ht : KeywordVals tab) (hl : lookup HASH_SIZE tab s = some h) :
    h.val.isKeyword = true :=
  ht _ h (lookupChain_mem hl).1

theorem identKind_cases (HASH_SIZE : Nat) {g : Lexer} (n : Nat) (ht : KeywordVals g.hashtab) :
    identKind HASH_SIZE g n = .IDENTIFIER ∨ (identKind HASH_SIZE g n).isKeyword = true := by
  unfold identKind
  cases hl : lookup HASH_SIZE g.hashtab (g.moveTo n).lexeme with
  | none => exact Or.inl rfl
  | some h => exact Or.inr (lookup_keywordVals ht hl)

/-- A scanned token of a single-character operator kind was entered with that
character, covers only it, and is not followed by a character that would have made a
two-character operator. -/
theorem scanned_opChar {HASH_SIZE : Nat} {g : Lexer} {c : Char} {n : Nat} {ty : TokenType}
    (h : Scanned HASH_SIZE g c n ty) (ht : KeywordVals g.hashtab) {ch : Char}
    (ho : opChar ty = some ch) :
    c = ch ∧ n = g.current ∧ (n < g.source_len → compoundKind ch (g.charAt n) = none) := by
  cases h with
  | single hs => rw [(singleKind_facts hs).1] at ho; cases ho
  | op hk hn =>
    rw [(opKind_facts hk).1] at ho
    cases ho
    exact ⟨rfl, rfl, hn⟩
  | compound hlt hk => rw [(compoundKind_facts hk).1] at ho; cases ho
  | space hc hr => cases ho
  | string hc hq => cases ho
  | preproc hc hr => cases ho
  | number hd hn => cases ho
  | ident ha hr => rw [(keyword_facts (identKind_cases HASH_SIZE _ ht)).1] at ho; cases ho

/-- A scanned WHITE_SPACE token was entered with a space and is not followed by a
space. -/
theorem scanned_white {HASH_SIZE : Nat} {g : Lexer} {c : Char} {n : Nat}
    (h : Scanned HASH_SIZE g c n .WHITE_SPACE) (ht : KeywordVals g.hashtab) :
    c = ' ' ∧ (n < g.source_len → g.charAt n ≠ ' ') := by
  generalize hty : TokenType.WHITE_SPACE = ty at h
  cases h with
  | single hs => exact absurd hty.symm (singleKind_facts hs).2.1
  | op hk hn => exact absurd hty.symm (opKind_facts hk).2.1
  | compound hlt hk => exact absurd hty.symm (compoundKind_facts hk).2.1
  | space hc hr =>
    refine ⟨hc, fun hlt => ?_⟩
    simpa using hr.2.2.2 hlt
  | string hc hq => cases hty
  | preproc hc hr => cases hty
  | number hd hn => cases hty
  | ident ha hr => exact absurd hty.symm (keyword_facts (identKind_cases HASH_SIZE _ ht)).2.1

/-- No scanned token has kind ENDFILE. -/
theorem scanned_ne_endfile {HASH_SIZE : Nat} {g : Lexer} {c : Char} {n : Nat}
    {ty : TokenType} (h : Scanned HASH_SIZE g c n ty) (ht : KeywordVals g.hashtab) :
    ty ≠ .ENDFILE := by
  cases h with
  | single hs => exact (singleKind_facts hs).2.2
  | op hk hn => exact (opKind_facts hk).2.2
  | compound hlt hk => exact (compoundKind_facts hk).2.2
  | space hc hr => decide
  | string hc hq => decide
  | preproc hc hr => decide
  | number hd hn => decide
  | ident ha hr => exact (keyword_facts (identKind_cases HASH_SIZE _ ht)).2.2

theorem lexeme_head (g : Lexer) {n : Nat} (h : g.current < n) :
    (g.enter.moveTo n).lexeme.head? = some (g.charAt g.current) := by
  obtain ⟨k, hk⟩ : ∃ k, n - g.current = k + 1 := ⟨n - g.current - 1, by omega⟩
  show ((List.range' g.current (n - g.current)).map g.charAt).head? = _
  rw [hk]
  rfl

theorem lexeme_one (g : Lexer) : (g.enter.moveTo (g.current + 1)).lexeme = [g.charAt g.current] := by
  show (List.range' g.current (g.current + 1 - g.current)).map g.charAt = _
  have : g.current + 1 - g.current = 1 := by omega
  rw [this]
  rfl

theorem lexeme_two (g : Lexer) :
    (g.enter.moveTo (g.current + 1 + 1)).lexeme =
      [g.charAt g.current, g.charAt (g.current + 1)] := by
  show (List.range' g.current (g.current + 1 + 1 - g.current)).map g.charAt = _
  have : g.current + 1 + 1 - g.current = 2 := by omega
  rw [this]
  rfl

/-! ## Properties of every returned token and of adjacent tokens -/

theorem tokensOf_eq_some {x : Outcome (TokenList × Lexer)} {toks : List Token}
    (h : tokensOf x = some toks) : ∃ r, x = .ok r ∧ r.1.tokens = toks := by
  cases x with
  | ok r => exact ⟨r, rfl, by simpa [tokensOf] using h⟩
  | abort e => simp [tokensOf] at h
  | outOfFuel => simp [tokensOf] at h

theorem load_keywordVals (HASH_SIZE : Nat) (input : List Char) :
    KeywordVals (Lexer.init.load HASH_SIZE input).hashtab := by
  rw [load_init_hashtab]
  exact putKeywords_keywordVals HASH_SIZE emptyTable_keywordVals

/-- A property of tokens that every scanned token has holds of every token the loop
returns. -/
theorem tokenizeLoop_forall (HASH_SIZE : Nat) (P : Token → Prop)
    (hP : ∀ (g : Lexer) n ty, KeywordVals g.hashtab → g.source_len = strlen g.source →
      g.current < g.source_len → Scanned HASH_SIZE g.enter (g.charAt g.current) n ty →
      P { type := ty, lexeme := (g.enter.moveTo n).lexeme })
    (fuel : Nat) (g : Lexer) (list : TokenList) (r : TokenList × Lexer)
    (hlen : g.source_len = strlen g.source) (ht : KeywordVals g.hashtab)
    (h0 : ∀ t ∈ list.tokens, P t) (h : tokenizeLoop HASH_SIZE fuel g list = .ok r) :
    ∀ t ∈ r.1.tokens, P t := by
  have key := tokenizeLoop_invariant HASH_SIZE
    (fun g' list' => KeywordVals g'.hashtab ∧ ∀ t ∈ list'.tokens, P t)
    (by
      intro g' list' n ty ⟨k1, k2⟩ hl hlt hs
      refine ⟨k1, ?_⟩
      intro t hm
      rw [addToken_tokens] at hm
      rcases List.mem_append.mp hm with hm | hm
      · exact k2 t hm
      · rw [List.mem_singleton] at hm
        subst hm
        exact hP g' n ty k1 hl hlt hs)
    fuel g list r hlen ⟨ht, h0⟩ h
  exact key.1.2

/-- A relation between adjacent tokens holds along the returned sequence when (`hF`)
every scanned token constrains the character after it by `F` and (`hR`) a token whose
constraint `F` the first character of the next scanned token meets is related to
that token. -/
theorem tokenizeLoop_chain (HASH_SIZE : Nat) (R : Token → Token → Prop)
    (F : Token → Char → Prop)
    (hF : ∀ (g : Lexer) n ty, KeywordVals g.hashtab → g.current < g.source_len →
      Scanned HASH_SIZE g.enter (g.charAt g.current) n ty → n < g.source_len →
      F { type := ty, lexeme := (g.enter.moveTo n).lexeme } (g.charAt n))
    (hR : ∀ (g : Lexer) n ty t1, KeywordVals g.hashtab → g.current < g.source_len →
      Scanned HASH_SIZE g.enter (g.charAt g.current) n ty → F t1 (g.charAt g.current) →
      R t1 { type := ty, lexeme := (g.enter.moveTo n).lexeme })
    (fuel : Nat) (g : Lexer) (list : TokenList) (r : TokenList × Lexer)
    (hlen : g.source_len = strlen g.source) (ht : KeywordVals g.hashtab)
    (h0 : List.Chain' R list.tokens)
    (h1 : ∀ t ∈ list.tokens.getLast?, g.current < g.source_len → F t (g.charAt g.current))
    (h : tokenizeLoop HASH_SIZE fuel g list = .ok r) :
    List.Chain' R r.1.tokens := by
  have key := tokenizeLoop_invariant HASH_SIZE
    (fun g' list' => KeywordVals g'.hashtab ∧ List.Chain' R list'.tokens ∧
      ∀ t ∈ list'.tokens.getLast?, g'.current < g'.source_len → F t (g'.charAt g'.current))
    (by
      intro g' list' n ty ⟨k1, k2, k3⟩ hl hlt hs
      refine ⟨k1, ?_, ?_⟩
      · rw [addToken_tokens, List.chain'_append]
        refine ⟨k2, List.chain'_singleton _, ?_⟩
        intro x hx y hy
        simp only [List.head?_cons, Option.mem_def, Option.some.injEq] at hy
        subst hy
        exact hR g' n ty x k1 hlt hs (k3 x hx hlt)
      · intro t hm hn
        rw [addToken_tokens, List.getLast?_concat] at hm
        simp only [Option.mem_def, Option.some.injEq] at hm
        subst hm
        exact hF g' n ty k1 hlt hs hn)
    fuel g list r hlen ⟨ht, h0, h1⟩ h
  exact key.1.2.1

theorem tokenize_forall (HASH_SIZE LIST_SIZE : Nat) (P : Token → Prop)
    (hP : ∀ (g : Lexer) n ty, KeywordVals g.hashtab → g.source_len = strlen g.source →
      g.current < g.source_len → Scanned HASH_SIZE g.enter (g.charAt g.current) n ty →
      P { type := ty, lexeme := (g.enter.moveTo n).lexeme })
    (s : List Char) (toks : List Token)
    (h : tokensOf (tokenize HASH_SIZE LIST_SIZE Lexer.init s) = some toks) :
    ∀ t ∈ toks, P t := by
  obtain ⟨r, hr, rfl⟩ := tokensOf_eq_some h
  rw [tokenize_eq] at hr
  exact tokenizeLoop_forall HASH_SIZE P hP _ _ _ r (load_source_len _ _ _)
    (load_keywordVals HASH_SIZE s) (by simp [initTokenList]) hr

theorem tokenize_chain (HASH_SIZE LIST_SIZE : Nat) (R : Token → Token → Prop)
    (F : Token → Char → Prop)
    (hF : ∀ (g : Lexer) n ty, KeywordVals g.hashtab → g.current < g.source_len →
      Scanned HASH_SIZE g.enter (g.charAt g.current) n ty → n < g.source_len →
      F { type := ty, lexeme := (g.enter.moveTo n).lexeme } (g.charAt n))
    (hR : ∀ (g : Lexer) n ty t1, KeywordVals g.hashtab → g.current < g.source_len →
      Scanned HASH_SIZE g.enter (g.charAt g.current) n ty → F t1 (g.charAt g.current) →
      R t1 { type := ty, lexeme := (g.enter.moveTo n).lexeme })
    (s : List Char) (toks : List Token)
    (h : tokensOf (tokenize HASH_SIZE LIST_SIZE Lexer.init s) = some toks) :
    List.Chain' R toks := by
  obtain ⟨r, hr, rfl⟩ := tokensOf_eq_some h
  rw [tokenize_eq] at hr
  exact tokenizeLoop_chain HASH_SIZE R F hF hR _ _ _ r (load_source_len _ _ _)
    (load_keywordVals HASH_SIZE s) (by simp [initTokenList])
    (by simp [initTokenList]) hr

/-- No token of a returned sequence has kind ENDFILE. -/
theorem tokenize_no_endfile (HASH_SIZE LIST_SIZE : Nat) (s : List Char) (toks : List Token)
    (h : tokensOf (tokenize HASH_SIZE LIST_SIZE Lexer.init s) = some toks) :
    ∀ t ∈ toks, t.type ≠ .ENDFILE :=
  tokenize_forall HASH_SIZE LIST_SIZE (fun t => t.type ≠ .ENDFILE)
    (fun _ _ _ ht _ _ hs => scanned_ne_endfile hs ht) s toks h

/-! ## Compound operators -/

/-- One loop iteration at a two-character operator spelling. -/
theorem scan_compound (HASH_SIZE fuel : Nat) (g : Lexer) (list : TokenList) {c d : Char}
    {ty : TokenType} (hk : compoundKind c d = some ty) (hlt : g.current + 1 < g.source_len)
    (hc : g.charAt g.current = c) (hd : g.charAt (g.current + 1) = d) :
    tokenizeLoop HASH_SIZE (fuel + 1) g list =
      tokenizeLoop HASH_SIZE fuel (g.enter.moveTo (g.current + 1 + 1))
        { tokens := list.tokens ++ [{ type := ty, lexeme := [c, d] }]
          index := list.index + 1
          max := if list.index = list.max then list.max * 2 else list.max } := by
  have hs : Scanned HASH_SIZE g.enter (g.charAt g.current) (g.enter.current + 1) ty := by
    refine .compound (show g.current + 1 < g.source_len from hlt) ?_
    show compoundKind (g.charAt g.current) (g.charAt (g.current + 1)) = some ty
    rw [hc, hd]
    exact hk
  rw [tokenizeLoop_scanned HASH_SIZE fuel list (by omega) hs]
  show tokenizeLoop HASH_SIZE fuel (g.enter.moveTo (g.current + 1 + 1))
    (addToken (g.enter.moveTo (g.current + 1 + 1)) list ty) = _
  simp only [addToken, lexeme_two, hc, hd]

theorem tokenize_compound (HASH_SIZE LIST_SIZE : Nat) {c d : Char} {ty : TokenType}
    (hk : compoundKind c d = some ty) :
    tokensOf (tokenize HASH_SIZE LIST_SIZE Lexer.init [c, d]) =
      some [{ type := ty, lexeme := [c, d] }] := by
  obtain ⟨_, _, _, _, _, hlen0⟩ := compoundSpellings_facts (c, d) (compoundKind_mem hk)
  have hlen : strlen [c, d] = 2 := hlen0
  have hfuel : strlen [c, d] + 2 = 2 + 1 + 1 := by omega
  rw [tokenize_eq, hfuel,
    scan_compound HASH_SIZE (2 + 1) (Lexer.init.load HASH_SIZE [c, d]) _ hk
      (by rw [load_source_len, load_current, hlen]; decide) rfl rfl,
    tokenizeLoop_done HASH_SIZE 2 _ (by
      show strlen [c, d] ≤ Lexer.init.current + 1 + 1
      rw [hlen]; decide)]
  simp only [tokensOf, initTokenList, List.nil_append]

/-- C4. Compound operators are maximal. (1) At a token boundary (the loop state `g`
with the two characters of a spelling `-- -= ++ += *= %= /= << <= >> >= == != && ||`
under the cursor), one loop iteration emits exactly one token, of the compound kind,
whose lexeme is both characters. (2) On the input made of such a spelling alone,
`tokenize` returns that one token. (3) In every sequence the first `tokenize` of a run
returns, a single-character operator token (MINUS, PLUS, STAR, MODULO, SLASH, LESS,
GREATER, EQUAL, BANG, BIT_AND, BIT_OR) has its character as lexeme, and that character
followed by the first character of the next lexeme is none of those spellings. -/
theorem compound_operators_maximal (HASH_SIZE LIST_SIZE : Nat) :
    (∀ (g : Lexer) (list : TokenList) (fuel : Nat) (c d : Char) (ty : TokenType),
      compoundKind c d = some ty → g.current + 1 < g.source_len →
      g.charAt g.current = c → g.charAt (g.current + 1) = d →
      tokenizeLoop HASH_SIZE (fuel + 1) g list =
        tokenizeLoop HASH_SIZE fuel (g.enter.moveTo (g.current + 1 + 1))
          { tokens := list.tokens ++ [{ type := ty, lexeme := [c, d] }]
            index := list.index + 1
            max := if list.index = list.max then list.max * 2 else list.max }) ∧
    (∀ (c d : Char) (ty : TokenType), compoundKind c d = some ty →
      tokensOf (tokenize HASH_SIZE LIST_SIZE Lexer.init [c, d]) =
        some [{ type := ty, lexeme := [c, d] }]) ∧
    (∀ (s : List Char) (toks : List Token),
      tokensOf (tokenize HASH_SIZE LIST_SIZE Lexer.init s) = some toks →
      List.Chain' NoSplit toks ∧
        ∀ t ∈ toks, ∀ ch, opChar t.type = some ch → t.lexeme = [ch]) := by
  refine ⟨fun g list fuel c d ty hk hlt hc hd => scan_compound HASH_SIZE fuel g list hk hlt hc hd,
    fun c d ty hk => tokenize_compound HASH_SIZE LIST_SIZE hk, ?_⟩
  intro s toks h
  constructor
  · refine tokenize_chain HASH_SIZE LIST_SIZE NoSplit
      (fun t d => ∀ ch, opChar t.type = some ch → compoundKind ch d = none) ?_ ?_ s toks h
    · intro g n ty ht hlt hs hn ch ho
      exact (scanned_opChar hs ht ho).2.2 hn
    · intro g n ty t1 ht hlt hs hF ch ho d hd
      have hb := scanned_bounds hs (show g.enter.current ≤ g.enter.source_len from hlt)
      have hb1 : g.current + 1 ≤ n := hb.1
      have hh : (g.enter.moveTo n).lexeme.head? = some d := hd
      rw [lexeme_head g (by omega)] at hh
      cases hh
      exact hF ch ho
  · refine tokenize_forall HASH_SIZE LIST_SIZE
      (fun t => ∀ ch, opChar t.type = some ch → t.lexeme = [ch]) ?_ s toks h
    intro g n ty ht hl hlt hs ch ho
    obtain ⟨h1, h2, _⟩ := scanned_opChar hs ht ho
    have h2' : n = g.current + 1 := h2
    subst h2'
    show (g.enter.moveTo (g.current + 1)).lexeme = [ch]
    rw [lexeme_one, h1]

theorem compound_operators_maximal_witness :
    tokensOf (tokenize 101 8 Lexer.init "<<".toList) =
      some [{ type := .LEFT_SHIFT, lexeme := "<<".toList }] ∧
    tokensOf (tokenize 101 8 Lexer.init "<=".toList) =
      some [{ type := .LESS_EQUAL, lexeme := "<=".toList }] ∧
    ∃ toks, tokensOf (tokenize 101 8 Lexer.init "a<b<<=c-- -1&&&d".toList) = some toks ∧
      List.Chain' NoSplit toks :=
  have h : tokensOf (tokenize 101 8 Lexer.init "a<b<<=c-- -1&&&d".toList) = some _ := rfl
  ⟨(compound_operators_maximal 101 8).2.1 '<' '<' .LEFT_SHIFT rfl,
   (compound_operators_maximal 101 8).2.1 '<' '=' .LESS_EQUAL rfl,
   _, h, ((compound_operators_maximal 101 8).2.2 _ _ h).1⟩

/-! ## Runs of one-character tokens -/

theorem strlen_append {pre : List Char} (rest : List Char) (h : ∀ c ∈ pre, c ≠ NUL) :
    strlen (pre ++ rest) = pre.length + strlen rest := by
  induction pre with
  | nil => simp
  | cons c pre ih =>
    have hc : c ≠ NUL := h c (by simp)
    have hp : ∀ d ∈ pre, d ≠ NUL := fun d hd => h d (by simp [hd])
    have e : strlen (c :: (pre ++ rest)) = strlen (pre ++ rest) + 1 := by
      simp [strlen, hc]
    rw [List.cons_append, e, ih hp, List.length_cons]
    omega

theorem strlen_cons {c : Char} (s : List Char) (h : c ≠ NUL) :
    strlen (c :: s) = strlen s + 1 := by
  simp [strlen, h]

theorem singleKind_ne_NUL {c : Char} {ty : TokenType} (h : singleKind c = some ty) :
    c ≠ NUL := by
  intro e
  subst e
  have hn : singleKind NUL = none := by decide
  rw [hn] at h
  cases h

/-- The loop only appends to the token list. -/
theorem tokenizeLoop_append (HASH_SIZE fuel : Nat) (g : Lexer) (list : TokenList)
    (r : TokenList × Lexer) (hlen : g.source_len = strlen g.source)
    (h : tokenizeLoop HASH_SIZE fuel g list = .ok r) :
    ∃ more, r.1.tokens = list.tokens ++ more := by
  have key := tokenizeLoop_invariant HASH_SIZE
    (fun _ list' => ∃ more, list'.tokens = list.tokens ++ more)
    (by
      intro g' list' n ty ⟨more, hm⟩ _ _ _
      exact ⟨more ++ [{ type := ty, lexeme := (g'.enter.moveTo n).lexeme }], by
        rw [addToken_tokens, hm, List.append_assoc]⟩)
    fuel g list r hlen ⟨[], by simp⟩ h
  exact key.1

/-- One loop iteration at a one-character token. -/
theorem scan_single (HASH_SIZE fuel : Nat) (g : Lexer) (list : TokenList) {c : Char}
    {ty : TokenType} (hk : singleKind c = some ty) (hlt : g.current < g.source_len)
    (hc : g.charAt g.current = c) :
    tokenizeLoop HASH_SIZE (fuel + 1) g list =
      tokenizeLoop HASH_SIZE fuel (g.enter.moveTo (g.current + 1))
        { tokens := list.tokens ++ [{ type := ty, lexeme := [c] }]
          index := list.index + 1
          max := if list.index = list.max then list.max * 2 else list.max } := by
  have hs : Scanned HASH_SIZE g.enter (g.charAt g.current) g.enter.current ty :=
    .single (hc ▸ hk)
  rw [tokenizeLoop_scanned HASH_SIZE fuel list hlt hs]
  show tokenizeLoop HASH_SIZE fuel (g.enter.moveTo (g.current + 1))
    (addToken (g.enter.moveTo (g.current + 1)) list ty) = _
  simp only [addToken, lexeme_one, hc]

/-- A run `p` of one-character tokens under the cursor takes one loop iteration per
character and appends one token per character. -/
theorem scan_singles (HASH_SIZE fuel : Nat) (p : List Char)
    (hp : ∀ c ∈ p, (singleKind c).isSome = true) :
    ∀ (g : Lexer) (list : TokenList) (pre rest : List Char),
      g.source = pre ++ p ++ rest → g.current = pre.length →
      pre.length + p.length ≤ g.source_len →
      ∃ g2 list2, g2.source = g.source ∧ g2.source_len = g.source_len ∧
        g2.current = pre.length + p.length ∧
        list2.tokens = list.tokens ++ p.map singleToken ∧
        tokenizeLoop HASH_SIZE (fuel + p.length) g list =
          tokenizeLoop HASH_SIZE fuel g2 list2 := by
  induction p with
  | nil =>
    intro g list pre rest _ hcur _
    exact ⟨g, list, rfl, rfl, by simpa using hcur, by simp, rfl⟩
  | cons c p ih =>
    intro g list pre rest hsrc hcur hle
    obtain ⟨ty, hty⟩ := Option.isSome_iff_exists.mp (hp c (by simp))
    have hp2 : ∀ d ∈ p, (singleKind d).isSome = true := fun d hd => hp d (by simp [hd])
    have hlt : g.current < g.source_len := by
      simp only [List.length_cons] at hle
      omega
    have hch : g.charAt g.current = c := by
      have := getD_append_right_len pre (c :: p ++ rest) 0
      simp only [Lexer.charAt, hsrc, hcur]
      simpa using this
    have hstep := scan_single HASH_SIZE (fuel + p.length) g list hty hlt hch
    obtain ⟨g2, list2, h1, h2, h3, h4, h5⟩ :=
      ih hp2 (g.enter.moveTo (g.current + 1))
        { tokens := list.tokens ++ [{ type := ty, lexeme := [c] }]
          index := list.index + 1
          max := if list.index = list.max then list.max * 2 else list.max }
        (pre ++ [c]) rest
        (by show g.source = _; rw [hsrc]; simp)
        (by show g.current + 1 = _; simp [hcur])
        (by
          show (pre ++ [c]).length + p.length ≤ g.source_len
          simp only [List.length_cons, List.length_append, List.length_nil] at hle ⊢
          omega)
    refine ⟨g2, list2, h1, h2, ?_, ?_, ?_⟩
    · rw [h3]
      simp only [List.length_cons, List.length_append, List.length_nil]
      omega
    · rw [h4]
      simp [singleToken, hty]
    · have e : fuel + (c :: p).length = fuel + p.length + 1 := by
        simp only [List.length_cons]
        omega
      rw [e, hstep, h5]

theorem punctuation_single : ∀ c ∈ punctuation, (singleKind c).isSome = true := by decide

theorem lineSpace_single : ∀ c ∈ lineSpace, (singleKind c).isSome = true := by decide

theorem isSome_ne_NUL {p : List Char} (hp : ∀ c ∈ p, (singleKind c).isSome = true) :
    ∀ c ∈ p, c ≠ NUL := by
  intro c hc
  obtain ⟨ty, hty⟩ := Option.isSome_iff_exists.mp (hp c hc)
  exact singleKind_ne_NUL hty

/-- A text made of one-character tokens only. -/
theorem tokenize_singles (HASH_SIZE LIST_SIZE : Nat) (s : List Char)
    (hs : ∀ c ∈ s, (singleKind c).isSome = true) :
    tokensOf (tokenize HASH_SIZE LIST_SIZE Lexer.init s) = some (s.map singleToken) := by
  have hlen : strlen s = s.length := strlen_eq_length (isSome_ne_NUL hs)
  obtain ⟨g2, list2, h1, h2, h3, h4, h5⟩ :=
    scan_singles HASH_SIZE (1 + 1) s hs (Lexer.init.load HASH_SIZE s)
      (initTokenList LIST_SIZE) [] [] (by rw [load_source]; simp) rfl
      (by rw [load_source_len, hlen]; simp)
  have hfuel : strlen s + 2 = 1 + 1 + s.length := by omega
  rw [tokenize_eq, hfuel, h5,
    tokenizeLoop_done HASH_SIZE 1 list2 (by
      rw [h2, h3, load_source_len, hlen]; simp)]
  simp [tokensOf, h4, initTokenList]

/-! ## Unexpected characters -/

/-- C9. Unexpected characters are fatal. For every character `c` of a text (so not the
NUL that ends it) that has no `case` label in the `switch` of `tokenize` — it is none
of `( ) { } [ ] ; , . ^ ~ - + * % / < > = ! & |`, space, tab, carriage return, newline,
double quote, `#` — and is neither a decimal digit nor an ASCII letter, for every
prefix `p` of single-character punctuation `( ) { } [ ] ; , ^ ~` and every rest `r`,
the first `tokenize` of a run, on `p` followed by `c` followed by `r`, aborts with the
unexpected-character error for `c`; no token sequence is returned. -/
theorem tokenize_unexpected_char (HASH_SIZE LIST_SIZE : Nat) (c : Char) (p r : List Char)
    (hc : c ∉ caseLabels) (hd : isdigit c = false) (ha : isalpha c = false)
    (hp : ∀ x ∈ p, x ∈ punctuation) :
    tokenize HASH_SIZE LIST_SIZE Lexer.init (p ++ c :: r) = .abort (.UnexpectedChar c) ∧
    tokensOf (tokenize HASH_SIZE LIST_SIZE Lexer.init (p ++ c :: r)) = none := by
  have hp1 : ∀ x ∈ p, (singleKind x).isSome = true := fun x hx => punctuation_single x (hp x hx)
  have hcN : c ≠ NUL := fun e => hc (by rw [e]; decide)
  have hlen : strlen (p ++ c :: r) = p.length + (strlen r + 1) := by
    rw [strlen_append _ (isSome_ne_NUL hp1), strlen_cons _ hcN]
  obtain ⟨g2, list2, h1, h2, h3, _, h5⟩ :=
    scan_singles HASH_SIZE (strlen r + 2 + 1) p hp1 (Lexer.init.load HASH_SIZE (p ++ c :: r))
      (initTokenList LIST_SIZE) [] (c :: r) (by rw [load_source]; simp) rfl
      (by rw [load_source_len, hlen]; simp)
  have hfuel : strlen (p ++ c :: r) + 2 = strlen r + 2 + 1 + p.length := by omega
  have hlt : g2.current < g2.source_len := by
    rw [h2, h3, load_source_len, hlen]
    simp
  have hch : g2.charAt g2.current = c := by
    have := getD_append_right_len p (c :: r) 0
    simp only [Lexer.charAt, h1, h3, load_source]
    simpa using this
  have key : tokenize HASH_SIZE LIST_SIZE Lexer.init (p ++ c :: r) =
      .abort (.UnexpectedChar c) := by
    rw [tokenize_eq, hfuel, h5, tokenizeLoop_step HASH_SIZE _ list2 hlt, hch,
      switchOn_other HASH_SIZE hc hd ha]
    rfl
  exact ⟨key, by rw [key]; rfl⟩

theorem tokenize_unexpected_char_witness :
    tokenize 101 8 Lexer.init "([@x".toList = .abort (.UnexpectedChar '@') ∧
    tokenize 101 8 Lexer.init "_a".toList = .abort (.UnexpectedChar '_') ∧
    tokenize 101 8 Lexer.init "[];\\".toList = .abort (.UnexpectedChar '\\') :=
  ⟨(tokenize_unexpected_char 101 8 '@' "([".toList "x".toList (by decide) (by decide)
      (by decide) (by decide)).1,
   (tokenize_unexpected_char 101 8 '_' [] "a".toList (by decide) (by decide)
      (by decide) (by decide)).1,
   (tokenize_unexpected_char 101 8 '\\' "[];".toList [] (by decide) (by decide)
      (by decide) (by decide)).1⟩

/-! ## One token up to the end of the text -/

/-- A token scanned from the cursor to the end of the text ends the loop. -/
theorem scan_to_end (HASH_SIZE fuel : Nat) (g : Lexer) (list : TokenList) {ty : TokenType}
    (hlt : g.current < g.source_len)
    (hs : Scanned HASH_SIZE g.enter (g.charAt g.current) g.source_len ty) :
    tokenizeLoop HASH_SIZE (fuel + 1 + 1) g list =
      .ok (addToken (g.enter.moveTo g.source_len) list ty, g.enter.moveTo g.source_len) := by
  rw [tokenizeLoop_scanned HASH_SIZE _ _ hlt hs,
    tokenizeLoop_done HASH_SIZE _ _ (by show g.source_len ≤ g.source_len; exact le_refl _)]

/-- The lexeme of a token that covers the whole text of a NUL-free input. -/
theorem lexeme_whole (HASH_SIZE : Nat) (s : List Char) (hs : ∀ c ∈ s, c ≠ NUL) :
    ((Lexer.init.load HASH_SIZE s).enter.moveTo (Lexer.init.load HASH_SIZE s).source_len).lexeme
      = s := by
  rw [lexeme_enter_moveTo _ (Nat.zero_le _)
    (by rw [load_source_len, load_source, strlen_eq_length hs])]
  rw [load_source, load_source_len, load_current, strlen_eq_length hs]
  show (s.drop 0).take (s.length - 0) = s
  simp

/-- When the first token covers the whole NUL-free text, `tokenize` returns it alone. -/
theorem tokenize_whole (HASH_SIZE LIST_SIZE : Nat) (s : List Char) {ty : TokenType}
    (hnul : ∀ c ∈ s, c ≠ NUL) (hne : s ≠ [])
    (hs : Scanned HASH_SIZE (Lexer.init.load HASH_SIZE s).enter (s.getD 0 NUL) s.length ty) :
    tokensOf (tokenize HASH_SIZE LIST_SIZE Lexer.init s) =
      some [{ type := ty, lexeme := s }] := by
  have hlen : strlen s = s.length := strlen_eq_length hnul
  have hpos : 0 < s.length := List.length_pos.mpr hne
  have hfuel : strlen s + 2 = s.length + 1 + 1 := by omega
  have hs2 : Scanned HASH_SIZE (Lexer.init.load HASH_SIZE s).enter
      ((Lexer.init.load HASH_SIZE s).charAt (Lexer.init.load HASH_SIZE s).current)
      (Lexer.init.load HASH_SIZE s).source_len ty := by
    rw [load_source_len, hlen]
    exact hs
  rw [tokenize_eq, hfuel,
    scan_to_end HASH_SIZE s.length _ _ (by rw [load_source_len, hlen]; exact hpos) hs2]
  simp only [tokensOf, addToken_tokens, lexeme_whole HASH_SIZE s hnul, initTokenList,
    List.nil_append]

/-! ## Whitespace -/

theorem tokenize_spaces (HASH_SIZE LIST_SIZE n : Nat) (hn : 1 ≤ n) :
    tokensOf (tokenize HASH_SIZE LIST_SIZE Lexer.init (List.replicate n ' ')) =
      some [{ type := .WHITE_SPACE, lexeme := List.replicate n ' ' }] := by
  have hnul : ∀ c ∈ List.replicate n ' ', c ≠ NUL := by
    intro c hc
    rw [List.eq_of_mem_replicate hc]
    decide
  have hget : ∀ j, j < n → (List.replicate n ' ').getD j NUL = ' ' := by
    intro j hj
    exact List.eq_of_mem_replicate (getD_mem_of_lt (by simpa using hj))
  apply tokenize_whole HASH_SIZE LIST_SIZE _ hnul
    (by intro e; have := congrArg List.length e; simp at this; omega)
  rw [hget 0 (by omega)]
  refine .space rfl ⟨?_, ?_, ?_, ?_⟩
  · show 0 + 1 ≤ (List.replicate n ' ').length
    simp; omega
  · show (List.replicate n ' ').length ≤ strlen (List.replicate n ' ')
    rw [strlen_eq_length hnul]
  · intro j _ hj2
    show decide ((List.replicate n ' ').getD j NUL = ' ') = true
    rw [hget j (by simpa using hj2)]
    rfl
  · intro hlt
    have : (List.replicate n ' ').length < strlen (List.replicate n ' ') := hlt
    rw [strlen_eq_length hnul] at this
    omega

theorem lexeme_mem (g : Lexer) {n : Nat} {d : Char} (h : d ∈ (g.enter.moveTo n).lexeme) :
    ∃ j, g.current ≤ j ∧ j < n ∧ d = g.charAt j := by
  have h2 : d ∈ (List.range' g.current (n - g.current)).map g.charAt := h
  obtain ⟨j, hj, rfl⟩ := List.mem_map.mp h2
  rw [List.mem_range'_1] at hj
  exact ⟨j, hj.1, by omega, rfl⟩

/-- C8. Whitespace. (1) For every `n ≥ 1`, the input of `n` spaces yields exactly one
WHITE_SPACE token whose lexeme is those `n` spaces. (2) In every sequence the first
`tokenize` of a run returns, no two WHITE_SPACE tokens are adjacent, and the lexeme of
every WHITE_SPACE token is a non-empty run of spaces (no tab, carriage return or
newline is merged into it). (3) A tab, carriage return or newline met by the dispatch
loop (at a token boundary) is emitted as its own one-character token of kind
TAB_SPACE, CARR_SPACE, NEW_LINE. (4) A text of tabs, carriage returns and newlines
yields one such token per character; so `k` newlines yield `k` NEW_LINE tokens. -/
theorem whitespace_tokens (HASH_SIZE LIST_SIZE : Nat) :
    (∀ n, 1 ≤ n →
      tokensOf (tokenize HASH_SIZE LIST_SIZE Lexer.init (List.replicate n ' ')) =
        some [{ type := .WHITE_SPACE, lexeme := List.replicate n ' ' }]) ∧
    (∀ (s : List Char) (toks : List Token),
      tokensOf (tokenize HASH_SIZE LIST_SIZE Lexer.init s) = some toks →
      List.Chain' NotBothSpace toks ∧
        ∀ t ∈ toks, t.type = .WHITE_SPACE → t.lexeme ≠ [] ∧ ∀ d ∈ t.lexeme, d = ' ') ∧
    (∀ (g : Lexer) (list : TokenList) (fuel : Nat) (c : Char), c ∈ lineSpace →
      g.current < g.source_len → g.charAt g.current = c →
      tokenizeLoop HASH_SIZE (fuel + 1) g list =
        tokenizeLoop HASH_SIZE fuel (g.enter.moveTo (g.current + 1))
          { tokens := list.tokens ++ [singleToken c]
            index := list.index + 1
            max := if list.index = list.max then list.max * 2 else list.max }) ∧
    (singleToken '\t' = { type := .TAB_SPACE, lexeme := ['\t'] } ∧
      singleToken '\r' = { type := .CARR_SPACE, lexeme := ['\r'] } ∧
      singleToken '\n' = { type := .NEW_LINE, lexeme := ['\n'] }) ∧
    (∀ s : List Char, (∀ c ∈ s, c ∈ lineSpace) →
      tokensOf (tokenize HASH_SIZE LIST_SIZE Lexer.init s) = some (s.map singleToken)) ∧
    (∀ k, tokensOf (tokenize HASH_SIZE LIST_SIZE Lexer.init (List.replicate k '\n')) =
      some (List.replicate k { type := .NEW_LINE, lexeme := ['\n'] })) := by
  refine ⟨fun n hn => tokenize_spaces HASH_SIZE LIST_SIZE n hn, ?_, ?_, ⟨rfl, rfl, rfl⟩, ?_, ?_⟩
  · intro s toks h
    constructor
    · refine tokenize_chain HASH_SIZE LIST_SIZE NotBothSpace
        (fun t d => t.type = .WHITE_SPACE → d ≠ ' ') ?_ ?_ s toks h
      · intro g n ty ht hlt hs hn hty
        have hty' : ty = .WHITE_SPACE := hty
        subst hty'
        exact (scanned_white hs ht).2 hn
      · intro g n ty t1 ht hlt hs hF hboth
        obtain ⟨h1, h2⟩ := hboth
        have h2' : ty = .WHITE_SPACE := h2
        subst h2'
        exact hF h1 (scanned_white hs ht).1
    · refine tokenize_forall HASH_SIZE LIST_SIZE
        (fun t => t.type = .WHITE_SPACE → t.lexeme ≠ [] ∧ ∀ d ∈ t.lexeme, d = ' ')
        ?_ s toks h
      intro g n ty ht hl hlt hs hty
      have hty' : ty = .WHITE_SPACE := hty
      subst hty'
      have hb := scanned_bounds hs (show g.enter.current ≤ g.enter.source_len from hlt)
      have hb1 : g.current + 1 ≤ n := hb.1
      have hc := (scanned_white hs ht).1
      constructor
      · intro e
        have hh := lexeme_head g (show g.current < n by omega)
        rw [show (g.enter.moveTo n).lexeme = [] from e] at hh
        cases hh
      · intro d hd
        obtain ⟨j, hj1, hj2, rfl⟩ := lexeme_mem g hd
        by_cases hj : j = g.current
        · rw [hj]; exact hc
        · generalize hty2 : TokenType.WHITE_SPACE = ty2 at hs
          cases hs with
          | single hs => exact absurd hty2.symm (singleKind_facts hs).2.1
          | op hk hn => exact absurd hty2.symm (opKind_facts hk).2.1
          | compound hlt hk => exact absurd hty2.symm (compoundKind_facts hk).2.1
          | space hc hr =>
            have := hr.2.2.1 j (show g.current + 1 ≤ j by omega) hj2
            simpa using this
          | string hc hq => cases hty2
          | preproc hc hr => cases hty2
          | number hd hn => cases hty2
          | ident ha hr =>
            exact absurd hty2.symm
              (keyword_facts (identKind_cases HASH_SIZE (g := g.enter) n ht)).2.1
  · intro g list fuel c hc hlt hch
    obtain ⟨ty, hty⟩ := Option.isSome_iff_exists.mp (lineSpace_single c hc)
    rw [scan_single HASH_SIZE fuel g list hty hlt hch]
    simp [singleToken, hty]
  · intro s hs
    exact tokenize_singles HASH_SIZE LIST_SIZE s (fun c hc => lineSpace_single c (hs c hc))
  · intro k
    rw [tokenize_singles HASH_SIZE LIST_SIZE _ (by
      intro c hc
      rw [List.eq_of_mem_replicate hc]
      rfl)]
    simp [singleToken, singleKind]

theorem whitespace_tokens_witness :
    tokensOf (tokenize 101 8 Lexer.init "   ".toList) =
      some [{ type := .WHITE_SPACE, lexeme := "   ".toList }] ∧
    tokensOf (tokenize 101 8 Lexer.init "\n\n".toList) =
      some [{ type := .NEW_LINE, lexeme := "\n".toList },
        { type := .NEW_LINE, lexeme := "\n".toList }] ∧
    (∃ toks, tokensOf (tokenize 101 8 Lexer.init "a  \t b \n  c".toList) = some toks ∧
      List.Chain' NotBothSpace toks) ∧
    tokensOf (tokenize 101 8 Lexer.init "\t\r\n".toList) =
      some ("\t\r\n".toList.map singleToken) :=
  have h : tokensOf (tokenize 101 8 Lexer.init "a  \t b \n  c".toList) = some _ := rfl
  ⟨(whitespace_tokens 101 8).1 3 (by decide),
   (whitespace_tokens 101 8).2.2.2.2.2 2,
   ⟨_, h, ((whitespace_tokens 101 8).2.1 _ _ h).1⟩,
   (whitespace_tokens 101 8).2.2.2.2.1 "\t\r\n".toList (by decide)⟩

/-! ## String literals -/

/-- One loop iteration at a double quote that no closing quote follows. -/
theorem scan_unterminated (HASH_SIZE fuel : Nat) (g : Lexer) (list : TokenList)
    (hlt : g.current < g.source_len) (hc : g.charAt g.current = DQUOTE)
    (hno : ¬ ∃ n, ClosingQuote g.enter n) :
    tokenizeLoop HASH_SIZE (fuel + 1) g list = .abort .UnterminatedString := by
  rw [tokenizeLoop_step HASH_SIZE fuel list hlt, hc, switchOn_quote,
    addString_abort list hno]
  rfl

theorem getD_cons_body (body tail : List Char) {k : Nat} (hk : k < body.length) :
    (DQUOTE :: (body ++ tail)).getD (k + 1) NUL ∈ body := by
  rw [List.getD_cons_succ, getD_append_left_lt body tail hk]
  exact getD_mem_of_lt hk

theorem getD_cons_tail (body tail : List Char) (k : Nat) :
    (DQUOTE :: (body ++ tail)).getD (body.length + k + 1) NUL = tail.getD k NUL := by
  rw [List.getD_cons_succ, getD_append_right_len]

/-- After an opening quote, a body without double quote that runs to the end of the
text or to a newline has no closing quote. -/
theorem no_closingQuote (g : Lexer) (body tail : List Char)
    (hsrc : g.source = DQUOTE :: (body ++ tail)) (hcur : g.current = 1)
    (hlen : g.source_len ≤ g.source.length) (hb : DQUOTE ∉ body)
    (htail : tail = [] ∨ ∃ rest, tail = '\n' :: rest) :
    ¬ ∃ n, ClosingQuote g n := by
  rintro ⟨n, h1, h2, h3, h4⟩
  obtain ⟨k, rfl⟩ : ∃ k, n = k + 1 := ⟨n - 1, by omega⟩
  have hnq : ('\n' : Char) ≠ DQUOTE := by decide
  by_cases hk : k < body.length
  · have := getD_cons_body body tail hk
    have e : g.charAt (k + 1) = (DQUOTE :: (body ++ tail)).getD (k + 1) NUL := by
      simp only [Lexer.charAt, hsrc]
    rw [← e, h3] at this
    exact hb this
  · rcases htail with rfl | ⟨rest, rfl⟩
    · rw [hsrc] at hlen
      simp at hlen
      omega
    · by_cases hk2 : k = body.length
      · have e : g.charAt (k + 1) = '\n' := by
          simp only [Lexer.charAt, hsrc, hk2]
          have := getD_cons_tail body ('\n' :: rest) 0
          simpa using this
        rw [h3] at e
        exact hnq e.symm
      · have e : g.charAt (body.length + 1) = '\n' := by
          simp only [Lexer.charAt, hsrc]
          have := getD_cons_tail body ('\n' :: rest) 0
          simpa using this
        exact (h4 (body.length + 1) (by omega) (by omega)).2 e

theorem DQUOTE_ne_NUL : DQUOTE ≠ NUL := by decide

theorem tokenize_unterminated (HASH_SIZE LIST_SIZE : Nat) (body tail : List Char)
    (hb : DQUOTE ∉ body) (htail : tail = [] ∨ ∃ rest, tail = '\n' :: rest) :
    tokenize HASH_SIZE LIST_SIZE Lexer.init (DQUOTE :: (body ++ tail)) =
      .abort .UnterminatedString := by
  have hlen : strlen (DQUOTE :: (body ++ tail)) = strlen (body ++ tail) + 1 :=
    strlen_cons _ DQUOTE_ne_NUL
  have hfuel : strlen (DQUOTE :: (body ++ tail)) + 2 = strlen (body ++ tail) + 2 + 1 := by
    omega
  rw [tokenize_eq, hfuel]
  apply scan_unterminated
  · rw [load_source_len, load_current, hlen]
    exact Nat.succ_pos _
  · rfl
  · exact no_closingQuote _ body tail
      (show (Lexer.init.load HASH_SIZE (DQUOTE :: (body ++ tail))).enter.source = _ from
        load_source HASH_SIZE Lexer.init (DQUOTE :: (body ++ tail))) rfl
      (by
        show strlen (DQUOTE :: (body ++ tail)) ≤ (DQUOTE :: (body ++ tail)).length
        exact strlen_le_length _) hb htail

/-- C5. Unterminated string literals are fatal. For every body without double quote,
the first `tokenize` of a run aborts with the unterminated-string error on the input
made of a double quote and the body (end of input before closure), and, for every
rest, on the input made of a double quote, the body, a newline and the rest (newline
before closure). No token sequence is returned. -/
theorem tokenize_unterminated_string (HASH_SIZE LIST_SIZE : Nat) (body : List Char)
    (hb : DQUOTE ∉ body) :
    tokenize HASH_SIZE LIST_SIZE Lexer.init (DQUOTE :: body) = .abort .UnterminatedString ∧
    tokensOf (tokenize HASH_SIZE LIST_SIZE Lexer.init (DQUOTE :: body)) = none ∧
    ∀ rest : List Char,
      tokenize HASH_SIZE LIST_SIZE Lexer.init (DQUOTE :: (body ++ '\n' :: rest)) =
        .abort .UnterminatedString ∧
      tokensOf (tokenize HASH_SIZE LIST_SIZE Lexer.init (DQUOTE :: (body ++ '\n' :: rest))) =
        none := by
  have h1 := tokenize_unterminated HASH_SIZE LIST_SIZE body [] hb (Or.inl rfl)
  rw [List.append_nil] at h1
  refine ⟨h1, by rw [h1]; rfl, fun rest => ?_⟩
  have h2 := tokenize_unterminated HASH_SIZE LIST_SIZE body ('\n' :: rest) hb
    (Or.inr ⟨rest, rfl⟩)
  exact ⟨h2, by rw [h2]; rfl⟩

theorem tokenize_unterminated_string_witness :
    tokenize 101 8 Lexer.init (DQUOTE :: "abc".toList) = .abort .UnterminatedString ∧
    tokenize 101 8 Lexer.init (DQUOTE :: ("ab".toList ++ '\n' :: "c\" x".toList)) =
      .abort .UnterminatedString :=
  ⟨(tokenize_unterminated_string 101 8 "abc".toList (by decide)).1,
   ((tokenize_unterminated_string 101 8 "ab".toList (by decide)).2.2 "c\" x".toList).1⟩

theorem closingQuote_of_body (g : Lexer) (body rest : List Char)
    (hsrc : g.source = DQUOTE :: (body ++ DQUOTE :: rest)) (hcur : g.current = 1)
    (hlen : body.length + 2 ≤ g.source_len)
    (hb : ∀ c ∈ body, c ≠ DQUOTE ∧ c ≠ '\n') : ClosingQuote g (body.length + 1) := by
  refine ⟨by omega, by omega, ?_, ?_⟩
  · simp only [Lexer.charAt, hsrc]
    have := getD_cons_tail body (DQUOTE :: rest) 0
    simpa using this
  · intro i hi1 hi2
    obtain ⟨k, rfl⟩ : ∃ k, i = k + 1 := ⟨i - 1, by omega⟩
    have hm := getD_cons_body body (DQUOTE :: rest) (show k < body.length by omega)
    have e : g.charAt (k + 1) = (DQUOTE :: (body ++ DQUOTE :: rest)).getD (k + 1) NUL := by
      simp only [Lexer.charAt, hsrc]
    rw [e]
    exact hb _ hm

theorem take_string (body rest : List Char) :
    (DQUOTE :: (body ++ DQUOTE :: rest)).take (body.length + 1 + 1) =
      DQUOTE :: (body ++ [DQUOTE]) := by
  induction body with
  | nil => rfl
  | cons c body ih =>
    simp only [List.cons_append, List.length_cons, List.take_succ_cons] at ih ⊢
    have ih2 := List.cons_injective ih
    rw [ih2]

/-- One loop iteration at a string literal that starts the text. -/
theorem scan_string (HASH_SIZE fuel : Nat) (g : Lexer) (list : TokenList)
    (body rest : List Char) (hsrc : g.source = DQUOTE :: (body ++ DQUOTE :: rest))
    (hcur : g.current = 0) (hlen : body.length + 2 ≤ g.source_len)
    (hlen2 : g.source_len ≤ g.source.length)
    (hb : ∀ c ∈ body, c ≠ DQUOTE ∧ c ≠ '\n') :
    tokenizeLoop HASH_SIZE (fuel + 1) g list =
      tokenizeLoop HASH_SIZE fuel (g.enter.moveTo (body.length + 1 + 1))
        { tokens := list.tokens ++ [{ type := .STRING, lexeme := DQUOTE :: (body ++ [DQUOTE]) }]
          index := list.index + 1
          max := if list.index = list.max then list.max * 2 else list.max } := by
  have hch : g.charAt g.current = DQUOTE := by
    simp [Lexer.charAt, hsrc, hcur]
  have hq : ClosingQuote g.enter (body.length + 1) :=
    closingQuote_of_body g.enter body rest hsrc (by show g.current + 1 = 1; omega) hlen hb
  have hs : Scanned HASH_SIZE g.enter (g.charAt g.current) (body.length + 1 + 1) .STRING :=
    .string hch hq
  rw [tokenizeLoop_scanned HASH_SIZE fuel list (by omega) hs]
  have hlex : (g.enter.moveTo (body.length + 1 + 1)).lexeme =
      DQUOTE :: (body ++ [DQUOTE]) := by
    rw [lexeme_enter_moveTo _ (by omega) (by omega), hsrc, hcur]
    exact take_string body rest
  simp only [addToken, hlex]

theorem string_nulfree {body : List Char} (hb : ∀ c ∈ body, c ≠ NUL) :
    ∀ rest, strlen (DQUOTE :: (body ++ DQUOTE :: rest)) = body.length + 2 + strlen rest := by
  intro rest
  rw [strlen_cons _ DQUOTE_ne_NUL, strlen_append _ hb, strlen_cons _ DQUOTE_ne_NUL]
  omega

/-- C6. For every body without double quote, newline and NUL (backslashes, spaces and
`#` are allowed, also the empty body), the first `tokenize` of a run, on the input made
of a double quote, the body and a closing double quote, returns one STRING token whose
lexeme is the whole input. Backslashes are not interpreted: when more text follows the
closing quote, the first token is that same STRING token, whatever the body ends
with. -/
theorem tokenize_string (HASH_SIZE LIST_SIZE : Nat) (body : List Char)
    (hb : ∀ c ∈ body, c ≠ DQUOTE ∧ c ≠ '\n' ∧ c ≠ NUL) :
    tokensOf (tokenize HASH_SIZE LIST_SIZE Lexer.init (DQUOTE :: (body ++ [DQUOTE]))) =
      some [{ type := .STRING, lexeme := DQUOTE :: (body ++ [DQUOTE]) }] ∧
    ∀ (rest : List Char) (toks : List Token),
      tokensOf (tokenize HASH_SIZE LIST_SIZE Lexer.init (DQUOTE :: (body ++ DQUOTE :: rest))) =
        some toks →
      toks.head? = some { type := .STRING, lexeme := DQUOTE :: (body ++ [DQUOTE]) } := by
  have hb1 : ∀ c ∈ body, c ≠ DQUOTE ∧ c ≠ '\n' := fun c hc => ⟨(hb c hc).1, (hb c hc).2.1⟩
  have hb2 : ∀ c ∈ body, c ≠ NUL := fun c hc => (hb c hc).2.2
  constructor
  · have hlen := string_nulfree hb2 []
    have hlen' : strlen (DQUOTE :: (body ++ [DQUOTE])) = body.length + 2 := by
      rw [hlen]; rfl
    have hfuel : strlen (DQUOTE :: (body ++ [DQUOTE])) + 2 = body.length + 2 + 1 + 1 := by
      omega
    rw [tokenize_eq, hfuel,
      scan_string HASH_SIZE _ (Lexer.init.load HASH_SIZE (DQUOTE :: (body ++ [DQUOTE]))) _
        body [] (load_source _ _ _) (load_current _ _ _)
        (by rw [load_source_len, hlen'])
        (by rw [load_source_len, load_source]; exact strlen_le_length _) hb1,
      tokenizeLoop_done HASH_SIZE _ _ (by
        show strlen (DQUOTE :: (body ++ [DQUOTE])) ≤ body.length + 1 + 1
        omega)]
    simp only [tokensOf, initTokenList, List.nil_append]
  · intro rest toks h
    obtain ⟨r, hr, rfl⟩ := tokensOf_eq_some h
    have hlen := string_nulfree hb2 rest
    have hfuel : strlen (DQUOTE :: (body ++ DQUOTE :: rest)) + 2 =
        body.length + 3 + strlen rest + 1 := by omega
    rw [tokenize_eq, hfuel,
      scan_string HASH_SIZE _ (Lexer.init.load HASH_SIZE (DQUOTE :: (body ++ DQUOTE :: rest)))
        _ body rest (load_source _ _ _) (load_current _ _ _)
        (by rw [load_source_len, hlen]; omega)
        (by rw [load_source_len, load_source]; exact strlen_le_length _) hb1] at hr
    obtain ⟨more, hm⟩ := tokenizeLoop_append HASH_SIZE _ _ _ r
      (show ((Lexer.init.load HASH_SIZE (DQUOTE :: (body ++ DQUOTE :: rest))).enter.moveTo
        (body.length + 1 + 1)).source_len = strlen _ from
        load_source_len HASH_SIZE Lexer.init _) hr
    rw [hm]
    simp [initTokenList]

theorem tokenize_string_witness :
    tokensOf (tokenize 101 8 Lexer.init (DQUOTE :: ("a\\ #b".toList ++ [DQUOTE]))) =
      some [{ type := .STRING, lexeme := DQUOTE :: ("a\\ #b".toList ++ [DQUOTE]) }] ∧
    ∃ toks, tokensOf (tokenize 101 8 Lexer.init
        (DQUOTE :: ("a\\".toList ++ DQUOTE :: " b\"c\"".toList))) = some toks ∧
      toks.head? = some { type := .STRING, lexeme := DQUOTE :: ("a\\".toList ++ [DQUOTE]) } :=
  have h : tokensOf (tokenize 101 8 Lexer.init
      (DQUOTE :: ("a\\".toList ++ DQUOTE :: " b\"c\"".toList))) = some _ := rfl
  ⟨(tokenize_string 101 8 "a\\ #b".toList (by decide)).1,
   _, h, (tokenize_string 101 8 "a\\".toList (by decide)).2 _ _ h⟩

/-! ## Numeric literals -/

theorem isdigit_NUL : isdigit NUL = false := by decide

/-- A block `a` of digits that sits in the text after `pre` and is not followed by a
digit is a maximal run of digits from any position `i` inside it. -/
theorem runEnd_digits (g : Lexer) (pre a tail : List Char) (hsrc : g.source = pre ++ (a ++ tail))
    (ha : ∀ c ∈ a, isdigit c = true) (hlen : pre.length + a.length ≤ g.source_len)
    (htail : ∀ d, tail.head? = some d → isdigit d = false) (i : Nat) (hi : pre.length ≤ i)
    (hi2 : i ≤ pre.length + a.length) :
    RunEnd g isdigit i (pre.length + a.length) := by
  refine ⟨hi2, hlen, ?_, ?_⟩
  · intro j hj1 hj2
    obtain ⟨k, rfl⟩ : ∃ k, j = pre.length + k := ⟨j - pre.length, by omega⟩
    have hk : k < a.length := by omega
    have e : g.charAt (pre.length + k) = a.getD k NUL := by
      simp only [Lexer.charAt, hsrc]
      rw [getD_append_right_len, getD_append_left_lt a tail hk]
    rw [e]
    exact ha _ (getD_mem_of_lt hk)
  · intro _
    have e : g.charAt (pre.length + a.length) = tail.getD 0 NUL := by
      simp only [Lexer.charAt, hsrc]
      rw [getD_append_right_len]
      have := getD_append_right_len a tail 0
      simpa using this
    rw [e]
    cases tail with
    | nil => exact isdigit_NUL
    | cons d t => exact htail d rfl

theorem numberEnd_int (g : Lexer) (a tail : List Char) (hsrc : g.source = a ++ tail)
    (hcur : g.current = 1) (ha1 : a ≠ []) (ha : ∀ c ∈ a, isdigit c = true)
    (hlen : a.length ≤ g.source_len) (hnf : ¬ FractionAt g a.length)
    (htail : ∀ d, tail.head? = some d → isdigit d = false) : NumberEnd g a.length := by
  have hpos : 0 < a.length := List.length_pos.mpr ha1
  have hr := runEnd_digits g [] a tail (by simpa using hsrc) ha (by simpa using hlen) htail 1
    (by simp) (by simp; omega)
  simp only [List.length_nil, Nat.zero_add] at hr
  exact ⟨a.length, hcur ▸ hr, Or.inr ⟨hnf, rfl⟩⟩

theorem dot_not_digit : isdigit '.' = false := by decide

theorem numberEnd_frac (g : Lexer) (a b tail : List Char)
    (hsrc : g.source = a ++ '.' :: (b ++ tail)) (hcur : g.current = 1) (ha1 : a ≠ [])
    (ha : ∀ c ∈ a, isdigit c = true) (hb1 : b ≠ []) (hb : ∀ c ∈ b, isdigit c = true)
    (hlen : a.length + 1 + b.length ≤ g.source_len)
    (htail : ∀ d, tail.head? = some d → isdigit d = false) :
    NumberEnd g (a.length + 1 + b.length) := by
  have hpa : 0 < a.length := List.length_pos.mpr ha1
  have hpb : 0 < b.length := List.length_pos.mpr hb1
  have hr1 := runEnd_digits g [] a ('.' :: (b ++ tail)) (by simpa using hsrc) ha
    (by simp; omega) (by intro d hd; cases hd; exact dot_not_digit) 1 (by simp)
    (by simp; omega)
  simp only [List.length_nil, Nat.zero_add] at hr1
  have hr2 := runEnd_digits g (a ++ ['.']) b tail (by simpa using hsrc) hb
    (by simp; omega) htail (a.length + 1) (by simp) (by simp)
  simp only [List.length_append, List.length_cons, List.length_nil] at hr2
  have hdot : g.charAt a.length = '.' := by
    simp only [Lexer.charAt, hsrc]
    have := getD_append_right_len a ('.' :: (b ++ tail)) 0
    simpa using this
  have hnext : isdigit (g.charAt (a.length + 1)) = true := by
    have e : g.charAt (a.length + 1) = b.getD 0 NUL := by
      simp only [Lexer.charAt, hsrc]
      have := getD_append_right_len a ('.' :: (b ++ tail)) 1
      rw [this, List.getD_cons_succ]
      exact getD_append_left_lt b tail hpb
    rw [e]
    exact hb _ (getD_mem_of_lt hpb)
  exact ⟨a.length, hcur ▸ hr1, Or.inl ⟨⟨by omega, hdot, hnext⟩, hr2⟩⟩

theorem digits_nulfree {a : List Char} (ha : ∀ c ∈ a, isdigit c = true) :
    ∀ c ∈ a, c ≠ NUL := fun c hc => ne_NUL_of_digit (ha c hc)

theorem head_digit {a : List Char} (ha1 : a ≠ []) (ha : ∀ c ∈ a, isdigit c = true)
    (tail : List Char) : isdigit ((a ++ tail).getD 0 NUL) = true := by
  have hpa : 0 < a.length := List.length_pos.mpr ha1
  rw [getD_append_left_lt a tail hpa]
  exact ha _ (getD_mem_of_lt hpa)

theorem tokenize_integer (HASH_SIZE LIST_SIZE : Nat) (a : List Char) (ha1 : a ≠ [])
    (ha : ∀ c ∈ a, isdigit c = true) :
    tokensOf (tokenize HASH_SIZE LIST_SIZE Lexer.init a) =
      some [{ type := .NUMBER, lexeme := a }] := by
  have hnul := digits_nulfree ha
  apply tokenize_whole HASH_SIZE LIST_SIZE a hnul ha1
  have hd := head_digit ha1 ha []
  rw [List.append_nil] at hd
  refine .number hd ?_
  apply numberEnd_int _ a [] (by rw [List.append_nil]; exact load_source HASH_SIZE Lexer.init a)
    rfl ha1 ha
  · show a.length ≤ strlen a
    rw [strlen_eq_length hnul]
  · rintro ⟨h1, _⟩
    have : a.length + 1 < strlen a := h1
    rw [strlen_eq_length hnul] at this
    omega
  · intro d hd
    cases hd

theorem tokenize_fraction (HASH_SIZE LIST_SIZE : Nat) (a b : List Char) (ha1 : a ≠ [])
    (ha : ∀ c ∈ a, isdigit c = true) (hb1 : b ≠ []) (hb : ∀ c ∈ b, isdigit c = true) :
    tokensOf (tokenize HASH_SIZE LIST_SIZE Lexer.init (a ++ '.' :: b)) =
      some [{ type := .NUMBER, lexeme := a ++ '.' :: b }] := by
  have hnul : ∀ c ∈ a ++ '.' :: b, c ≠ NUL := by
    intro c hc
    rcases List.mem_append.mp hc with h | h
    · exact digits_nulfree ha c h
    · rcases List.mem_cons.mp h with rfl | h
      · decide
      · exact digits_nulfree hb c h
  apply tokenize_whole HASH_SIZE LIST_SIZE _ hnul (by simp)
  have e : (a ++ '.' :: b).length = a.length + 1 + b.length := by simp; omega
  rw [e]
  refine .number (head_digit ha1 ha _) ?_
  apply numberEnd_frac _ a b []
    (by rw [List.append_nil]; exact load_source HASH_SIZE Lexer.init (a ++ '.' :: b))
    rfl ha1 ha hb1 hb
  · show a.length + 1 + b.length ≤ strlen (a ++ '.' :: b)
    rw [strlen_eq_length hnul, e]
  · intro d hd
    cases hd

/-- The first two loop iterations on digits followed by a dot that no digit follows. -/
theorem scan_number_dot (HASH_SIZE fuel : Nat) (g : Lexer) (list : TokenList)
    (a rest : List Char) (hsrc : g.source = a ++ '.' :: rest)
    (hsl : g.source_len = a.length + (strlen rest + 1)) (hcur : g.current = 0)
    (ha1 : a ≠ []) (ha : ∀ c ∈ a, isdigit c = true)
    (hrest : ∀ d, rest.head? = some d → isdigit d = false) :
    ∃ list2 : TokenList,
      list2.tokens = list.tokens ++
        [{ type := .NUMBER, lexeme := a }, { type := .DOT, lexeme := ['.'] }] ∧
      tokenizeLoop HASH_SIZE (fuel + 1 + 1) g list =
        tokenizeLoop HASH_SIZE fuel
          ((g.enter.moveTo a.length).enter.moveTo (a.length + 1)) list2 := by
  have hpa : 0 < a.length := List.length_pos.mpr ha1
  have hnf : ¬ FractionAt g.enter a.length := by
    rintro ⟨_, _, h3⟩
    have e : g.enter.charAt (a.length + 1) = rest.getD 0 NUL := by
      show g.source.getD (a.length + 1) NUL = _
      rw [hsrc]
      have := getD_append_right_len a ('.' :: rest) 1
      rw [this, List.getD_cons_succ]
    rw [e] at h3
    cases rest with
    | nil => rw [show ([] : List Char).getD 0 NUL = NUL from rfl, isdigit_NUL] at h3; cases h3
    | cons d t =>
      rw [show (d :: t).getD 0 NUL = d from rfl, hrest d rfl] at h3
      cases h3
  have hch0 : isdigit (g.charAt g.current) = true := by
    show isdigit (g.source.getD g.current NUL) = true
    rw [hsrc, hcur]
    exact head_digit ha1 ha _
  have hs : Scanned HASH_SIZE g.enter (g.charAt g.current) a.length .NUMBER :=
    .number hch0 (numberEnd_int g.enter a ('.' :: rest) hsrc
      (by show g.current + 1 = 1; omega) ha1 ha
      (by show a.length ≤ g.source_len; omega) hnf
      (by intro d hd; cases hd; exact dot_not_digit))
  have hlex : (g.enter.moveTo a.length).lexeme = a := by
    rw [lexeme_enter_moveTo _ (by omega) (by rw [hsrc]; simp), hsrc, hcur]
    simp
  have hdot : (g.enter.moveTo a.length).charAt (g.enter.moveTo a.length).current = '.' := by
    show g.source.getD a.length NUL = '.'
    rw [hsrc]
    have := getD_append_right_len a ('.' :: rest) 0
    simpa using this
  have hlt2 : (g.enter.moveTo a.length).current < (g.enter.moveTo a.length).source_len := by
    show a.length < g.source_len
    omega
  have hstep := (tokenizeLoop_scanned HASH_SIZE (fuel + 1) list (by omega) hs).trans
    (scan_single HASH_SIZE fuel _ _ (show singleKind '.' = some .DOT from rfl) hlt2 hdot)
  exact ⟨_, by simp only [addToken_tokens, hlex, List.append_assoc, List.singleton_append],
    hstep⟩

/-- C7. Numeric literals, for all non-empty strings of decimal digits `a` and `b`, on
the first `tokenize` of a run. (1) The input `a` yields one NUMBER token with lexeme
`a`. (2) The input `a.b` yields one NUMBER token with lexeme `a.b`. (3) On the input
`a` followed by a dot that no digit follows, the first two tokens are NUMBER with
lexeme `a` and DOT with lexeme `.`; they are the whole sequence when nothing follows
the dot. -/
theorem tokenize_number (HASH_SIZE LIST_SIZE : Nat) (a : List Char) (ha1 : a ≠ [])
    (ha : ∀ c ∈ a, isdigit c = true) :
    tokensOf (tokenize HASH_SIZE LIST_SIZE Lexer.init a) =
      some [{ type := .NUMBER, lexeme := a }] ∧
    (∀ b : List Char, b ≠ [] → (∀ c ∈ b, isdigit c = true) →
      tokensOf (tokenize HASH_SIZE LIST_SIZE Lexer.init (a ++ '.' :: b)) =
        some [{ type := .NUMBER, lexeme := a ++ '.' :: b }]) ∧
    (∀ (rest : List Char) (toks : List Token),
      (∀ d, rest.head? = some d → isdigit d = false) →
      tokensOf (tokenize HASH_SIZE LIST_SIZE Lexer.init (a ++ '.' :: rest)) = some toks →
      toks.take 2 = [{ type := .NUMBER, lexeme := a }, { type := .DOT, lexeme := ['.'] }]) ∧
    tokensOf (tokenize HASH_SIZE LIST_SIZE Lexer.init (a ++ ['.'])) =
      some [{ type := .NUMBER, lexeme := a }, { type := .DOT, lexeme := ['.'] }] := by
  have hdotN : ('.' : Char) ≠ NUL := by decide
  have hlen : ∀ rest, strlen (a ++ '.' :: rest) = a.length + (strlen rest + 1) := by
    intro rest
    rw [strlen_append _ (digits_nulfree ha), strlen_cons _ hdotN]
  refine ⟨tokenize_integer HASH_SIZE LIST_SIZE a ha1 ha,
    fun b hb1 hb => tokenize_fraction HASH_SIZE LIST_SIZE a b ha1 ha hb1 hb, ?_, ?_⟩
  · intro rest toks hrest h
    obtain ⟨r, hr, rfl⟩ := tokensOf_eq_some h
    have hfuel : strlen (a ++ '.' :: rest) + 2 = a.length + 1 + strlen rest + 1 + 1 := by
      rw [hlen]; omega
    obtain ⟨list2, hl2, hstep⟩ := scan_number_dot HASH_SIZE (a.length + 1 + strlen rest)
      (Lexer.init.load HASH_SIZE (a ++ '.' :: rest)) (initTokenList LIST_SIZE) a rest
      (load_source _ _ _) (by rw [load_source_len, hlen]) (load_current _ _ _) ha1 ha hrest
    rw [tokenize_eq, hfuel, hstep] at hr
    obtain ⟨more, hm⟩ := tokenizeLoop_append HASH_SIZE _ _ _ r
      (show (((Lexer.init.load HASH_SIZE (a ++ '.' :: rest)).enter.moveTo a.length).enter.moveTo
        (a.length + 1)).source_len = strlen _ from load_source_len HASH_SIZE Lexer.init _) hr
    rw [hm, hl2]
    simp [initTokenList]
  · have hfuel : strlen (a ++ ['.']) + 2 = a.length + 1 + 1 + 1 := by
      rw [hlen]; rfl
    obtain ⟨list2, hl2, hstep⟩ := scan_number_dot HASH_SIZE (a.length + 1)
      (Lexer.init.load HASH_SIZE (a ++ ['.'])) (initTokenList LIST_SIZE) a []
      (load_source _ _ _) (by rw [load_source_len, hlen]) (load_current _ _ _) ha1 ha
      (by intro d hd; cases hd)
    rw [tokenize_eq, hfuel, hstep,
      tokenizeLoop_done HASH_SIZE _ _ (by
        show strlen (a ++ ['.']) ≤ a.length + 1
        rw [hlen]; exact le_refl _)]
    simp [tokensOf, hl2, initTokenList]

theorem tokenize_number_witness :
    tokensOf (tokenize 101 8 Lexer.init "123".toList) =
      some [{ type := .NUMBER, lexeme := "123".toList }] ∧
    tokensOf (tokenize 101 8 Lexer.init "3.14".toList) =
      some [{ type := .NUMBER, lexeme := "3.14".toList }] ∧
    tokensOf (tokenize 101 8 Lexer.init "3.".toList) =
      some [{ type := .NUMBER, lexeme := "3".toList }, { type := .DOT, lexeme := ".".toList }] ∧
    ∃ toks, tokensOf (tokenize 101 8 Lexer.init "3.x+1".toList) = some toks ∧
      toks.take 2 =
        [{ type := .NUMBER, lexeme := "3".toList }, { type := .DOT, lexeme := ".".toList }] :=
  have h : tokensOf (tokenize 101 8 Lexer.init "3.x+1".toList) = some _ := rfl
  ⟨(tokenize_number 101 8 "123".toList (by decide) (by decide)).1,
   (tokenize_number 101 8 "3".toList (by decide) (by decide)).2.1 "14".toList (by decide)
     (by decide),
   (tokenize_number 101 8 "3".toList (by decide) (by decide)).2.2.2,
   _, h, (tokenize_number 101 8 "3".toList (by decide) (by decide)).2.2.1 "x+1".toList _
     (by decide) h⟩

/-! ## A second call of `tokenize` -/

/-- The loop keeps the cursor inside the text and returns with it at the end. -/
theorem tokenizeLoop_final_cursor (HASH_SIZE fuel : Nat) (g : Lexer) (list : TokenList)
    (r : TokenList × Lexer) (hlen : g.source_len = strlen g.source)
    (hle : g.current ≤ g.source_len)
    (h : tokenizeLoop HASH_SIZE fuel g list = .ok r) :
    r.2.current = g.source_len := by
  have key := tokenizeLoop_invariant HASH_SIZE
    (fun g' _ => g'.current ≤ g'.source_len)
    (by
      intro g' list' n ty h1 _ hlt hs
      exact (scanned_bounds hs (show g'.enter.current ≤ g'.enter.source_len from hlt)).2)
    fuel g list r hlen hle h
  have h1 : r.2.current ≤ r.2.source_len := key.1
  have h2 := key.2.1
  have h3 := key.2.2.2.1
  omega

/-- After a first `tokenize` that returns, the cursor is left at the length of the text. -/
theorem tokenize_final_cursor (HASH_SIZE LIST_SIZE : Nat) (s : List Char)
    (r : TokenList × Lexer) (h : tokenize HASH_SIZE LIST_SIZE Lexer.init s = .ok r) :
    r.2.current = strlen s := by
  rw [tokenize_eq] at h
  have := tokenizeLoop_final_cursor HASH_SIZE _ _ _ r (load_source_len _ _ _)
    (by rw [load_current]; exact Nat.zero_le _) h
  rw [this, load_source_len]

/-- Entered with the cursor at or past the length of the text, `tokenize` returns the
empty token sequence. -/
theorem tokenize_stale_cursor (HASH_SIZE LIST_SIZE : Nat) (g : Lexer) (s : List Char)
    (h : strlen s ≤ g.current) :
    tokensOf (tokenize HASH_SIZE LIST_SIZE g s) = some [] := by
  have hfuel : strlen s + 2 = strlen s + 1 + 1 := rfl
  rw [tokenize_eq, hfuel,
    tokenizeLoop_done HASH_SIZE _ _ (by rw [load_source_len, load_current]; exact h)]
  rfl

/-- A second `tokenize` of the same text, in the state the first one left, returns the
empty token sequence. -/
theorem tokenize_again (HASH_SIZE LIST_SIZE : Nat) (s : List Char)
    (r : TokenList × Lexer) (h : tokenize HASH_SIZE LIST_SIZE Lexer.init s = .ok r) :
    tokensOf (tokenize HASH_SIZE LIST_SIZE r.2 s) = some [] :=
  tokenize_stale_cursor HASH_SIZE LIST_SIZE r.2 s
    (by rw [tokenize_final_cursor HASH_SIZE LIST_SIZE s r h])

/-- C11, the code at the failing input. The first `tokenize` of the text `ab` returns the
one token IDENTIFIER `ab` and leaves the cursor at 2; a second `tokenize` of the same
text, in the state the first call left, returns the empty token sequence: `tokenize`
sets `source` and `source_len` but never resets `current`. -/
theorem tokenize_twice_differs :
    ∃ r1, tokenize 101 8 Lexer.init "ab".toList = .ok r1 ∧
      r1.1.tokens = [{ type := .IDENTIFIER, lexeme := "ab".toList }] ∧
      r1.2.current = 2 ∧
      tokensOf (tokenize 101 8 r1.2 "ab".toList) = some [] ∧
      tokensOf (tokenize 101 8 Lexer.init "ab".toList) ≠
        tokensOf (tokenize 101 8 r1.2 "ab".toList) :=
  have h : tokenize 101 8 Lexer.init "ab".toList = .ok _ := rfl
  ⟨_, h, rfl, rfl, rfl, by decide⟩

/-! ## Preprocessor directives -/

theorem getD_cons_left (c : Char) (body tail : List Char) {k : Nat} (hk : k < body.length) :
    (c :: (body ++ tail)).getD (k + 1) NUL ∈ body := by
  rw [List.getD_cons_succ, getD_append_left_lt body tail hk]
  exact getD_mem_of_lt hk

theorem getD_cons_right (c : Char) (body tail : List Char) (k : Nat) :
    (c :: (body ++ tail)).getD (body.length + k + 1) NUL = tail.getD k NUL := by
  rw [List.getD_cons_succ, getD_append_right_len]

theorem take_cons_append (c : Char) (w rest : List Char) :
    (c :: (w ++ rest)).take (w.length + 1) = c :: w := by
  simp [List.take_succ_cons]

/-- After `#`, a run `w` without space that ends the text or is followed by a space is
the maximal run of non-space characters. -/
theorem runEnd_preproc (g : Lexer) (w rest : List Char)
    (hsrc : g.source = '#' :: (w ++ rest)) (hw : ∀ c ∈ w, c ≠ ' ')
    (hlen : w.length + 1 ≤ g.source_len)
    (hend : g.source_len = w.length + 1 ∨ ∃ r, rest = ' ' :: r) :
    RunEnd g (fun d => d ≠ ' ') 1 (w.length + 1) := by
  refine ⟨by omega, hlen, ?_, ?_⟩
  · intro j hj1 hj2
    obtain ⟨k, rfl⟩ : ∃ k, j = k + 1 := ⟨j - 1, by omega⟩
    have hm := getD_cons_left '#' w rest (show k < w.length by omega)
    have e : g.charAt (k + 1) = ('#' :: (w ++ rest)).getD (k + 1) NUL := by
      simp only [Lexer.charAt, hsrc]
    rw [e]
    simpa using hw _ hm
  · intro hlt
    rcases hend with h | ⟨r, rfl⟩
    · omega
    · have e : g.charAt (w.length + 1) = ' ' := by
        simp only [Lexer.charAt, hsrc]
        have := getD_cons_right '#' w (' ' :: r) 0
        simpa using this
      rw [e]
      simp

/-- One loop iteration at a preprocessor directive that starts the text. -/
theorem scan_preproc (HASH_SIZE fuel : Nat) (g : Lexer) (list : TokenList)
    (w rest : List Char) (hsrc : g.source = '#' :: (w ++ rest)) (hcur : g.current = 0)
    (hw : ∀ c ∈ w, c ≠ ' ') (hlen : w.length + 1 ≤ g.source_len)
    (hlen2 : g.source_len ≤ g.source.length)
    (hend : g.source_len = w.length + 1 ∨ ∃ r, rest = ' ' :: r) :
    tokenizeLoop HASH_SIZE (fuel + 1) g list =
      tokenizeLoop HASH_SIZE fuel (g.enter.moveTo (w.length + 1))
        { tokens := list.tokens ++ [{ type := .PREPROC, lexeme := '#' :: w }]
          index := list.index + 1
          max := if list.index = list.max then list.max * 2 else list.max } := by
  have hch : g.charAt g.current = '#' := by
    simp [Lexer.charAt, hsrc, hcur]
  have hr : RunEnd g.enter (fun d => d ≠ ' ') g.enter.current (w.length + 1) := by
    have := runEnd_preproc g.enter w rest hsrc hw hlen hend
    have hc : g.enter.current = 1 := by show g.current + 1 = 1; omega
    rw [hc]
    exact this
  have hs : Scanned HASH_SIZE g.enter (g.charAt g.current) (w.length + 1) .PREPROC :=
    .preproc hch hr
  rw [tokenizeLoop_scanned HASH_SIZE fuel list (by omega) hs]
  have hlex : (g.enter.moveTo (w.length + 1)).lexeme = '#' :: w := by
    rw [lexeme_enter_moveTo _ (by omega) (by omega), hsrc, hcur]
    exact take_cons_append '#' w rest
  simp only [addToken, hlex]

theorem hash_ne_NUL : ('#' : Char) ≠ NUL := by decide

theorem space_ne_NUL : (' ' : Char) ≠ NUL := by decide

/-- C12. Preprocessor directives. For every `w` without space (and without NUL, as a
part of a C text; newlines, quotes, letters and all other characters are allowed), the
first `tokenize` of a run, on the input `#` followed by `w`, returns one PREPROC token
whose lexeme is `#` followed by `w`; and when a space and any rest follow `w`, the first
iteration of the loop emits that same PREPROC token and leaves the cursor on the space,
so the first token of the returned sequence is that token: the directive runs up to,
and does not include, the next space or the end of input. -/
theorem tokenize_preproc (HASH_SIZE LIST_SIZE : Nat) (w : List Char)
    (hw : ∀ c ∈ w, c ≠ ' ' ∧ c ≠ NUL) :
    tokensOf (tokenize HASH_SIZE LIST_SIZE Lexer.init ('#' :: w)) =
      some [{ type := .PREPROC, lexeme := '#' :: w }] ∧
    ∀ r : List Char,
      (∃ g1 list1, list1.tokens = [{ type := .PREPROC, lexeme := '#' :: w }] ∧
        g1.current = w.length + 1 ∧
        tokenize HASH_SIZE LIST_SIZE Lexer.init ('#' :: (w ++ ' ' :: r)) =
          tokenizeLoop HASH_SIZE (w.length + 3 + strlen r) g1 list1) ∧
      ∀ toks : List Token,
        tokensOf (tokenize HASH_SIZE LIST_SIZE Lexer.init ('#' :: (w ++ ' ' :: r))) =
          some toks →
        toks.head? = some { type := .PREPROC, lexeme := '#' :: w } := by
  have hw1 : ∀ c ∈ w, c ≠ ' ' := fun c hc => (hw c hc).1
  have hw2 : ∀ c ∈ w, c ≠ NUL := fun c hc => (hw c hc).2
  constructor
  · have hlen : strlen ('#' :: w) = w.length + 1 := by
      rw [strlen_cons _ hash_ne_NUL, strlen_eq_length hw2]
    have hfuel : strlen ('#' :: w) + 2 = w.length + 1 + 1 + 1 := by omega
    have hsrc : (Lexer.init.load HASH_SIZE ('#' :: w)).source = '#' :: (w ++ []) := by
      rw [load_source, List.append_nil]
    rw [tokenize_eq, hfuel,
      scan_preproc HASH_SIZE _ (Lexer.init.load HASH_SIZE ('#' :: w)) _ w [] hsrc
        (load_current _ _ _) hw1 (by rw [load_source_len, hlen])
        (by rw [load_source_len, load_source]; exact strlen_le_length _)
        (Or.inl (by rw [load_source_len, hlen])),
      tokenizeLoop_done HASH_SIZE _ _ (by
        show strlen ('#' :: w) ≤ w.length + 1
        omega)]
    simp only [tokensOf, initTokenList, List.nil_append]
  · intro r
    have hlen : strlen ('#' :: (w ++ ' ' :: r)) = w.length + 2 + strlen r := by
      rw [strlen_cons _ hash_ne_NUL, strlen_append _ hw2, strlen_cons _ space_ne_NUL]
      omega
    have hfuel : strlen ('#' :: (w ++ ' ' :: r)) + 2 = w.length + 3 + strlen r + 1 := by
      omega
    have hstep := scan_preproc HASH_SIZE (w.length + 3 + strlen r)
      (Lexer.init.load HASH_SIZE ('#' :: (w ++ ' ' :: r))) (initTokenList LIST_SIZE) w
      (' ' :: r) (load_source _ _ _) (load_current _ _ _) hw1
      (by rw [load_source_len, hlen]; omega)
      (by rw [load_source_len, load_source]; exact strlen_le_length _)
      (Or.inr ⟨r, rfl⟩)
    have hrun := (tokenize_eq HASH_SIZE LIST_SIZE Lexer.init ('#' :: (w ++ ' ' :: r))).trans
      ((congrArg (fun n => tokenizeLoop HASH_SIZE n
        (Lexer.init.load HASH_SIZE ('#' :: (w ++ ' ' :: r))) (initTokenList LIST_SIZE))
        hfuel).trans hstep)
    refine ⟨⟨_, _, ?_, ?_, hrun⟩, ?_⟩
    · rfl
    · rfl
    intro toks h
    obtain ⟨res, hr, rfl⟩ := tokensOf_eq_some h
    rw [tokenize_eq, hfuel, hstep] at hr
    obtain ⟨more, hm⟩ := tokenizeLoop_append HASH_SIZE _ _ _ res
      (show ((Lexer.init.load HASH_SIZE ('#' :: (w ++ ' ' :: r))).enter.moveTo
        (w.length + 1)).source_len = strlen _ from
        load_source_len HASH_SIZE Lexer.init _) hr
    rw [hm]
    simp [initTokenList]

theorem tokenize_preproc_witness :
    tokensOf (tokenize 101 8 Lexer.init ('#' :: "include<a.h>\n\"x\"".toList)) =
      some [{ type := .PREPROC, lexeme := '#' :: "include<a.h>\n\"x\"".toList }] ∧
    ∃ toks, tokensOf (tokenize 101 8 Lexer.init
        ('#' :: ("define".toList ++ ' ' :: "N 10".toList))) = some toks ∧
      toks.head? = some { type := .PREPROC, lexeme := '#' :: "define".toList } :=
  have h : tokensOf (tokenize 101 8 Lexer.init
      ('#' :: ("define".toList ++ ' ' :: "N 10".toList))) = some _ := rfl
  ⟨(tokenize_preproc 101 8 "include<a.h>\n\"x\"".toList (by decide)).1,
   _, h, ((tokenize_preproc 101 8 "define".toList (by decide)).2 _).2 _ h⟩

/-! ## The end-to-end example -/

/-- C13, the code at the failing input. On `if (x == 10) { return true; }` the first
`tokenize` of a run returns the eighteen tokens IF, WHITE_SPACE, LEFT_PAREN,
IDENTIFIER `x`, WHITE_SPACE, EQUAL_EQUAL, WHITE_SPACE, NUMBER `10`, RIGHT_PAREN,
WHITE_SPACE, LEFT_BRACE, WHITE_SPACE, RETURN, WHITE_SPACE, TRUE, SEMICOLON,
WHITE_SPACE, RIGHT_BRACE and no ENDFILE token after them. -/
theorem tokenize_end_to_end :
    tokensOf (tokenize 101 8 Lexer.init "if (x == 10) \x7b return true; \x7d".toList) =
      some [{ type := .IF, lexeme := "if".toList },
        { type := .WHITE_SPACE, lexeme := " ".toList },
        { type := .LEFT_PAREN, lexeme := "(".toList },
        { type := .IDENTIFIER, lexeme := "x".toList },
        { type := .WHITE_SPACE, lexeme := " ".toList },
        { type := .EQUAL_EQUAL, lexeme := "==".toList },
        { type := .WHITE_SPACE, lexeme := " ".toList },
        { type := .NUMBER, lexeme := "10".toList },
        { type := .RIGHT_PAREN, lexeme := ")".toList },
        { type := .WHITE_SPACE, lexeme := " ".toList },
        { type := .LEFT_BRACE, lexeme := "\x7b".toList },
        { type := .WHITE_SPACE, lexeme := " ".toList },
        { type := .RETURN, lexeme := "return".toList },
        { type := .WHITE_SPACE, lexeme := " ".toList },
        { type := .TRUE, lexeme := "true".toList },
        { type := .SEMICOLON, lexeme := ";".toList },
        { type := .WHITE_SPACE, lexeme := " ".toList },
        { type := .RIGHT_BRACE, lexeme := "\x7d".toList }] := by
  decide

/-- Whatever `HASH_SIZE` and `LIST_SIZE` are, the sequence returned for the end-to-end
example does not end in an ENDFILE token. -/
theorem end_to_end_no_endfile (HASH_SIZE LIST_SIZE : Nat) (toks : List Token)
    (h : tokensOf (tokenize HASH_SIZE LIST_SIZE Lexer.init
      "if (x == 10) \x7b return true; \x7d".toList) = some toks) :
    ∀ t, toks.getLast? = some t → t.type ≠ .ENDFILE := by
  intro t ht
  exact tokenize_no_endfile HASH_SIZE LIST_SIZE _ toks h t (List.mem_of_getLast?_eq_some ht)

/-! ## The keyword table after initialisation -/

theorem putKeywords_eq_putAll (HASH_SIZE : Nat) (tab : Nat → List Hashlist) :
    putKeywords HASH_SIZE tab = putAll HASH_SIZE tab keywordPairs := by
  simp only [putKeywords, putAll, keywordPairs, List.foldl]

theorem hash_lt (HASH_SIZE : Nat) (s : List Char) (h : 0 < HASH_SIZE) :
    hash HASH_SIZE s < HASH_SIZE :=
  Nat.mod_lt _ h

theorem map_update_of_not_mem {l : List Nat} (f : Nat → List Hashlist) {i : Nat}
    (y : List Hashlist) (hi : i ∉ l) : l.map (Function.update f i y) = l.map f := by
  apply List.map_congr_left
  intro a ha
  have hne : a ≠ i := by
    intro e
    rw [e] at ha
    exact hi ha
  exact Function.update_noteq hne _ _

/-- Prepending a node to one bucket adds that node to the nodes of the table. -/
theorem flatten_update_cons {l : List Nat} (hl : l.Nodup) (f : Nat → List Hashlist)
    {i : Nat} (x : Hashlist) (hi : i ∈ l) :
    ((l.map (Function.update f i (x :: f i))).flatten).Perm (x :: (l.map f).flatten) := by
  induction l with
  | nil => simp at hi
  | cons a l ih =>
    have hnd := List.nodup_cons.mp hl
    by_cases ha : a = i
    · subst ha
      rw [List.map_cons, Function.update_same, map_update_of_not_mem f _ hnd.1]
      simp
    · have hi2 : i ∈ l := by
        rcases List.mem_cons.mp hi with h | h
        · exact absurd h.symm ha
        · exact h
      rw [List.map_cons, Function.update_noteq ha, List.flatten_cons, List.map_cons,
        List.flatten_cons]
      exact ((ih hnd.2 hi2).append_left (f a)).trans List.perm_middle

theorem entries_emptyTable (HASH_SIZE : Nat) : entries HASH_SIZE emptyTable = [] := by
  unfold entries
  induction HASH_SIZE with
  | zero => rfl
  | succ n ih =>
    rw [List.range_succ, List.map_append, List.flatten_append, ih]
    rfl

/-- A `put` of a key that is not in the table adds exactly one node, with that key and
code. -/
theorem entries_put_absent (HASH_SIZE : Nat) (tab : Nat → List Hashlist) (k : List Char)
    (v : TokenType) (hH : 0 < HASH_SIZE) (hl : lookup HASH_SIZE tab k = none) :
    (entries HASH_SIZE (put HASH_SIZE tab k v).2).Perm
      (nodeOf (k, v) :: entries HASH_SIZE tab) := by
  unfold put
  rw [hl]
  exact flatten_update_cons (List.nodup_range HASH_SIZE) tab _
    (List.mem_range.mpr (hash_lt HASH_SIZE k hH))

/-- Registrations of pairwise distinct keys, none of them in the table, add one node
each. -/
theorem entries_putAll (HASH_SIZE : Nat) (hH : 0 < HASH_SIZE)
    (ps : List (List Char × TokenType)) :
    ∀ tab : Nat → List Hashlist,
      (ps.map (fun p => cstr p.1)).Nodup → (∀ p ∈ ps, lookup HASH_SIZE tab p.1 = none) →
      (entries HASH_SIZE (putAll HASH_SIZE tab ps)).Perm
        (ps.map nodeOf ++ entries HASH_SIZE tab) := by
  induction ps with
  | nil => intro tab _ _; exact List.Perm.refl _
  | cons p ps ih =>
    intro tab hnd hab
    rw [List.map_cons, List.nodup_cons] at hnd
    have hrest : ∀ q ∈ ps, lookup HASH_SIZE (put HASH_SIZE tab p.1 p.2).2 q.1 = none := by
      intro q hq
      have hne : cstr q.1 ≠ cstr p.1 := by
        intro e
        exact hnd.1 (List.mem_map.mpr ⟨q, hq, e⟩)
      rw [lookup_put_other HASH_SIZE tab p.1 p.2 hne]
      exact hab q (by simp [hq])
    have h1 := ih (put HASH_SIZE tab p.1 p.2).2 hnd.2 hrest
    have h2 := entries_put_absent HASH_SIZE tab p.1 p.2 hH (hab p (by simp))
    have h3 : (ps.map nodeOf ++ entries HASH_SIZE (put HASH_SIZE tab p.1 p.2).2).Perm
        (ps.map nodeOf ++ nodeOf (p.1, p.2) :: entries HASH_SIZE tab) :=
      h2.append_left _
    show (entries HASH_SIZE (putAll HASH_SIZE (put HASH_SIZE tab p.1 p.2).2 ps)).Perm _
    exact (h1.trans h3).trans List.perm_middle

theorem keywordPairs_facts :
    (keywordPairs.map (fun p => cstr p.1)).Nodup ∧
    keywordPairs.map (fun p => (nodeOf p).key) = reservedWords ∧
    keywordPairs.length = 20 ∧
    (∀ p ∈ keywordPairs, cstr p.1 = p.1 ∧ keywordKind p.1 = some p.2) := by
  decide

/-- The nodes of the table after the initialisation of `tokenize` on the empty table:
one node for each registration. -/
theorem entries_putKeywords (HASH_SIZE : Nat) (hH : 0 < HASH_SIZE) :
    (entries HASH_SIZE (putKeywords HASH_SIZE emptyTable)).Perm (keywordPairs.map nodeOf) := by
  rw [putKeywords_eq_putAll]
  have h := entries_putAll HASH_SIZE hH keywordPairs emptyTable keywordPairs_facts.1
    (fun p _ => lookup_emptyTable HASH_SIZE p.1)
  rw [entries_emptyTable, List.append_nil] at h
  exact h

theorem setVal_same_val {k : List Char} {v : TokenType} {l : List Hashlist} {h : Hashlist}
    (hl : lookupChain k l = some h) (hv : h.val = v) : setVal k v l = l := by
  induction l with
  | nil => rfl
  | cons a l ih =>
    by_cases ha : cstr k = cstr a.key
    · simp only [lookupChain, ha, if_true, Option.some.injEq] at hl
      subst hl
      simp only [setVal, ha, if_true, ← hv]
    · simp only [lookupChain, ha, if_false] at hl
      simp only [setVal, ha, if_false, ih hl]

/-- A `put` of a key that is in the table with the same code leaves the table as it
was. -/
theorem put_same_val (HASH_SIZE : Nat) (tab : Nat → List Hashlist) (k : List Char)
    (v : TokenType) (h : (lookup HASH_SIZE tab k).map (fun e => e.val) = some v) :
    (put HASH_SIZE tab k v).2 = tab := by
  unfold put
  cases hl : lookup HASH_SIZE tab k with
  | none => rw [hl] at h; cases h
  | some e =>
    rw [hl] at h
    have hv : e.val = v := by simpa using h
    have hl2 : lookupChain k (tab (hash HASH_SIZE k)) = some e := hl
    simp only [setVal_same_val hl2 hv, Function.update_eq_self]

theorem putAll_same (HASH_SIZE : Nat) (tab : Nat → List Hashlist)
    (ps : List (List Char × TokenType))
    (h : ∀ p ∈ ps, (lookup HASH_SIZE tab p.1).map (fun e => e.val) = some p.2) :
    putAll HASH_SIZE tab ps = tab := by
  induction ps with
  | nil => rfl
  | cons p ps ih =>
    show putAll HASH_SIZE (put HASH_SIZE tab p.1 p.2).2 ps = tab
    rw [put_same_val HASH_SIZE tab p.1 p.2 (h p (by simp))]
    exact ih (fun q hq => h q (by simp [hq]))

/-- The initialisation of `tokenize`, run on the table it has built, changes nothing. -/
theorem putKeywords_again (HASH_SIZE : Nat) :
    putKeywords HASH_SIZE (putKeywords HASH_SIZE emptyTable) =
      putKeywords HASH_SIZE emptyTable := by
  rw [putKeywords_eq_putAll HASH_SIZE (putKeywords HASH_SIZE emptyTable)]
  apply putAll_same
  intro p hp
  have hf := keywordPairs_facts.2.2.2 p hp
  rw [lookup_putKeywords HASH_SIZE p.1 hf.1]
  exact hf.2

/-- C14, as amended. For every positive `HASH_SIZE`, after the `put` calls at the start
of `tokenize`, run on the empty table, the table holds exactly 20 nodes: one for each
of the reserved spellings const, int, double, float, char, unsigned, long, enum,
struct, union, typedef, return, do, while, for, if, else, true, false, NULL, with its
keyword code; their keys are pairwise distinct; and running the same initialisation a
second time leaves the table unchanged. -/
theorem putKeywords_registers_twenty (HASH_SIZE : Nat) (hH : 0 < HASH_SIZE) :
    (entries HASH_SIZE (putKeywords HASH_SIZE emptyTable)).Perm (keywordPairs.map nodeOf) ∧
    (entries HASH_SIZE (putKeywords HASH_SIZE emptyTable)).length = 20 ∧
    ((entries HASH_SIZE (putKeywords HASH_SIZE emptyTable)).map (fun e => e.key)).Nodup ∧
    ((entries HASH_SIZE (putKeywords HASH_SIZE emptyTable)).map (fun e => e.key)).Perm
      reservedWords ∧
    putKeywords HASH_SIZE (putKeywords HASH_SIZE emptyTable) =
      putKeywords HASH_SIZE emptyTable := by
  have hp := entries_putKeywords HASH_SIZE hH
  have hk : ((entries HASH_SIZE (putKeywords HASH_SIZE emptyTable)).map
      (fun e => e.key)).Perm reservedWords := by
    have := hp.map (fun e => e.key)
    rw [List.map_map] at this
    rw [← keywordPairs_facts.2.1]
    exact this
  refine ⟨hp, ?_, ?_, hk, putKeywords_again HASH_SIZE⟩
  · rw [hp.length_eq, List.length_map]
    exact keywordPairs_facts.2.2.1
  · rw [hk.nodup_iff]
    decide

theorem putKeywords_registers_twenty_witness :
    (entries 101 (putKeywords 101 emptyTable)).length = 20 ∧
    ((entries 101 (putKeywords 101 emptyTable)).map (fun e => e.key)).Perm reservedWords :=
  ⟨(putKeywords_registers_twenty 101 (by decide)).2.1,
   (putKeywords_registers_twenty 101 (by decide)).2.2.2.1⟩

/-- C14 as stated fails: with 101 buckets the table holds 20 nodes after the
initialisation, not 19. -/
theorem putKeywords_not_nineteen :
    (entries 101 (putKeywords 101 emptyTable)).length ≠ 19 := by
  rw [(entries_putKeywords 101 (by decide)).length_eq, List.length_map,
    keywordPairs_facts.2.2.1]
  decide

/-! ## The cursor at the end of an unterminated string -/

/-- C15 fails in the code. On the text of the four characters `"abc` the call
`tokenize` exits with the unterminated-string error, and the loop of `addString`,
entered with `start = 0`, `current = 1`, `source_len = 4`, leaves `current = 5`: the
cursor is past `source_len` when the error exit is taken. -/
theorem addString_cursor_past_end :
    tokenize 101 8 Lexer.init (DQUOTE :: "abc".toList) = .abort .UnterminatedString ∧
    cursorOf (addStringLoop (Lexer.init.load 101 (DQUOTE :: "abc".toList)).enter.fuel
      (Lexer.init.load 101 (DQUOTE :: "abc".toList)).enter) = some (0, 5, 4) :=
  ⟨rfl, rfl⟩

/-! ## The token list -/

theorem addToken_wellFormed (g : Lexer) (l : TokenList) (ty : TokenType)
    (h : l.WellFormed) : (addToken g l ty).WellFormed := by
  obtain ⟨h1, h2, h3⟩ := h
  unfold TokenList.WellFormed addToken
  simp only [List.length_append, List.length_singleton, h1, true_and]
  by_cases he : l.index = l.max
  · rw [if_pos he]; omega
  · rw [if_neg he]; omega

theorem addAll_wellFormed (calls : List (Lexer × TokenType)) :
    ∀ l : TokenList, l.WellFormed → (addAll l calls).WellFormed := by
  induction calls with
  | nil => intro l h; exact h
  | cons c calls ih =>
    intro l h
    exact ih _ (addToken_wellFormed c.1 l c.2 h)

theorem addAll_max (calls : List (Lexer × TokenType)) :
    ∀ l : TokenList, ∃ k, (addAll l calls).max = l.max * 2 ^ k := by
  induction calls with
  | nil => intro l; exact ⟨0, by simp [addAll]⟩
  | cons c calls ih =>
    intro l
    obtain ⟨k, hk⟩ := ih (addToken c.1 l c.2)
    by_cases he : l.index = l.max
    · refine ⟨k + 1, ?_⟩
      have hm : (addToken c.1 l c.2).max = l.max * 2 := by simp [addToken, he]
      show (addAll (addToken c.1 l c.2) calls).max = _
      rw [hk, hm, pow_succ, Nat.mul_assoc, Nat.mul_comm 2]
    · refine ⟨k, ?_⟩
      have hm : (addToken c.1 l c.2).max = l.max := by simp [addToken, he]
      show (addAll (addToken c.1 l c.2) calls).max = _
      rw [hk, hm]

theorem initTokenList_wellFormed (LIST_SIZE : Nat) (h : 0 < LIST_SIZE) :
    (initTokenList LIST_SIZE).WellFormed :=
  ⟨rfl, h, Nat.zero_le _⟩

/-- C16. For a token list whose written cells are those below `index`, with `0 < max`
and `index ≤ max`, `addToken` stores the new token (the kind given, the lexeme
`source[start .. current)`) at position `index`, leaves the cells below `index` as
they were, increases `index` by one, leaves `max` unchanged when `index < max` and
doubles it when `index = max`; `index ≤ max` holds afterwards and `max` has not
decreased. After `initTokenList` and any sequence of `addToken` calls `max` is
`LIST_SIZE` times a power of two, and when `0 < LIST_SIZE` the list is well formed. -/
theorem addToken_append_doubling (g : Lexer) (l : TokenList) (ty : TokenType)
    (LIST_SIZE : Nat) (calls : List (Lexer × TokenType)) (h : l.WellFormed) :
    (addToken g l ty).tokens[l.index]? = some { type := ty, lexeme := g.lexeme } ∧
    (∀ i, i < l.index → (addToken g l ty).tokens[i]? = l.tokens[i]?) ∧
    (addToken g l ty).index = l.index + 1 ∧
    (l.index < l.max → (addToken g l ty).max = l.max) ∧
    (l.index = l.max → (addToken g l ty).max = 2 * l.max) ∧
    (addToken g l ty).index ≤ (addToken g l ty).max ∧
    l.max ≤ (addToken g l ty).max ∧
    (addToken g l ty).WellFormed ∧
    (∃ k, (addAll (initTokenList LIST_SIZE) calls).max = LIST_SIZE * 2 ^ k) ∧
    (0 < LIST_SIZE → (addAll (initTokenList LIST_SIZE) calls).WellFormed) := by
  have hw := addToken_wellFormed g l ty h
  obtain ⟨h1, h2, h3⟩ := h
  refine ⟨?_, ?_, rfl, ?_, ?_, hw.2.2, ?_, hw, addAll_max calls (initTokenList LIST_SIZE),
    fun hL => addAll_wellFormed calls _ (initTokenList_wellFormed LIST_SIZE hL)⟩
  · show (l.tokens ++ [_])[l.index]? = _
    rw [← h1, List.getElem?_append_right (Nat.le_refl _)]
    simp
  · intro i hi
    show (l.tokens ++ [_])[i]? = _
    rw [List.getElem?_append_left (by omega)]
  · intro hlt
    have hne : l.index ≠ l.max := by omega
    simp [addToken, hne]
  · intro he
    simp [addToken, he, Nat.mul_comm]
  · show l.max ≤ if l.index = l.max then l.max * 2 else l.max
    split <;> omega

theorem addToken_append_doubling_witness :
    (addToken Lexer.init (initTokenList 1) .SEMICOLON).index = 1 ∧
    (addToken Lexer.init (initTokenList 1) .SEMICOLON).max = 1 ∧
    (addToken Lexer.init (addToken Lexer.init (initTokenList 1) .SEMICOLON) .COMMA).max = 2 :=
  ⟨(addToken_append_doubling Lexer.init (initTokenList 1) .SEMICOLON 1 []
      ⟨rfl, by decide, by decide⟩).2.2.1,
   (addToken_append_doubling Lexer.init (initTokenList 1) .SEMICOLON 1 []
      ⟨rfl, by decide, by decide⟩).2.2.2.1 (by decide),
   (addToken_append_doubling Lexer.init (addToken Lexer.init (initTokenList 1) .SEMICOLON)
      .COMMA 1 [] ⟨rfl, by decide, by decide⟩).2.2.2.2.1 rfl⟩

/-! ## Termination -/

theorem lexeme_length (g : Lexer) : g.lexeme.length = g.current - g.start := by
  simp [Lexer.lexeme]

/-- One pass of the `switch` that succeeds leaves the cursor after the place where the
iteration began, and inside the text. -/
theorem switchOn_progress {HASH_SIZE : Nat} {g : Lexer} {list : TokenList} {f : Flow}
    (hlen : g.source_len = strlen g.source) (hlt : g.current < g.source_len)
    (h : switchOn HASH_SIZE (g.charAt g.current) g.enter list = .ok f) :
    ∃ g2 list2, f = .brk g2 list2 ∧ g.current < g2.current ∧
      g2.current ≤ g.source_len ∧ g2.source_len = g.source_len ∧ g2.source = g.source := by
  have hle : g.enter.current ≤ g.enter.source_len := hlt
  obtain ⟨n, ty, hs, hf⟩ := switchOn_ok (charAt_ne_NUL hlen hlt) hle h
  have hb := scanned_bounds hs hle
  have hc : g.enter.current = g.current + 1 := rfl
  refine ⟨_, _, hf, ?_, hb.2, rfl, rfl⟩
  show g.current < n
  omega

/-- With more fuel than characters left, the loop does not run out of fuel. -/
theorem tokenizeLoop_fuel (HASH_SIZE : Nat) :
    ∀ (fuel : Nat) (g : Lexer) (list : TokenList), g.source_len = strlen g.source →
      g.source_len - g.current < fuel →
      tokenizeLoop HASH_SIZE fuel g list ≠ .outOfFuel := by
  intro fuel
  induction fuel with
  | zero => intro g list _ h; omega
  | succ fuel ih =>
    intro g list hlen hf
    by_cases hlt : g.current < g.source_len
    · have hle : g.enter.current ≤ g.enter.source_len := hlt
      rcases switchOn_cases HASH_SIZE g.enter (g.charAt g.current) list
        (charAt_ne_NUL hlen hlt) hle with ⟨n, ty, hs⟩ | ⟨_, _, ha⟩ | ⟨_, _, _, ha⟩
      · rw [tokenizeLoop_scanned HASH_SIZE fuel list hlt hs]
        have hb := scanned_bounds hs hle
        have hc : g.enter.current = g.current + 1 := rfl
        have hlen2 : (g.enter.moveTo n).source_len = strlen (g.enter.moveTo n).source := hlen
        apply ih (g.enter.moveTo n) _ hlen2
        show g.source_len - n < fuel
        omega
      · rw [tokenizeLoop_step HASH_SIZE fuel list hlt, ha]
        simp
      · rw [tokenizeLoop_step HASH_SIZE fuel list hlt, ha]
        simp
    · rw [tokenizeLoop_done HASH_SIZE fuel list (by omega)]
      simp

theorem tokenize_fuel (HASH_SIZE LIST_SIZE : Nat) (g : Lexer) (s : List Char) :
    tokenize HASH_SIZE LIST_SIZE g s ≠ .outOfFuel := by
  rw [tokenize_eq]
  apply tokenizeLoop_fuel HASH_SIZE _ _ _ (load_source_len HASH_SIZE g s)
  rw [load_source_len]
  omega

theorem outcome_cases {α : Type} (r : Outcome α) (h : r ≠ .outOfFuel) :
    (∃ a, r = .ok a) ∨ (∃ e, r = .abort e) := by
  cases r with
  | ok a => exact Or.inl ⟨a, rfl⟩
  | abort e => exact Or.inr ⟨e, rfl⟩
  | outOfFuel => exact absurd rfl h

/-- Every token the loop adds has a lexeme of at least one character, so the tokens
are no more than the characters passed. -/
theorem tokenizeLoop_count (HASH_SIZE fuel : Nat) (g : Lexer) (list : TokenList)
    (r : TokenList × Lexer) (hlen : g.source_len = strlen g.source)
    (h0 : ∀ t ∈ list.tokens, t.lexeme ≠ []) (h1 : list.tokens.length ≤ g.current)
    (h : tokenizeLoop HASH_SIZE fuel g list = .ok r) :
    (∀ t ∈ r.1.tokens, t.lexeme ≠ []) ∧ r.1.tokens.length ≤ r.2.current := by
  have key := tokenizeLoop_invariant HASH_SIZE
    (fun g' l' => (∀ t ∈ l'.tokens, t.lexeme ≠ []) ∧ l'.tokens.length ≤ g'.current)
    (by
      intro g' l' n ty hI _ hlt hs
      have hb := scanned_bounds hs (show g'.enter.current ≤ g'.enter.source_len from hlt)
      have hc : g'.enter.current = g'.current + 1 := rfl
      constructor
      · intro t ht
        rw [addToken_tokens, List.mem_append, List.mem_singleton] at ht
        rcases ht with ht | ht
        · exact hI.1 t ht
        · rw [ht]
          intro he
          have hl := lexeme_length (g'.enter.moveTo n)
          rw [show (g'.enter.moveTo n).lexeme = [] from he] at hl
          have h2 : (g'.enter.moveTo n).current - (g'.enter.moveTo n).start = n - g'.current :=
            rfl
          rw [h2] at hl
          simp at hl
          omega
      · rw [addToken_tokens, List.length_append, List.length_singleton]
        show l'.tokens.length + 1 ≤ n
        have := hI.2
        omega)
    fuel g list r hlen ⟨h0, h1⟩ h
  exact key.1

/-- C17. `tokenize` terminates, in every state of the file-scope variables and on every
text: it returns a token list or takes one of the error exits. Each iteration of the
dispatch loop that completes leaves the cursor strictly after the place where the
iteration began and not past `source_len`, and `advance` moves the cursor one step
forward; every token returned has a non-empty lexeme, and the number of tokens
returned is at most the length of the text. -/
theorem tokenize_terminates (HASH_SIZE LIST_SIZE : Nat) (g : Lexer) (s : List Char) :
    ((∃ r, tokenize HASH_SIZE LIST_SIZE g s = .ok r) ∨
      (∃ e, tokenize HASH_SIZE LIST_SIZE g s = .abort e)) ∧
    (∀ (g1 : Lexer) (list : TokenList) (f : Flow), g1.source_len = strlen g1.source →
      g1.current < g1.source_len →
      switchOn HASH_SIZE (g1.charAt g1.current) g1.enter list = .ok f →
      ∃ g2 list2, f = .brk g2 list2 ∧ g1.current < g2.current ∧
        g2.current ≤ g1.source_len ∧ g2.source_len = g1.source_len ∧
        g1.source_len - g2.current < g1.source_len - g1.current) ∧
    (∀ g1 : Lexer, (advance g1).2.current = g1.current + 1) ∧
    (∀ toks, tokensOf (tokenize HASH_SIZE LIST_SIZE g s) = some toks →
      (∀ t ∈ toks, t.lexeme ≠ []) ∧ toks.length ≤ strlen s ∧ toks.length ≤ s.length) := by
  refine ⟨outcome_cases _ (tokenize_fuel HASH_SIZE LIST_SIZE g s), ?_, fun _ => rfl, ?_⟩
  · intro g1 list f hlen hlt h
    obtain ⟨g2, list2, hf, h1, h2, h3, _⟩ := switchOn_progress hlen hlt h
    exact ⟨g2, list2, hf, h1, h2, h3, by omega⟩
  · intro toks h
    by_cases hst : strlen s ≤ g.current
    · have h2 := tokenize_stale_cursor HASH_SIZE LIST_SIZE g s hst
      rw [h2] at h
      cases h
      simp
    · obtain ⟨r, hr, rfl⟩ := tokensOf_eq_some h
      rw [tokenize_eq] at hr
      have hlen := load_source_len HASH_SIZE g s
      have hc := tokenizeLoop_count HASH_SIZE _ _ _ r hlen
        (by intro t ht; cases ht) (Nat.zero_le _) hr
      have hfin := tokenizeLoop_final_cursor HASH_SIZE _ _ _ r hlen
        (by rw [load_source_len, load_current]; omega) hr
      rw [load_source_len] at hfin
      have := strlen_le_length s
      exact ⟨hc.1, by omega, by omega⟩

theorem tokenize_terminates_witness :
    (∃ r, tokenize 101 8 Lexer.init "a+b".toList = .ok r) ∨
      (∃ e, tokenize 101 8 Lexer.init "a+b".toList = .abort e) :=
  (tokenize_terminates 101 8 Lexer.init "a+b".toList).1

/-! ## The kind determines the lexeme -/

theorem singleChars_spelling : ∀ c ∈ singleChars,
    ∃ ty, singleKind c = some ty ∧ spelling ty = some [c] := by
  decide

theorem opChars_spelling : ∀ c ∈ opChars,
    ∃ ty, opKind c = some ty ∧ spelling ty = some [c] := by
  decide

theorem compoundSpellings_spelling : ∀ p ∈ compoundSpellings,
    ∃ ty, compoundKind p.1 p.2 = some ty ∧ spelling ty = some [p.1, p.2] := by
  decide

theorem reservedWords_spelling : ∀ w ∈ reservedWords,
    ∃ ty, keywordKind w = some ty ∧ spelling ty = some w := by
  decide

theorem singleKind_spelling {c : Char} {ty : TokenType} (h : singleKind c = some ty) :
    spelling ty = some [c] := by
  obtain ⟨t2, h1, h2⟩ := singleChars_spelling c (singleKind_mem h)
  have e : t2 = ty := Option.some.inj (h1.symm.trans h)
  rw [← e]
  exact h2

theorem opKind_spelling {c : Char} {ty : TokenType} (h : opKind c = some ty) :
    spelling ty = some [c] := by
  obtain ⟨t2, h1, h2⟩ := opChars_spelling c (opKind_mem h)
  have e : t2 = ty := Option.some.inj (h1.symm.trans h)
  rw [← e]
  exact h2

theorem compoundKind_spelling {c d : Char} {ty : TokenType}
    (h : compoundKind c d = some ty) : spelling ty = some [c, d] := by
  obtain ⟨t2, h1, h2⟩ := compoundSpellings_spelling (c, d) (compoundKind_mem h)
  have e : t2 = ty := Option.some.inj (h1.symm.trans h)
  rw [← e]
  exact h2

theorem keywordKind_spelling {w : List Char} {ty : TokenType}
    (h : keywordKind w = some ty) : spelling ty = some w := by
  have hm : w ∈ reservedWords := by
    by_contra hn
    rw [keywordKind_of_not_mem hn] at h
    cases h
  obtain ⟨t2, h1, h2⟩ := reservedWords_spelling w hm
  have e : t2 = ty := Option.some.inj (h1.symm.trans h)
  rw [← e]
  exact h2

/-- The lexeme of a token scanned inside the text holds no NUL. -/
theorem lexeme_nulfree (g : Lexer) (hlen : g.source_len = strlen g.source) {n : Nat}
    (hn : n ≤ g.source_len) : cstr (g.enter.moveTo n).lexeme = (g.enter.moveTo n).lexeme := by
  apply cstr_eq_self
  intro d hd
  obtain ⟨j, _, hj, rfl⟩ := lexeme_mem g hd
  exact charAt_ne_NUL hlen (by omega)

theorem spelled_of_fixed {ty : TokenType} {w : List Char} (h : spelling ty = some w) :
    SpelledByKind { type := ty, lexeme := w } := by
  refine ⟨?_, ?_⟩
  · intro v hv
    exact Option.some.inj (h.symm.trans hv)
  · intro hi
    have hi2 : ty = .IDENTIFIER := hi
    rw [hi2] at h
    cases h

theorem spelled_of_free {ty : TokenType} (w : List Char) (h : spelling ty = none)
    (hi : ty ≠ .IDENTIFIER) : SpelledByKind { type := ty, lexeme := w } := by
  refine ⟨?_, fun e => absurd e hi⟩
  intro v hv
  have hv2 : spelling ty = some v := hv
  rw [h] at hv2
  cases hv2

theorem spelled_of_keywordKind (w : List Char) :
    SpelledByKind { type := (keywordKind w).getD .IDENTIFIER, lexeme := w } := by
  cases hk : keywordKind w with
  | some k => exact spelled_of_fixed (keywordKind_spelling hk)
  | none =>
    refine ⟨?_, ?_⟩
    · intro v hv
      cases hv
    · intro _ hm
      obtain ⟨k, h1, _⟩ := keywordKind_of_mem w hm
      have hm2 : w ∈ reservedWords := hm
      rw [hk] at h1
      cases h1

/-- Every token the `switch` scans, with the keyword table of the first call, carries
the spelling of its kind. -/
theorem scanned_spelled {HASH_SIZE : Nat} {g : Lexer} {n : Nat} {ty : TokenType}
    (htab : g.hashtab = putKeywords HASH_SIZE emptyTable)
    (hlen : g.source_len = strlen g.source) (hlt : g.current < g.source_len)
    (hs : Scanned HASH_SIZE g.enter (g.charAt g.current) n ty) :
    SpelledByKind { type := ty, lexeme := (g.enter.moveTo n).lexeme } := by
  have hb := scanned_bounds hs (show g.enter.current ≤ g.enter.source_len from hlt)
  have hnul := lexeme_nulfree g hlen hb.2
  cases hs with
  | single h =>
    show SpelledByKind { type := ty, lexeme := (g.enter.moveTo (g.current + 1)).lexeme }
    rw [lexeme_one]
    exact spelled_of_fixed (singleKind_spelling h)
  | op h _ =>
    show SpelledByKind { type := ty, lexeme := (g.enter.moveTo (g.current + 1)).lexeme }
    rw [lexeme_one]
    exact spelled_of_fixed (opKind_spelling h)
  | compound _ h =>
    show SpelledByKind { type := ty, lexeme := (g.enter.moveTo (g.current + 1 + 1)).lexeme }
    rw [lexeme_two]
    exact spelled_of_fixed (compoundKind_spelling h)
  | space _ _ => exact spelled_of_free _ rfl (by decide)
  | string _ _ => exact spelled_of_free _ rfl (by decide)
  | preproc _ _ => exact spelled_of_free _ rfl (by decide)
  | number _ _ => exact spelled_of_free _ rfl (by decide)
  | ident _ _ =>
    have h2 : g.enter.hashtab = g.hashtab := rfl
    have hk : identKind HASH_SIZE g.enter n =
        (keywordKind (g.enter.moveTo n).lexeme).getD .IDENTIFIER := by
      rw [identKind_eq, h2, htab, lookup_putKeywords HASH_SIZE _ hnul]
    rw [hk]
    exact spelled_of_keywordKind _

theorem tokenize_forall_table (HASH_SIZE LIST_SIZE : Nat) (P : Token → Prop)
    (hP : ∀ (g : Lexer) n ty, g.hashtab = putKeywords HASH_SIZE emptyTable →
      g.source_len = strlen g.source → g.current < g.source_len →
      Scanned HASH_SIZE g.enter (g.charAt g.current) n ty →
      P { type := ty, lexeme := (g.enter.moveTo n).lexeme })
    (s : List Char) (toks : List Token)
    (h : tokensOf (tokenize HASH_SIZE LIST_SIZE Lexer.init s) = some toks) :
    ∀ t ∈ toks, P t := by
  obtain ⟨r, hr, rfl⟩ := tokensOf_eq_some h
  rw [tokenize_eq] at hr
  have key := tokenizeLoop_invariant HASH_SIZE
    (fun g1 l1 => g1.hashtab = putKeywords HASH_SIZE emptyTable ∧ ∀ t ∈ l1.tokens, P t)
    (by
      intro g1 l1 n ty hI hl hlt hs
      have h2 : (g1.enter.moveTo n).hashtab = g1.hashtab := rfl
      refine ⟨h2.trans hI.1, ?_⟩
      intro t hm
      rw [addToken_tokens] at hm
      rcases List.mem_append.mp hm with hm | hm
      · exact hI.2 t hm
      · rw [List.mem_singleton] at hm
        rw [hm]
        exact hP g1 n ty hI.1 hl hlt hs)
    _ _ _ r (load_source_len HASH_SIZE Lexer.init s)
    ⟨load_init_hashtab HASH_SIZE s, by intro t ht; cases ht⟩ hr
  exact key.1.2

/-- C18. In every token sequence that the first `tokenize` of a run returns, a token
whose kind has a fixed spelling (punctuation, operator, keyword, tab, carriage return,
newline: `spelling`) has exactly that spelling as its lexeme, and a token of kind
IDENTIFIER has none of the reserved spellings as its lexeme. -/
theorem kind_determines_lexeme (HASH_SIZE LIST_SIZE : Nat) (s : List Char)
    (toks : List Token)
    (h : tokensOf (tokenize HASH_SIZE LIST_SIZE Lexer.init s) = some toks) :
    ∀ t ∈ toks, (∀ w, spelling t.type = some w → t.lexeme = w) ∧
      (t.type = .IDENTIFIER → t.lexeme ∉ reservedWords) :=
  tokenize_forall_table HASH_SIZE LIST_SIZE SpelledByKind
    (fun _ _ _ htab hlen hlt hs => scanned_spelled htab hlen hlt hs) s toks h

theorem kind_determines_lexeme_witness :
    ∃ toks, tokensOf (tokenize 101 8 Lexer.init "return x<<=NULL;".toList) = some toks ∧
      ∀ t ∈ toks, (∀ w, spelling t.type = some w → t.lexeme = w) ∧
        (t.type = .IDENTIFIER → t.lexeme ∉ reservedWords) :=
  have h : tokensOf (tokenize 101 8 Lexer.init "return x<<=NULL;".toList) = some _ := rfl
  ⟨_, h, kind_determines_lexeme 101 8 _ _ h⟩

/-! ## Plain texts -/

theorem plainMarks_facts : ∀ c ∈ plainMarks, c ≠ DQUOTE ∧ c ∈ caseLabels := by
  decide

theorem isPlain_cases {c : Char} (h : isPlain c = true) :
    c ≠ DQUOTE ∧ (c ∈ caseLabels ∨ isdigit c = true ∨ isalpha c = true) := by
  unfold isPlain at h
  rw [Bool.or_eq_true, Bool.or_eq_true, decide_eq_true_eq] at h
  rcases h with (h | h) | h
  · refine ⟨?_, Or.inr (Or.inr h)⟩
    intro e
    rw [e] at h
    exact absurd h (by decide)
  · refine ⟨?_, Or.inr (Or.inl h)⟩
    intro e
    rw [e] at h
    exact absurd h (by decide)
  · exact ⟨(plainMarks_facts c h).1, Or.inl (plainMarks_facts c h).2⟩

/-- On a plain text the loop returns. -/
theorem tokenizeLoop_plain (HASH_SIZE : Nat) :
    ∀ (fuel : Nat) (g : Lexer) (list : TokenList), g.source_len = strlen g.source →
      (∀ c ∈ g.source, isPlain c = true) → g.source_len - g.current < fuel →
      ∃ r, tokenizeLoop HASH_SIZE fuel g list = .ok r := by
  intro fuel
  induction fuel with
  | zero => intro g list _ _ h; omega
  | succ fuel ih =>
    intro g list hlen hp hf
    by_cases hlt : g.current < g.source_len
    · have hle : g.enter.current ≤ g.enter.source_len := hlt
      have hin : g.charAt g.current ∈ g.source :=
        getD_mem_of_lt (by have := strlen_le_length g.source; omega)
      have hpl := isPlain_cases (hp _ hin)
      rcases switchOn_cases HASH_SIZE g.enter (g.charAt g.current) list
        (charAt_ne_NUL hlen hlt) hle with ⟨n, ty, hs⟩ | ⟨hq, _, _⟩ | ⟨h1, h2, h3, _⟩
      · rw [tokenizeLoop_scanned HASH_SIZE fuel list hlt hs]
        have hb := scanned_bounds hs hle
        have hc : g.enter.current = g.current + 1 := rfl
        have hlen2 : (g.enter.moveTo n).source_len = strlen (g.enter.moveTo n).source := hlen
        apply ih (g.enter.moveTo n) _ hlen2 hp
        show g.source_len - n < fuel
        omega
      · exact absurd hq hpl.1
      · rcases hpl.2 with h | h | h
        · exact absurd h h1
        · rw [h2] at h
          cases h
        · rw [h3] at h
          cases h
    · exact ⟨_, tokenizeLoop_done HASH_SIZE fuel list (by omega)⟩

/-- C19. On a text made only of ASCII letters, decimal digits, the characters
`( ) { } [ ] ; , . ^ ~ - + * % / < > = ! & |`, spaces, tabs, carriage returns and
newlines, `tokenize` returns a token sequence, in every state of the file-scope
variables: it takes neither the unterminated-string exit nor the
unexpected-character exit. -/
theorem tokenize_plain_succeeds (HASH_SIZE LIST_SIZE : Nat) (g : Lexer) (s : List Char)
    (hs : ∀ c ∈ s, isPlain c = true) :
    ∃ r, tokenize HASH_SIZE LIST_SIZE g s = .ok r ∧
      tokensOf (tokenize HASH_SIZE LIST_SIZE g s) = some r.1.tokens := by
  rw [tokenize_eq]
  have hlen := load_source_len HASH_SIZE g s
  obtain ⟨r, hr⟩ := tokenizeLoop_plain HASH_SIZE (strlen s + 2) (g.load HASH_SIZE s)
    (initTokenList LIST_SIZE) hlen hs (by rw [hlen]; omega)
  exact ⟨r, hr, by rw [hr]; rfl⟩

theorem tokenize_plain_succeeds_witness :
    ∃ r, tokenize 101 8 Lexer.init "x = (a1 + 2.5) * b[3];\n".toList = .ok r ∧
      tokensOf (tokenize 101 8 Lexer.init "x = (a1 + 2.5) * b[3];\n".toList) =
        some r.1.tokens :=
  tokenize_plain_succeeds 101 8 Lexer.init "x = (a1 + 2.5) * b[3];\n".toList (by decide)

/-! ## The hash function -/

theorem hashLoop_eq_foldl (s : List Char) (hs : ∀ c ∈ s, c ≠ NUL) :
    ∀ a, hashLoop s a =
      s.foldl (fun running c => (31 * running + charValue c) % 2 ^ 32) a := by
  induction s with
  | nil => intro a; rfl
  | cons c s ih =>
    intro a
    have hc : c ≠ NUL := hs c (by simp)
    have hrest : ∀ d ∈ s, d ≠ NUL := fun d hd => hs d (by simp [hd])
    simp only [hashLoop, hc, if_false, List.foldl_cons]
    rw [ih hrest, Nat.add_comm]

theorem charValue_of_lt {c : Char} (h : c.toNat < 128) : charValue c = c.toNat := by
  unfold charValue
  rw [if_pos h]

/-- On 7-bit bytes the loop of the code adds the byte itself. -/
theorem foldl_seven_bit (s : List Char) (hs : ∀ c ∈ s, c.toNat < 128) :
    ∀ a, s.foldl (fun running c => (31 * running + charValue c) % 2 ^ 32) a =
      s.foldl (fun running c => (31 * running + c.toNat) % 2 ^ 32) a := by
  induction s with
  | nil => intro a; rfl
  | cons c s ih =>
    intro a
    have hrest : ∀ d ∈ s, d.toNat < 128 := fun d hd => hs d (by simp [hd])
    simp only [List.foldl_cons]
    rw [charValue_of_lt (hs c (by simp)), ih hrest]

theorem foldl_wrap (s : List Char) :
    ∀ a, s.foldl (fun running c => (31 * running + c.toNat) % 2 ^ 32) (a % 2 ^ 32) =
      (s.foldl (fun running c => 31 * running + c.toNat) a) % 2 ^ 32 := by
  induction s with
  | nil => intro a; rfl
  | cons c s ih =>
    intro a
    simp only [List.foldl_cons]
    have h : (31 * (a % 2 ^ 32) + c.toNat) % 2 ^ 32 = (31 * a + c.toNat) % 2 ^ 32 := by
      omega
    rw [h, ih]

theorem put_other_bucket (HASH_SIZE : Nat) (tab : Nat → List Hashlist) (k : List Char)
    (v : TokenType) (i : Nat) (hi : i ≠ hash HASH_SIZE k) :
    (put HASH_SIZE tab k v).2 i = tab i := by
  unfold put
  cases lookup HASH_SIZE tab k with
  | none => exact Function.update_noteq hi _ _
  | some h => exact Function.update_noteq hi _ _

/-- C20 as stated fails. The one-byte string of the byte 0x80 is NUL-free; with 101
buckets `hash` gives 41 for it, because the code adds the sign-extended `char`, and the
rolling hash of the specification gives 27. -/
theorem hash_high_byte_differs :
    (∀ c ∈ [Char.ofNat 128], c ≠ NUL) ∧ hash 101 [Char.ofNat 128] = 41 ∧
      hashSpec 101 [Char.ofNat 128] = 27 ∧
      hash 101 [Char.ofNat 128] ≠ hashSpec 101 [Char.ofNat 128] := by
  decide

/-- C20, as amended. For every NUL-free string `s` and positive bucket count: when all
bytes of `s` are 7-bit (below 0x80, as in ASCII keywords and identifiers), `hash` is the
rolling hash of the specification (running value from 0, replaced by 31 times itself
plus the byte, in a 32-bit `unsigned int`, reduced modulo `HASH_SIZE`), which is the
value of the polynomial at 31 modulo `2 ^ 32` and then modulo `HASH_SIZE`; for all
bytes `hash` is the same fold with the sign-extended `char` value in place of the byte.
For every `s` the result is less than `HASH_SIZE`; the hash of the empty string is 0;
strings that are equal as C strings have the same hash; `put` changes only the bucket
of the hash of its key, and `lookup` of an equal string walks that bucket and finds the
code put. -/
theorem hash_rolling (HASH_SIZE : Nat) (s : List Char) (hs : ∀ c ∈ s, c ≠ NUL)
    (hH : 0 < HASH_SIZE) :
    ((∀ c ∈ s, c.toNat < 128) →
      hash HASH_SIZE s = hashSpec HASH_SIZE s ∧
      hash HASH_SIZE s = polyValue s % 2 ^ 32 % HASH_SIZE) ∧
    hash HASH_SIZE s =
      (s.foldl (fun running c => (31 * running + charValue c) % 2 ^ 32) 0) % HASH_SIZE ∧
    hash HASH_SIZE s < HASH_SIZE ∧
    hash HASH_SIZE [] = 0 ∧
    (∀ t, cstr t = cstr s → hash HASH_SIZE t = hash HASH_SIZE s) ∧
    (∀ (tab : Nat → List Hashlist) (v : TokenType),
      (∀ i, i ≠ hash HASH_SIZE s → (put HASH_SIZE tab s v).2 i = tab i) ∧
      ∀ t, cstr t = cstr s →
        lookup HASH_SIZE (put HASH_SIZE tab s v).2 t =
          lookupChain t ((put HASH_SIZE tab s v).2 (hash HASH_SIZE s)) ∧
        (lookup HASH_SIZE (put HASH_SIZE tab s v).2 t).map (fun h => h.val) = some v) := by
  have h0 : hash HASH_SIZE s =
      (s.foldl (fun running c => (31 * running + charValue c) % 2 ^ 32) 0) % HASH_SIZE := by
    unfold hash
    rw [hashLoop_eq_foldl s hs]
  refine ⟨?_, h0, hash_lt HASH_SIZE s hH, Nat.zero_mod _,
    fun t ht => hash_congr HASH_SIZE ht, ?_⟩
  · intro h7
    have h1 : hash HASH_SIZE s = hashSpec HASH_SIZE s := by
      rw [h0, foldl_seven_bit s h7]
      rfl
    refine ⟨h1, ?_⟩
    rw [h1]
    unfold hashSpec polyValue
    have h2 := foldl_wrap s 0
    rw [Nat.zero_mod] at h2
    rw [h2]
  · intro tab v
    refine ⟨fun i hi => put_other_bucket HASH_SIZE tab s v i hi, ?_⟩
    intro t ht
    constructor
    · unfold lookup
      rw [hash_congr HASH_SIZE ht]
    · rw [lookup_put_val, if_pos ht]

theorem hash_rolling_witness :
    hash 101 "if".toList = hashSpec 101 "if".toList ∧ hash 101 "if".toList < 101 ∧
      hash 101 "if".toList = 24 :=
  ⟨((hash_rolling 101 "if".toList (by decide) (by decide)).1 (by decide)).1,
   (hash_rolling 101 "if".toList (by decide) (by decide)).2.2.1, by decide⟩

end Codify
